import Mathlib

/-!
ShiftMulPass: a shallow embedding of `shift_mul_pass.cpp`, with the naming rule of
`var_renamer_plugin.cpp` beside it (namespace `VarRenamer`).

The pass scans every instruction of a function and replaces each integer
multiply that has a constant power-of-two operand by a left shift.

The embedding keeps the mutation explicit.  A function is a list of basic
blocks, a basic block a list of instructions, and an instruction is known by
its identity (`id`, the address of the C++ object).  The scan is a cursor
that walks the instruction list it is mutating: `PassState.Head` holds the
instructions of the current block that lie before the cursor, `PassState.Tail`
those from the cursor on.

The IR library the pass is written against (APInt, ConstantInt, IRBuilder
with its default constant folder, replaceAllUsesWith, eraseFromParent) is
modelled beside the pass, each operation under the name it has in C++.
-/

namespace ShiftMul

/-! ## APInt -/

/-- An integer of a fixed bit width: `VAL` is the unsigned reading of its bits. -/
structure APInt where
  BitWidth : Nat
  VAL : Nat
  deriving DecidableEq, Repr

namespace APInt

/-- Well-formed integers hold a value that fits their width. -/
def WellFormed (a : APInt) : Prop := a.VAL < 2 ^ a.BitWidth

instance (a : APInt) : Decidable a.WellFormed := by
  unfold WellFormed; infer_instance

/-- The value read as a truth value: `getBoolValue`. -/
def getBoolValue (a : APInt) : Bool := a.VAL != 0

/-- The test `operator!`: true when every bit is clear. -/
def isZero (a : APInt) : Bool := a.VAL == 0

/-- Subtraction of a machine word, `operator-(APInt, uint64_t)`, modulo `2^BitWidth`. -/
def sub (a : APInt) (RHS : Nat) : APInt :=
  ⟨a.BitWidth, (a.VAL + 2 ^ a.BitWidth - RHS % 2 ^ a.BitWidth) % 2 ^ a.BitWidth⟩

/-- Bitwise and, `operator&`. -/
def and (a b : APInt) : APInt := ⟨a.BitWidth, a.VAL &&& b.VAL⟩

/-- Multiplication modulo `2^BitWidth`, the value of an integer `mul`. -/
def mul (a b : APInt) : APInt := ⟨a.BitWidth, (a.VAL * b.VAL) % 2 ^ a.BitWidth⟩

/-- Left shift by `ShiftAmt < BitWidth`, modulo `2^BitWidth`: the value of an integer `shl`. -/
def shl (a : APInt) (ShiftAmt : Nat) : APInt :=
  ⟨a.BitWidth, (a.VAL <<< ShiftAmt) % 2 ^ a.BitWidth⟩

/-- Number of zero bits above the highest set bit, scanning down from bit `w - 1`. -/
def countLeadingZerosFrom : Nat → Nat → Nat
  | 0, _ => 0
  | w + 1, v => if v.testBit w then 0 else countLeadingZerosFrom w v + 1

/-- Leading zero count over the whole width: `countl_zero`. -/
def countl_zero (a : APInt) : Nat := countLeadingZerosFrom a.BitWidth a.VAL

/-- Number of bits needed to hold the value: `getActiveBits`. -/
def getActiveBits (a : APInt) : Nat := a.BitWidth - a.countl_zero

/-- Index of the highest set bit: `logBase2`, which is `getActiveBits() - 1`. -/
def logBase2 (a : APInt) : Nat := a.getActiveBits - 1

/-- Library test `isPowerOf2`: nonzero with a single bit set. -/
def isPowerOf2 (a : APInt) : Bool := a.VAL != 0 && (a.VAL &&& (a.VAL - 1)) == 0

/-- Library `exactLogBase2`: an `int32_t`, `-1` when the value is not a power of two. -/
def exactLogBase2 (a : APInt) : Int :=
  if !a.isPowerOf2 then -1 else (a.logBase2 : Int)

/-- The signed (two's-complement) reading of the bits. -/
def getSExtValue (a : APInt) : Int :=
  if a.VAL < 2 ^ (a.BitWidth - 1) then (a.VAL : Int) else (a.VAL : Int) - 2 ^ a.BitWidth

end APInt

/-! ## Types, values, instructions -/

/-- Smallest width an integer type can have. -/
def MIN_INT_BITS : Nat := 1

/-- Largest width an integer type can have. -/
def MAX_INT_BITS : Nat := 2 ^ 23

/-- Result types of instructions. -/
inductive Ty where
  | IntegerTy (N : Nat)
  | FloatTy
  | VectorTy (N : Nat) (Len : Nat)
  | OtherTy (tag : Nat)
  deriving DecidableEq, Repr

/-- The test `isIntegerTy`: a scalar integer type, never a vector. -/
def Ty.isIntegerTy : Ty → Bool
  | .IntegerTy _ => true
  | _ => false

/-- Compile-time constants.  `Other` stands for every constant that is not a
`ConstantInt` and not poison: undef, constant expressions, floating constants. -/
inductive Constant where
  | ConstantInt (Val : APInt)
  | Poison
  | Other (tag : Nat)
  deriving DecidableEq, Repr

/-- Whatever an operand can refer to: a constant, a function argument, or the
result of the instruction with the given identity. -/
inductive Value where
  | Const (C : Constant)
  | Argument (ArgNo : Nat)
  | Inst (id : Nat)
  deriving DecidableEq, Repr

/-- The test `isa<Constant>`. -/
def Value.isConstant : Value → Bool
  | .Const _ => true
  | _ => false

/-- Opcodes of `BinaryOperator`. -/
inductive BinaryOps where
  | Add | FAdd | Sub | FSub | Mul | FMul | UDiv | SDiv | FDiv
  | URem | SRem | FRem | Shl | LShr | AShr | And | Or | Xor
  deriving DecidableEq, Repr

/-- An instruction is either a `BinaryOperator` with its two operands, or any
other instruction (return, branch, phi, call, compare, ...) with its operand list. -/
inductive Instruction where
  | BinaryOperator (id : Nat) (Opcode : BinaryOps) (T : Ty) (LHS RHS : Value)
  | Other (id : Nat) (Opcode : Nat) (T : Ty) (Operands : List Value)
  deriving DecidableEq, Repr

/-- Identity of an instruction. -/
def Instruction.id : Instruction → Nat
  | .BinaryOperator id _ _ _ _ => id
  | .Other id _ _ _ => id

/-- Result type of an instruction. -/
def Instruction.getType : Instruction → Ty
  | .BinaryOperator _ _ T _ _ => T
  | .Other _ _ T _ => T

/-- Operand list of an instruction. -/
def Instruction.operands : Instruction → List Value
  | .BinaryOperator _ _ _ L R => [L, R]
  | .Other _ _ _ Ops => Ops

/-- A basic block: its instructions in program order. -/
abbrev BasicBlock := List Instruction

/-- A function: its name and its basic blocks in layout order. -/
structure Function where
  Name : String
  Blocks : List BasicBlock
  deriving DecidableEq, Repr

/-- Every instruction of the function, block after block. -/
def Function.instructions (F : Function) : List Instruction := F.Blocks.flatten

/-- What the pass hands back to the pass manager. -/
inductive PreservedAnalyses where
  | none
  | all
  deriving DecidableEq, Repr

/-! ## Library operations used by the pass -/

/-- The cast `dyn_cast<ConstantInt>`. -/
def dyn_cast_ConstantInt : Value → Option APInt
  | .Const (.ConstantInt Val) => some Val
  | _ => Option.none

/-- The constant built by `ConstantInt::get(Type, uint64_t)`: the word cut to the
width of the integer type. -/
def ConstantInt.get (T : Ty) (V : Nat) : APInt :=
  match T with
  | .IntegerTy N => ⟨N, V % 2 ^ N⟩
  | _ => ⟨0, 0⟩

/-- Folding of a shift of two constants by the builder's default folder.  Two
`ConstantInt`s always fold: to the shifted integer when the amount is below the
width, to poison otherwise.  What happens with any other constant depends on the
library version and is left to `Folder`; `none` means that nothing is folded. -/
def FoldShl (Folder : Constant → Constant → Option Constant) (LC RC : Constant) :
    Option Constant :=
  match LC, RC with
  | .ConstantInt C1, .ConstantInt C2 =>
      if C2.VAL < C1.BitWidth then some (.ConstantInt (C1.shl C2.VAL)) else some .Poison
  | _, _ => Folder LC RC

/-- The builder call `CreateShl(LHS, RHS)`.  When both operands are constants and the
folder folds them, the folded constant is returned and no instruction is created;
otherwise a new `shl` with identity `fresh` is created (to be inserted at the
builder's insertion point) and its result is returned.  `T` is the type of `LHS`,
which the new instruction takes; for a well-typed multiply it is the multiply's type. -/
def CreateShl (Folder : Constant → Constant → Option Constant) (fresh : Nat) (T : Ty)
    (LHS RHS : Value) : Value × Option Instruction :=
  let created := (Value.Inst fresh, some (Instruction.BinaryOperator fresh .Shl T LHS RHS))
  match LHS, RHS with
  | .Const LC, .Const RC =>
      match FoldShl Folder LC RC with
      | some C => (.Const C, Option.none)
      | Option.none => created
  | _, _ => created

/-- One use redirected: an operand that is the result of instruction `Old` becomes `New`. -/
def Value.replaceUsesOfWith (Old : Nat) (New : Value) (V : Value) : Value :=
  if V = .Inst Old then New else V

/-- Every operand of the instruction that refers to `Old` is redirected to `New`. -/
def Instruction.replaceUsesOfWith (Old : Nat) (New : Value) : Instruction → Instruction
  | .BinaryOperator id Op T L R =>
      .BinaryOperator id Op T (Value.replaceUsesOfWith Old New L) (Value.replaceUsesOfWith Old New R)
  | .Other id Op T Ops => .Other id Op T (Ops.map (Value.replaceUsesOfWith Old New))

/-! ## The pass -/

/-- Source lines 18-20: `Val.getBoolValue() && !(Val & (Val - 1))`. -/
def isPowerOfTwo (Val : APInt) : Bool :=
  Val.getBoolValue && (Val.and (Val.sub 1)).isZero

/-- Source lines 34-51: the choice of `PowerOfTwo`, `OtherOperand` and
`IsLeftOperand`; `none` is the `continue` of line 51. -/
def selectPowerOfTwo (LHS RHS : Value) : Option (APInt × Value × Bool) :=
  match dyn_cast_ConstantInt LHS, dyn_cast_ConstantInt RHS with
  | some LHSC, RHSC =>
      if isPowerOfTwo LHSC then some (LHSC, RHS, true)
      else match RHSC with
        | some RHSC => if isPowerOfTwo RHSC then some (RHSC, LHS, false) else Option.none
        | Option.none => Option.none
  | Option.none, some RHSC =>
      if isPowerOfTwo RHSC then some (RHSC, LHS, false) else Option.none
  | Option.none, Option.none => Option.none

/-- Source lines 53-54: `unsigned ShiftAmount = ShiftValue.exactLogBase2()`, the
`int32_t` converted to a 32-bit unsigned. -/
def ShiftAmount (ShiftValue : APInt) : Nat := (ShiftValue.exactLogBase2 % 2 ^ 32).toNat

/-- The state of a run: the function being mutated, split at the cursor of the scan.
`Prev` are the blocks already scanned, `Head` the instructions of the current block
before the cursor, `Tail` those from the cursor on, `Next` the blocks still to scan.
`fresh` is the identity the next created instruction gets, `errs` the diagnostic
stream, and `Replaced` records each `replaceAllUsesWith(NewInst)` call as it is made. -/
structure PassState where
  Prev : List BasicBlock
  Head : List Instruction
  Tail : List Instruction
  Next : List BasicBlock
  Changed : Bool
  fresh : Nat
  errs : List String
  Replaced : List (Nat × Value)
  deriving DecidableEq, Repr

/-- The call `BinOp->replaceAllUsesWith(NewInst)`: every use in the function, in
whichever block, is redirected. -/
def PassState.replaceAllUsesWith (S : PassState) (Old : Nat) (New : Value) : PassState :=
  { S with
    Prev := S.Prev.map (List.map (Instruction.replaceUsesOfWith Old New))
    Head := S.Head.map (Instruction.replaceUsesOfWith Old New)
    Tail := S.Tail.map (Instruction.replaceUsesOfWith Old New)
    Next := S.Next.map (List.map (Instruction.replaceUsesOfWith Old New))
    Replaced := S.Replaced ++ [(Old, New)] }

/-- Source lines 53-67, for the multiply `id` of type `T` standing at the cursor with
`Rest` after it.  The shift is created before the multiply, all uses of the multiply
are redirected, and the multiply is erased. -/
def rewriteMul (Folder : Constant → Constant → Option Constant) (Name : String)
    (S : PassState) (id : Nat) (T : Ty) (LHS RHS : Value) (Rest : List Instruction)
    (PowerOfTwo : APInt) (OtherOperand : Value) : PassState :=
  let ShiftConst := ConstantInt.get T (ShiftAmount PowerOfTwo)
  let NewInst := CreateShl Folder S.fresh T OtherOperand (.Const (.ConstantInt ShiftConst))
  -- the builder inserts what it created before `BinOp`
  let S1 : PassState :=
    { S with
      Head := S.Head ++ NewInst.2.toList
      Tail := Instruction.BinaryOperator id .Mul T LHS RHS :: Rest
      fresh := S.fresh + NewInst.2.toList.length }
  let S2 := S1.replaceAllUsesWith id NewInst.1
  -- `eraseFromParent`: the multiply leaves the block, the cursor is already past it
  { S2 with
    Tail := S2.Tail.tail
    Changed := true
    errs := S2.errs ++ ["Replaced mul with shl in: " ++ Name ++ "\n"] }

/-- One iteration of the loop of line 26.  The early-increment range moves the
cursor past the current instruction before the body runs. -/
def visit (Folder : Constant → Constant → Option Constant) (Name : String)
    (S : PassState) : PassState :=
  match S.Tail with
  | [] => S
  | I :: Rest =>
    let Skip : PassState := { S with Head := S.Head ++ [I], Tail := Rest }
    match I with
    | .Other _ _ _ _ => Skip
    | .BinaryOperator id Opcode T LHS RHS =>
      if Opcode ≠ .Mul then Skip
      else if !T.isIntegerTy then Skip
      else
        match selectPowerOfTwo LHS RHS with
        | Option.none => Skip
        | some (PowerOfTwo, OtherOperand, _) =>
            rewriteMul Folder Name S id T LHS RHS Rest PowerOfTwo OtherOperand

/-- The loop of line 26 over one block: iterate until the cursor reaches the end. -/
def scanInstructions (Folder : Constant → Constant → Option Constant) (Name : String) :
    Nat → PassState → PassState
  | 0, S => S
  | fuel + 1, S =>
    match S.Tail with
    | [] => S
    | _ :: _ => scanInstructions Folder Name fuel (visit Folder Name S)

/-- The loop of line 25 over the blocks of the function. -/
def scanBlocks (Folder : Constant → Constant → Option Constant) (Name : String) :
    Nat → PassState → PassState
  | 0, S => S
  | fuel + 1, S =>
    match S.Next with
    | [] => S
    | BB :: Rest =>
      let S1 := scanInstructions Folder Name BB.length
        { S with Head := [], Tail := BB, Next := Rest }
      scanBlocks Folder Name fuel
        { S1 with Prev := S1.Prev ++ [S1.Head ++ S1.Tail], Head := [], Tail := [] }

/-- An identity above every instruction of the function. -/
def Function.freshId (F : Function) : Nat :=
  (F.instructions.map Instruction.id).foldr (fun a b => max (a + 1) b) 0

/-- The state on entry to `run`. -/
def PassState.entry (F : Function) : PassState :=
  { Prev := [], Head := [], Tail := [], Next := F.Blocks, Changed := false,
    fresh := F.freshId, errs := [], Replaced := [] }

/-- The state when `run` returns. -/
def runState (Folder : Constant → Constant → Option Constant) (F : Function) : PassState :=
  scanBlocks Folder F.Name F.Blocks.length (PassState.entry F)

/-- The pass `ShiftMulPass::run`: the mutated function and the returned
`PreservedAnalyses` (`none` when `Changed`, `all` otherwise). -/
def run (Folder : Constant → Constant → Option Constant) (F : Function) :
    Function × PreservedAnalyses :=
  let S := runState Folder F
  (⟨F.Name, S.Prev⟩, if S.Changed then PreservedAnalyses.none else PreservedAnalyses.all)

/-- A folder that folds nothing but pairs of `ConstantInt`s. -/
def NoFold : Constant → Constant → Option Constant := fun _ _ => Option.none

/-! ## Specification vocabulary -/

/-- An operand that is a constant power of two. -/
def isPowerOfTwoConstant (V : Value) : Bool :=
  match dyn_cast_ConstantInt V with
  | some C => isPowerOfTwo C
  | Option.none => false

/-- Eligible multiply: an integer-typed `Mul` with at least one constant power-of-two operand. -/
def eligible : Instruction → Bool
  | .BinaryOperator _ Opcode T LHS RHS =>
      decide (Opcode = .Mul) && T.isIntegerTy && (isPowerOfTwoConstant LHS || isPowerOfTwoConstant RHS)
  | .Other _ _ _ _ => false

/-- The tests of lines 27-51 on one instruction: the identity and type of the multiply
with the chosen `PowerOfTwo` and `OtherOperand`, or `none` where the body leaves by
`continue` (or the instruction is no `BinaryOperator`). -/
def matchMul : Instruction → Option (Nat × Ty × APInt × Value)
  | .Other _ _ _ _ => Option.none
  | .BinaryOperator id Opcode T LHS RHS =>
      if Opcode ≠ .Mul then Option.none
      else if !T.isIntegerTy then Option.none
      else
        match selectPowerOfTwo LHS RHS with
        | Option.none => Option.none
        | some (PowerOfTwo, OtherOperand, _) => some (id, T, PowerOfTwo, OtherOperand)

/-- The value `NewInst` of line 61 for a matched multiply, with the instruction the
builder created for it (none when the shift was folded). -/
def NewInst (Folder : Constant → Constant → Option Constant) (fresh : Nat) (T : Ty)
    (PowerOfTwo : APInt) (OtherOperand : Value) : Value × Option Instruction :=
  CreateShl Folder fresh T OtherOperand
    (.Const (.ConstantInt (ConstantInt.get T (ShiftAmount PowerOfTwo))))

/-- A width that an integer type can have. -/
def IsBitWidth (N : Nat) : Prop := MIN_INT_BITS ≤ N ∧ N ≤ MAX_INT_BITS

instance (N : Nat) : Decidable (IsBitWidth N) := by
  unfold IsBitWidth; infer_instance

/-- The instruction is an operand-wise constant one: both operands of a binary
operator are compile-time constants. -/
def bothConstant : Instruction → Bool
  | .BinaryOperator _ _ _ LHS RHS => LHS.isConstant && RHS.isConstant
  | .Other _ _ _ _ => false

/-- Identities of the instructions of a list. -/
def ids (L : List Instruction) : List Nat := L.map Instruction.id

/-- A function whose instructions have pairwise distinct identities. -/
def Function.WellFormed (F : Function) : Prop := (ids F.instructions).Nodup

instance (F : Function) : Decidable F.WellFormed := by
  unfold Function.WellFormed; infer_instance

/-- The instructions of a list of blocks, each with the index of its block,
counting from `k`. -/
def tagFrom : Nat → List BasicBlock → List (Nat × Instruction)
  | _, [] => []
  | k, BB :: Rest => BB.map (fun I => (k, I)) ++ tagFrom (k + 1) Rest

/-- The scan seen over one sequence: the instructions behind the cursor and those
ahead of it, each with the index of its block. -/
structure Flat where
  visited : List (Nat × Instruction)
  pending : List (Nat × Instruction)
  Changed : Bool
  fresh : Nat
  Replaced : List (Nat × Value)

/-- The flat view of a state whose cursor stands inside block `Prev.length`. -/
def PassState.flat (S : PassState) : Flat :=
  { visited := tagFrom 0 S.Prev ++ S.Head.map (fun I => (S.Prev.length, I))
    pending := S.Tail.map (fun I => (S.Prev.length, I)) ++ tagFrom (S.Prev.length + 1) S.Next
    Changed := S.Changed
    fresh := S.fresh
    Replaced := S.Replaced }

/-- One loop iteration on the flat view. -/
def Flat.visit (Folder : Constant → Constant → Option Constant) (s : Flat) : Flat :=
  match s.pending with
  | [] => s
  | (k, I) :: rest =>
    match matchMul I with
    | Option.none => { s with visited := s.visited ++ [(k, I)], pending := rest }
    | some (id, T, PowerOfTwo, OtherOperand) =>
      let N := NewInst Folder s.fresh T PowerOfTwo OtherOperand
      let r := fun (p : Nat × Instruction) => (p.1, p.2.replaceUsesOfWith id N.1)
      { visited := (s.visited ++ N.2.toList.map (fun J => (k, J))).map r
        pending := rest.map r
        Changed := true
        fresh := s.fresh + N.2.toList.length
        Replaced := s.Replaced ++ [(id, N.1)] }

/-- The redirections recorded so far, applied in the order they were made. -/
def redirect (R : List (Nat × Value)) (V : Value) : Value :=
  R.foldl (fun v p => Value.replaceUsesOfWith p.1 p.2 v) V

/-- An instruction with every operand redirected. -/
def Instruction.redirect (R : List (Nat × Value)) (I : Instruction) : Instruction :=
  R.foldl (fun J p => Instruction.replaceUsesOfWith p.1 p.2 J) I

/-- Identities of the instructions of the function in a scan state, in order. -/
def Flat.idList (s : Flat) : List Nat := (s.visited ++ s.pending).map (fun p => p.2.id)

/-- Identity discipline of a scan state: the instructions in the function have
pairwise distinct identities, all below the next fresh one, and an identity whose
uses were redirected is below the next fresh one and out of the function. -/
def Flat.IdsOk (s : Flat) : Prop :=
  s.idList.Nodup ∧ (∀ x ∈ s.idList, x < s.fresh) ∧
  (∀ q ∈ s.Replaced, q.1 < s.fresh ∧ q.1 ∉ s.idList)

/-- The instruction is a left shift. -/
def isShl : Instruction → Bool
  | .BinaryOperator _ .Shl _ _ _ => true
  | _ => false

/-- The instruction is a multiply. -/
def isMul : Instruction → Bool
  | .BinaryOperator _ .Mul _ _ _ => true
  | _ => false

/-- No instruction of the function uses an identity whose uses were redirected. -/
def Flat.NoDangling (s : Flat) : Prop :=
  ∀ q ∈ s.Replaced, ∀ p ∈ s.visited ++ s.pending, Value.Inst q.1 ∉ p.2.operands

/-- Every recorded redirection is final: applying all of them to the result of a
replaced multiply gives the value recorded for it, and that value is a constant or
the result of a shift standing behind the cursor. -/
def Flat.Settled (s : Flat) : Prop :=
  ∀ q ∈ s.Replaced, redirect s.Replaced (.Inst q.1) = q.2 ∧
    ((∃ C, q.2 = .Const C) ∨ ∃ p ∈ s.visited, q.2 = .Inst p.2.id ∧ isShl p.2 = true)

/-- What is ahead of the cursor comes from the entry function, and what was replaced
was a multiply of the entry function. -/
def Flat.FromEntry (F : Function) (s : Flat) : Prop :=
  (∀ p ∈ s.pending, ∃ I ∈ F.instructions, I.id = p.2.id ∧ isMul I = isMul p.2) ∧
  (∀ q ∈ s.Replaced, ∃ I ∈ F.instructions, I.id = q.1 ∧ isMul I = true)

/-- Every recorded redirection goes to what the builder returned for a matched
multiply with that identity: the shift of its other operand by the shift-amount constant. -/
def Flat.FromBuilder (Folder : Constant → Constant → Option Constant) (s : Flat) : Prop :=
  ∀ q ∈ s.Replaced, ∃ (J : Instruction) (fresh : Nat) (T : Ty) (P : APInt) (O : Value),
    matchMul J = some (q.1, T, P, O) ∧ q.2 = (NewInst Folder fresh T P O).1

/-- No instruction of the list uses the result of a multiply that stands at its own
place or after it: in scan order every multiply comes before its uses. -/
def UsesOnlyEarlier : List Instruction → Prop
  | [] => True
  | I :: Rest =>
      (∀ J ∈ I :: Rest, isMul J = true → Value.Inst J.id ∉ I.operands) ∧ UsesOnlyEarlier Rest

/-- The order of multiplies and their uses can be checked. -/
def UsesOnlyEarlier.decide : (L : List Instruction) → Decidable (UsesOnlyEarlier L)
  | [] => isTrue trivial
  | I :: Rest =>
      have := UsesOnlyEarlier.decide Rest
      (inferInstance :
        Decidable ((∀ J ∈ I :: Rest, isMul J = true → Value.Inst J.id ∉ I.operands) ∧
          UsesOnlyEarlier Rest))

instance (L : List Instruction) : Decidable (UsesOnlyEarlier L) := UsesOnlyEarlier.decide L

/-! ## Example functions -/

/-- The 32-bit constant `v`. -/
def i32 (v : Nat) : Value := .Const (.ConstantInt ⟨32, v⟩)

/-- A `ret` of one value. -/
def Ret (id : Nat) (V : Value) : Instruction := .Other id 1 (.OtherTy 0) [V]

/-- An unconditional `br` to the block with the given index. -/
def Br (id : Nat) : Instruction := .Other id 2 (.OtherTy 0) []

/-- Body `x = a * 8; y = x + 1; z = x * 2; ret z`. -/
def useChain : Function :=
  ⟨"useChain", [[
    .BinaryOperator 0 .Mul (.IntegerTy 32) (.Argument 0) (i32 8),
    .BinaryOperator 1 .Add (.IntegerTy 32) (.Inst 0) (i32 1),
    .BinaryOperator 2 .Mul (.IntegerTy 32) (.Inst 0) (i32 2),
    Ret 3 (.Inst 2)]]⟩

/-- Body `x = 4 * 8; y = x + 1; ret y`: the multiply has two constant operands. -/
def constChain : Function :=
  ⟨"constChain", [[
    .BinaryOperator 0 .Mul (.IntegerTy 32) (i32 4) (i32 8),
    .BinaryOperator 1 .Add (.IntegerTy 32) (.Inst 0) (i32 1),
    Ret 2 (.Inst 1)]]⟩

/-- A multiply of two constants used by a multiply of a block that is scanned
earlier: `entry: br b2`, `b1: y = x * a; ret y`, `b2: x = 4 * 8; br b1`. -/
def foldLater : Function :=
  ⟨"foldLater", [
    [Br 0],
    [.BinaryOperator 1 .Mul (.IntegerTy 32) (.Inst 3) (.Argument 0), Ret 2 (.Inst 1)],
    [.BinaryOperator 3 .Mul (.IntegerTy 32) (i32 4) (i32 8), Br 4]]⟩

/-- Body `x = 0 * a; ret x`. -/
def zeroTimesArg : Function :=
  ⟨"zeroTimesArg", [[
    .BinaryOperator 0 .Mul (.IntegerTy 32) (i32 0) (.Argument 0), Ret 1 (.Inst 0)]]⟩

/-- Body `x = 0 * 4; ret x`. -/
def zeroTimesFour : Function :=
  ⟨"zeroTimesFour", [[
    .BinaryOperator 0 .Mul (.IntegerTy 32) (i32 0) (i32 4), Ret 1 (.Inst 0)]]⟩

/-- Body `x = a * -1; ret x` over 32-bit integers. -/
def timesMinusOne : Function :=
  ⟨"timesMinusOne", [[
    .BinaryOperator 0 .Mul (.IntegerTy 32) (.Argument 0) (i32 4294967295), Ret 1 (.Inst 0)]]⟩

/-- Body `x = a * -1; ret x` over 1-bit integers, where -1 is the value 1. -/
def timesMinusOneBit : Function :=
  ⟨"timesMinusOneBit", [[
    .BinaryOperator 0 .Mul (.IntegerTy 1) (.Argument 0) (.Const (.ConstantInt ⟨1, 1⟩)),
    Ret 1 (.Inst 0)]]⟩

/-- Body `x = 1 * 4; y = x * 3; ret y`. -/
def foldThenThree : Function :=
  ⟨"foldThenThree", [[
    .BinaryOperator 0 .Mul (.IntegerTy 32) (i32 1) (i32 4),
    .BinaryOperator 1 .Mul (.IntegerTy 32) (.Inst 0) (i32 3),
    Ret 2 (.Inst 1)]]⟩

/-- Body `x = 4 * 8; ret x`. -/
def fourTimesEight : Function :=
  ⟨"fourTimesEight", [[
    .BinaryOperator 0 .Mul (.IntegerTy 32) (i32 4) (i32 8), Ret 1 (.Inst 0)]]⟩

/-- One block with three eligible multiplies in sequence. -/
def threeMuls : Function :=
  ⟨"threeMuls", [[
    .BinaryOperator 0 .Mul (.IntegerTy 32) (.Argument 0) (i32 2),
    .BinaryOperator 1 .Mul (.IntegerTy 32) (i32 4) (.Argument 1),
    .BinaryOperator 2 .Mul (.IntegerTy 32) (.Argument 2) (i32 8),
    Ret 3 (.Inst 2)]]⟩

/-- Body `x = a * -128; ret x` over 8-bit integers: the constant is the sign bit. -/
def timesSignBit : Function :=
  ⟨"timesSignBit", [[
    .BinaryOperator 0 .Mul (.IntegerTy 8) (.Argument 0) (.Const (.ConstantInt ⟨8, 128⟩)),
    Ret 1 (.Inst 0)]]⟩

/-- Body `r1 = a * 16; r2 = r1 * 1; ret r2` over 32-bit integers. -/
def chainByOne : Function :=
  ⟨"chainByOne", [[
    .BinaryOperator 0 .Mul (.IntegerTy 32) (.Argument 0) (i32 16),
    .BinaryOperator 1 .Mul (.IntegerTy 32) (.Inst 0) (i32 1),
    Ret 2 (.Inst 1)]]⟩

/-- Body `x = 4 * 8; y = x * 1; ret y`: the value multiplied by 1 is an instruction
result on entry and the constant 32 when its multiply is visited. -/
def foldedByOne : Function :=
  ⟨"foldedByOne", [[
    .BinaryOperator 0 .Mul (.IntegerTy 32) (i32 4) (i32 8),
    .BinaryOperator 1 .Mul (.IntegerTy 32) (.Inst 0) (i32 1),
    Ret 2 (.Inst 1)]]⟩

/-- Body `x = 8 * a; y = 3 * 4; ret x` -/
def constantLeft : Function :=
  ⟨"positions", [[
    .BinaryOperator 0 .Mul (.IntegerTy 32) (i32 8) (.Argument 0),
    .BinaryOperator 1 .Mul (.IntegerTy 32) (i32 3) (i32 4),
    Ret 2 (.Inst 0)]]⟩

/-- Body `x = a * 8; y = 4 * 3; ret x`: `constantLeft` with the operands of both
multiplies exchanged. -/
def constantRight : Function :=
  ⟨"positions", [[
    .BinaryOperator 0 .Mul (.IntegerTy 32) (.Argument 0) (i32 8),
    .BinaryOperator 1 .Mul (.IntegerTy 32) (i32 4) (i32 3),
    Ret 2 (.Inst 0)]]⟩

end ShiftMul

/-! # VarRenamerPlugin: the visitor of `var_renamer_plugin.cpp` -/

namespace VarRenamer

/-- Storage classes of a declaration. -/
inductive StorageClass where
  | SC_None | SC_Extern | SC_Static | SC_PrivateExtern | SC_Auto | SC_Register
  deriving DecidableEq, Repr

/-- What the visitor reads of a `VarDecl`: its identity (the address the map is keyed
by), its name, whether it is a `ParmVarDecl`, its storage class, whether its
declaration context is the translation unit, whether it is implicit, and the
locations of its beginning and of its name. -/
structure VarDecl where
  id : Nat
  Name : String
  isParmVarDecl : Bool
  StorageClass : StorageClass
  isTranslationUnit : Bool
  isImplicit : Bool
  BeginLoc : Nat
  Location : Nat
  deriving DecidableEq, Repr

/-- One `ReplaceText(loc, length, text)` call made on the rewriter. -/
structure ReplaceText where
  Loc : Nat
  OrigLength : Nat
  NewStr : String
  deriving DecidableEq, Repr

/-- The visitor: `SM_` is the source manager (none while the pointer is null), given
by the locations it reports as written in the main file; `renamedVars_` the map from
declarations to new names; `rewriter_` the replacements made so far. -/
structure VarRenamerVisitor where
  SM_ : Option (Nat → Bool)
  renamedVars_ : List (Nat × String)
  rewriter_ : List ReplaceText

/-- Assignment `map[key] = value` of `std::map`: the entry is created or overwritten. -/
def mapAssign (m : List (Nat × String)) (key : Nat) (value : String) : List (Nat × String) :=
  (key, value) :: m.filter (fun e => e.1 != key)

/-- Lookup `map.find(key)`. -/
def mapFind (m : List (Nat × String)) (key : Nat) : Option String :=
  (m.find? (fun e => e.1 == key)).map Prod.snd

/-- Source lines 21-23: `SM_ && SM_->isWrittenInMainFile(loc)`. -/
def isInMainFile (V : VarRenamerVisitor) (loc : Nat) : Bool :=
  match V.SM_ with
  | none => false
  | some SM => SM loc

/-- Source lines 29-38: the prefix chosen for a declaration. -/
def prefixFor (VD : VarDecl) : String :=
  if VD.isParmVarDecl then "param_"
  else if VD.StorageClass = .SC_Static then "static_"
  else if VD.isTranslationUnit then "global_"
  else "local_"

/-- Source lines 25-47: `VisitVarDecl`, on a possibly null declaration; the visitor
after the call and the returned flag. -/
def VisitVarDecl (V : VarRenamerVisitor) (VD : Option VarDecl) : VarRenamerVisitor × Bool :=
  match VD with
  | none => (V, true)
  | some VD =>
    if !isInMainFile V VD.BeginLoc then (V, true)
    else if VD.isImplicit then (V, true)
    else
      let prefix_ := prefixFor VD
      let newName := prefix_ ++ VD.Name
      ({ V with
          renamedVars_ := mapAssign V.renamedVars_ VD.id newName
          rewriter_ := V.rewriter_ ++ [⟨VD.Location, VD.Name.utf8ByteSize, newName⟩] },
        true)

/-- Source lines 68-72: the visitor as the consumer sets it up, with the source
manager of the compiler instance. -/
def VarRenamerConsumer (SM : Nat → Bool) : VarRenamerVisitor :=
  { SM_ := some SM, renamedVars_ := [], rewriter_ := [] }

/-- A static variable at translation-unit scope, `static int counter;`. -/
def staticGlobal : VarDecl :=
  { id := 7, Name := "counter", isParmVarDecl := false, StorageClass := .SC_Static,
    isTranslationUnit := true, isImplicit := false, BeginLoc := 0, Location := 11 }

end VarRenamer

namespace ShiftMul

/-! ## Vocabulary for the shape of the result -/

/-- The instruction can never pass the tests of the loop body, whatever its operands
are: it is no multiply, or its type is no integer type. -/
def notIntegerMul (I : Instruction) : Bool := !(isMul I && I.getType.isIntegerTy)

/-- The opcode of an instruction: that of a binary operator, or the number of another one. -/
def Instruction.getOpcode : Instruction → BinaryOps ⊕ Nat
  | .BinaryOperator _ Opcode _ _ _ => .inl Opcode
  | .Other _ Opcode _ _ => .inr Opcode

/-- Every recorded redirection goes to the result of an instruction: none was folded. -/
def AllInst (R : List (Nat × Value)) : Prop := ∀ q ∈ R, ∃ s, q.2 = Value.Inst s

/-- The instructions of a tagged sequence that carry the block index `k`. -/
def blockOf (L : List (Nat × Instruction)) (k : Nat) : List Instruction :=
  (L.filter (fun p => p.1 == k)).map Prod.snd

/-- What stands, after the redirections `R`, at the place of the entry instruction `J`
when no shift is folded: for a multiply the loop body matches, a shift with an identity
from `base` on, of the multiply's type, of its other operand (redirected) by the
shift-amount constant; for any other instruction, the instruction itself with its
operands redirected. -/
def PlacedAt (base : Nat) (R : List (Nat × Value)) (J X : Instruction) : Prop :=
  match matchMul J with
  | Option.none => X = J.redirect R
  | some (_, T, PowerOfTwo, OtherOperand) =>
      ∃ f, base ≤ f ∧ X = .BinaryOperator f .Shl T (redirect R OtherOperand)
        (.Const (.ConstantInt (ConstantInt.get T (ShiftAmount PowerOfTwo))))

/-- Body `x = 1 * 4; y = x * 3; z = y + x; ret z`, used to follow an ineligible multiply. -/
def foldThenThreeUsed : Function :=
  ⟨"foldThenThreeUsed", [[
    .BinaryOperator 0 .Mul (.IntegerTy 32) (i32 1) (i32 4),
    .BinaryOperator 1 .Mul (.IntegerTy 32) (.Inst 0) (i32 3),
    .BinaryOperator 2 .Add (.IntegerTy 32) (.Inst 1) (.Inst 0),
    Ret 3 (.Inst 2)]]⟩

/-- Body with instructions the pass has to leave alone around one eligible multiply:
a floating-point multiply by 2, a vector multiply by 4, `x = a * 8`, `y = x + 4`, `ret y`. -/
def mixedBlock : Function :=
  ⟨"mixedBlock", [[
    .BinaryOperator 0 .FMul .FloatTy (.Argument 1) (.Const (.Other 2)),
    .BinaryOperator 1 .Mul (.VectorTy 32 4) (.Argument 2) (.Const (.Other 4)),
    .BinaryOperator 2 .Mul (.IntegerTy 32) (.Argument 0) (i32 8),
    .BinaryOperator 3 .Add (.IntegerTy 32) (.Inst 2) (i32 4),
    Ret 4 (.Inst 3)]]⟩

/-! ## The instructions the scan examines, and the scan over a snapshot -/

/-- The identities of the instructions the loop of line 26 examines in one block, one
for each time its body runs, in the order it runs. -/
def scanInstructionsTrace (Folder : Constant → Constant → Option Constant) (Name : String) :
    Nat → PassState → List Nat
  | 0, _ => []
  | fuel + 1, S =>
    match S.Tail with
    | [] => []
    | I :: _ => I.id :: scanInstructionsTrace Folder Name fuel (visit Folder Name S)

/-- The identities of the instructions the two loops examine over the function. -/
def scanBlocksTrace (Folder : Constant → Constant → Option Constant) (Name : String) :
    Nat → PassState → List Nat
  | 0, _ => []
  | fuel + 1, S =>
    match S.Next with
    | [] => []
    | BB :: Rest =>
      let S1 := scanInstructions Folder Name BB.length
        { S with Head := [], Tail := BB, Next := Rest }
      scanInstructionsTrace Folder Name BB.length
          { S with Head := [], Tail := BB, Next := Rest } ++
        scanBlocksTrace Folder Name fuel
          { S1 with Prev := S1.Prev ++ [S1.Head ++ S1.Tail], Head := [], Tail := [] }

/-- The identities examined by a run, in order: one entry for each eligibility check. -/
def examined (Folder : Constant → Constant → Option Constant) (F : Function) : List Nat :=
  scanBlocksTrace Folder F.Name F.Blocks.length (PassState.entry F)

/-- The state of the scan over a snapshot: the function, with no cursor in it. -/
structure SnapshotState where
  Blocks : List BasicBlock
  Changed : Bool
  fresh : Nat
  errs : List String
  Replaced : List (Nat × Value)
  deriving DecidableEq, Repr

/-- The per-instruction rewrite applied through a handle: the instruction with identity
`h` is looked up in block `b` as it is now; when it passes the tests the shift is created
before it, its uses are redirected and it is removed. -/
def rewriteHandle (Folder : Constant → Constant → Option Constant) (Name : String)
    (b : Nat) (S : SnapshotState) (h : Nat) : SnapshotState :=
  match S.Blocks[b]? with
  | Option.none => S
  | some BB =>
    match BB.span (fun I => I.id != h) with
    | (_, []) => S
    | (Before, I :: After) =>
      match matchMul I with
      | Option.none => S
      | some (id, T, PowerOfTwo, OtherOperand) =>
        let N := NewInst Folder S.fresh T PowerOfTwo OtherOperand
        { Blocks := (S.Blocks.set b (Before ++ N.2.toList ++ After)).map
            (List.map (Instruction.replaceUsesOfWith id N.1))
          Changed := true
          fresh := S.fresh + N.2.toList.length
          errs := S.errs ++ ["Replaced mul with shl in: " ++ Name ++ "\n"]
          Replaced := S.Replaced ++ [(id, N.1)] }

/-- Specification of the scan, from the words "iterate over a stable snapshot of the
original instruction sequence": for each block in order, the identities of the
instructions the block had on entry are taken as handles, and the per-instruction
rewrite is applied to each handle in turn. -/
def snapshotState (Folder : Constant → Constant → Option Constant) (F : Function) :
    SnapshotState :=
  F.Blocks.enum.foldl
    (fun S p => (ids p.2).foldl (rewriteHandle Folder F.Name p.1) S)
    { Blocks := F.Blocks, Changed := false, fresh := F.freshId, errs := [], Replaced := [] }

/-- The function and the flag the scan over a snapshot gives. -/
def snapshotRun (Folder : Constant → Constant → Option Constant) (F : Function) :
    Function × PreservedAnalyses :=
  let S := snapshotState Folder F
  (⟨F.Name, S.Blocks⟩, if S.Changed then PreservedAnalyses.none else PreservedAnalyses.all)

/-- The function a scan state stands for while its cursor is inside a block. -/
def PassState.snapshot (S : PassState) : SnapshotState :=
  { Blocks := S.Prev ++ (S.Head ++ S.Tail) :: S.Next, Changed := S.Changed,
    fresh := S.fresh, errs := S.errs, Replaced := S.Replaced }

/-- The function a scan state stands for between two blocks. -/
def PassState.between (S : PassState) : SnapshotState :=
  { Blocks := S.Prev ++ S.Next, Changed := S.Changed,
    fresh := S.fresh, errs := S.errs, Replaced := S.Replaced }

/-! ## Arithmetic of the power-of-two test -/

theorem two_mul_and_succ (a b : Nat) : (2 * a) &&& (2 * b + 1) = 2 * (a &&& b) := by
  apply Nat.eq_of_testBit_eq
  intro i
  cases i with
  | zero => simp [Nat.testBit_zero]
  | succ i =>
    have h1 : (2 * b + 1) / 2 = b := by omega
    have h2 : (2 * a) / 2 = a := by omega
    have h3 : (2 * (a &&& b)) / 2 = a &&& b := by omega
    rw [Nat.testBit_and, Nat.testBit_succ, Nat.testBit_succ, Nat.testBit_succ, h1, h2, h3,
      Nat.testBit_and]

theorem succ_and_two_mul (m : Nat) : (2 * m + 1) &&& (2 * m) = 2 * m := by
  apply Nat.eq_of_testBit_eq
  intro i
  cases i with
  | zero => simp [Nat.testBit_zero]
  | succ i =>
    have h1 : (2 * m + 1) / 2 = m := by omega
    have h2 : (2 * m) / 2 = m := by omega
    rw [Nat.testBit_and, Nat.testBit_succ, Nat.testBit_succ, h1, h2, Bool.and_self]

theorem and_pred_eq_zero_iff : ∀ (v : Nat), v ≠ 0 → (v &&& (v - 1) = 0 ↔ ∃ k, v = 2 ^ k) := by
  intro v
  induction v using Nat.strong_induction_on with
  | _ v ih =>
    intro hv
    rcases Nat.even_or_odd' v with ⟨m, rfl | rfl⟩
    · have hm : m ≠ 0 := by omega
      have e : 2 * m - 1 = 2 * (m - 1) + 1 := by omega
      rw [e, two_mul_and_succ]
      have := ih m (by omega) hm
      constructor
      · intro h
        have h' : m &&& (m - 1) = 0 := by omega
        obtain ⟨k, hk⟩ := this.1 h'
        exact ⟨k + 1, by rw [hk, pow_succ]; ring⟩
      · rintro ⟨k, hk⟩
        cases k with
        | zero => omega
        | succ k =>
          have : m = 2 ^ k := by rw [pow_succ] at hk; omega
          have h' := (ih m (by omega) hm).2 ⟨k, this⟩
          omega
    · have e : 2 * m + 1 - 1 = 2 * m := by omega
      rw [e, succ_and_two_mul]
      constructor
      · intro h
        have : m = 0 := by omega
        exact ⟨0, by simp [this]⟩
      · rintro ⟨k, hk⟩
        cases k with
        | zero => simp at hk; omega
        | succ k => rw [pow_succ] at hk; omega

/-- The source test agrees with "the value is `2^k` for a bit position `k` of the width". -/
theorem isPowerOfTwo_iff_pow (a : APInt) (h : a.WellFormed) :
    isPowerOfTwo a = true ↔ ∃ k, k < a.BitWidth ∧ a.VAL = 2 ^ k := by
  obtain ⟨N, v⟩ := a
  simp only [APInt.WellFormed] at h
  simp only [isPowerOfTwo, APInt.getBoolValue, APInt.isZero, APInt.and, APInt.sub,
    Bool.and_eq_true, bne_iff_ne, ne_eq, beq_iff_eq]
  constructor
  · rintro ⟨hv, hz⟩
    have hN : N ≠ 0 := by
      rintro rfl
      simp at h; exact hv h
    have h1 : 1 % 2 ^ N = 1 := Nat.mod_eq_of_lt (Nat.one_lt_two_pow hN)
    have h2 : (v + 2 ^ N - 1) % 2 ^ N = v - 1 := by
      have : v + 2 ^ N - 1 = (v - 1) + 2 ^ N := by omega
      rw [this, Nat.add_mod_right, Nat.mod_eq_of_lt (by omega)]
    rw [h1, h2] at hz
    obtain ⟨k, hk⟩ := (and_pred_eq_zero_iff v hv).1 hz
    refine ⟨k, ?_, hk⟩
    rw [hk] at h
    exact (Nat.pow_lt_pow_iff_right (by norm_num)).1 h
  · rintro ⟨k, hk, rfl⟩
    have hN : N ≠ 0 := by omega
    have hpos : 0 < 2 ^ k := Nat.pos_pow_of_pos _ (by norm_num)
    have h1 : 1 % 2 ^ N = 1 := Nat.mod_eq_of_lt (Nat.one_lt_two_pow hN)
    have h2 : (2 ^ k + 2 ^ N - 1) % 2 ^ N = 2 ^ k - 1 := by
      have : 2 ^ k + 2 ^ N - 1 = (2 ^ k - 1) + 2 ^ N := by omega
      rw [this, Nat.add_mod_right, Nat.mod_eq_of_lt (by omega)]
    refine ⟨by omega, ?_⟩
    rw [h1, h2]
    exact (and_pred_eq_zero_iff _ (by omega)).2 ⟨k, rfl⟩

theorem countLeadingZerosFrom_two_pow (w k : Nat) (hk : k < w) :
    APInt.countLeadingZerosFrom w (2 ^ k) = w - 1 - k := by
  induction w with
  | zero => omega
  | succ w ih =>
    simp only [APInt.countLeadingZerosFrom, Nat.testBit_two_pow]
    by_cases h : k = w
    · subst h; simp
    · have hk' : k < w := by omega
      simp [h, ih hk']; omega

theorem logBase2_two_pow (N k : Nat) (hk : k < N) : APInt.logBase2 ⟨N, 2 ^ k⟩ = k := by
  simp only [APInt.logBase2, APInt.getActiveBits, APInt.countl_zero,
    countLeadingZerosFrom_two_pow N k hk]
  omega

theorem isPowerOf2_two_pow (N k : Nat) : APInt.isPowerOf2 ⟨N, 2 ^ k⟩ = true := by
  have hpos : 0 < 2 ^ k := Nat.pos_pow_of_pos _ (by norm_num)
  simp only [APInt.isPowerOf2, Bool.and_eq_true, bne_iff_ne, ne_eq, beq_iff_eq]
  exact ⟨by omega, (and_pred_eq_zero_iff _ (by omega)).2 ⟨k, rfl⟩⟩

theorem ShiftAmount_two_pow (N k : Nat) (hk : k < N) (hN : N ≤ MAX_INT_BITS) :
    ShiftAmount ⟨N, 2 ^ k⟩ = k := by
  simp only [ShiftAmount, APInt.exactLogBase2, isPowerOf2_two_pow, logBase2_two_pow N k hk]
  simp only [MAX_INT_BITS] at hN
  simp
  have : (k : Int) % 4294967296 = k := by
    apply Int.emod_eq_of_lt <;> omega
  rw [this]; simp
/-- What a selection tells: the chosen constant passes the source test and is one of
the two operands, the other operand being the shifted value; the right operand is
chosen only when the left one is not a constant power of two. -/
theorem selectPowerOfTwo_some {LHS RHS : Value} {c : APInt} {O : Value} {b : Bool}
    (h : selectPowerOfTwo LHS RHS = some (c, O, b)) :
    isPowerOfTwo c = true ∧
      ((b = true ∧ LHS = .Const (.ConstantInt c) ∧ O = RHS) ∨
       (b = false ∧ RHS = .Const (.ConstantInt c) ∧ O = LHS ∧ isPowerOfTwoConstant LHS = false)) := by
  unfold selectPowerOfTwo at h
  cases hL : dyn_cast_ConstantInt LHS with
  | none =>
    cases hR : dyn_cast_ConstantInt RHS with
    | none => simp [hL, hR] at h
    | some r =>
      simp only [hL, hR] at h
      split at h
      · rename_i hp
        simp only [Option.some.injEq, Prod.mk.injEq] at h
        obtain ⟨rfl, rfl, rfl⟩ := h
        refine ⟨hp, Or.inr ⟨rfl, ?_, rfl, ?_⟩⟩
        · unfold dyn_cast_ConstantInt at hR
          split at hR <;> simp_all
        · simp [isPowerOfTwoConstant, hL]
      · simp at h
  | some l =>
    simp only [hL] at h
    have hLv : LHS = .Const (.ConstantInt l) := by
      unfold dyn_cast_ConstantInt at hL
      split at hL <;> simp_all
    split at h
    · rename_i hp
      simp only [Option.some.injEq, Prod.mk.injEq] at h
      obtain ⟨rfl, rfl, rfl⟩ := h
      exact ⟨hp, Or.inl ⟨rfl, hLv, rfl⟩⟩
    · rename_i hp
      split at h
      · rename_i r hR
        split at h
        · rename_i hp2
          simp only [Option.some.injEq, Prod.mk.injEq] at h
          obtain ⟨rfl, rfl, rfl⟩ := h
          refine ⟨hp2, Or.inr ⟨rfl, ?_, rfl, ?_⟩⟩
          · unfold dyn_cast_ConstantInt at hR
            split at hR <;> simp_all
          · simp [isPowerOfTwoConstant, hL, hp]
        · simp at h
      · simp at h

/-- The shift amount computed for a constant that passes the source test. -/
theorem ShiftAmount_of_isPowerOfTwo (c : APInt) (hwf : c.WellFormed)
    (hN : c.BitWidth ≤ MAX_INT_BITS) (hp : isPowerOfTwo c = true) :
    ∃ k, k < c.BitWidth ∧ c.VAL = 2 ^ k ∧ c.isPowerOf2 = true ∧
      c.exactLogBase2 = (k : Int) ∧ ShiftAmount c = k := by
  obtain ⟨k, hk, hv⟩ := (isPowerOfTwo_iff_pow c hwf).1 hp
  obtain ⟨N, v⟩ := c
  simp only at hk hv hN
  subst hv
  refine ⟨k, hk, rfl, isPowerOf2_two_pow N k, ?_, ShiftAmount_two_pow N k hk hN⟩
  simp [APInt.exactLogBase2, isPowerOf2_two_pow, logBase2_two_pow N k hk]

/-- C10: for every bit width N >= 1 and every N-bit value v, the source test
`isPowerOfTwo` (v nonzero and v & (v - 1) zero, v - 1 taken modulo 2^N) is true if and
only if exactly one bit of v is set, that is v = 2^k for some bit position k < N. -/
theorem C10_isPowerOfTwo_classification (N v : Nat) (hN : 1 ≤ N) (hv : v < 2 ^ N) :
    (isPowerOfTwo ⟨N, v⟩ = true ↔ (v ≠ 0 ∧ v &&& ((v + 2 ^ N - 1) % 2 ^ N) = 0)) ∧
    (isPowerOfTwo ⟨N, v⟩ = true ↔
      ∃ k, k < N ∧ v = 2 ^ k ∧ ∀ i, v.testBit i = decide (k = i)) := by
  constructor
  · have h1 : 1 % 2 ^ N = 1 := Nat.mod_eq_of_lt (Nat.one_lt_two_pow (by omega))
    simp [isPowerOfTwo, APInt.getBoolValue, APInt.isZero, APInt.and, APInt.sub, h1]
  · rw [isPowerOfTwo_iff_pow ⟨N, v⟩ hv]
    constructor
    · rintro ⟨k, hk, rfl⟩
      exact ⟨k, hk, rfl, fun _ => Nat.testBit_two_pow⟩
    · rintro ⟨k, hk, h, _⟩
      exact ⟨k, hk, h⟩

/-- C10 at the 8-bit value 128. -/
theorem C10_isPowerOfTwo_classification_witness :
    (1 ≤ 8 ∧ 128 < 2 ^ 8) ∧
    ((isPowerOfTwo ⟨8, 128⟩ = true ↔ ((128 : Nat) ≠ 0 ∧ 128 &&& ((128 + 2 ^ 8 - 1) % 2 ^ 8) = 0)) ∧
    (isPowerOfTwo ⟨8, 128⟩ = true ↔
      ∃ k, k < 8 ∧ 128 = 2 ^ k ∧ ∀ i, (128 : Nat).testBit i = decide (k = i))) :=
  ⟨by decide, C10_isPowerOfTwo_classification 8 128 (by decide) (by decide)⟩

/-- C9: for every bit width N and every constant c that the pass selects as the
power-of-two operand, `exactLogBase2` is applied to a power of two (it does not
return -1), the shift amount k satisfies 2^k = c and k < N, and the shift-amount
constant built with the N-bit type holds exactly k. -/
theorem C9_shift_amount_exact (N : Nat) (hN : IsBitWidth N) (LHS RHS : Value) (c : APInt)
    (O : Value) (b : Bool) (hsel : selectPowerOfTwo LHS RHS = some (c, O, b))
    (hw : c.BitWidth = N) (hwf : c.WellFormed) :
    ∃ k : Nat, c.isPowerOf2 = true ∧ c.exactLogBase2 = (k : Int) ∧ 2 ^ k = c.VAL ∧ k < N ∧
      ShiftAmount c = k ∧ ConstantInt.get (.IntegerTy N) (ShiftAmount c) = ⟨N, k⟩ := by
  obtain ⟨hp, _⟩ := selectPowerOfTwo_some hsel
  obtain ⟨k, hk, hv, h2, hl, hs⟩ := ShiftAmount_of_isPowerOfTwo c hwf (hw ▸ hN.2) hp
  refine ⟨k, h2, hl, hv.symm, hw ▸ hk, hs, ?_⟩
  have hkN : k < N := hw ▸ hk
  have : k % 2 ^ N = k := Nat.mod_eq_of_lt (lt_trans hkN (Nat.lt_two_pow N))
  simp [ConstantInt.get, hs, this]

/-- C9 at the 2-bit multiply `a * 2`. -/
theorem C9_shift_amount_exact_witness :
    (IsBitWidth 2 ∧
      selectPowerOfTwo (.Argument 0) (.Const (.ConstantInt ⟨2, 2⟩)) =
        some (⟨2, 2⟩, .Argument 0, false) ∧
      (⟨2, 2⟩ : APInt).BitWidth = 2 ∧ (⟨2, 2⟩ : APInt).WellFormed) ∧
    ∃ k : Nat, (⟨2, 2⟩ : APInt).isPowerOf2 = true ∧ (⟨2, 2⟩ : APInt).exactLogBase2 = (k : Int) ∧
      2 ^ k = (⟨2, 2⟩ : APInt).VAL ∧ k < 2 ∧
      ShiftAmount ⟨2, 2⟩ = k ∧ ConstantInt.get (.IntegerTy 2) (ShiftAmount ⟨2, 2⟩) = ⟨2, k⟩ :=
  ⟨⟨by decide, by decide, by decide, by decide⟩,
    C9_shift_amount_exact 2 (by decide) (.Argument 0) (.Const (.ConstantInt ⟨2, 2⟩)) ⟨2, 2⟩
      (.Argument 0) false (by decide) (by decide) (by decide)⟩

/-- C1: for every bit width N >= 1, every N-bit value v and every k < N, the N-bit
products v * 2^k and 2^k * v equal the N-bit left shift v << k; hence, N being a width
an integer type can have, for every constant c the pass selects and every value v of
the other operand, the created shift (v shifted by the computed shift-amount constant)
has the value of the removed multiply, on whichever side the constant stood. -/
theorem C1_value_equivalence (N : Nat) (hN : 1 ≤ N) (v : Nat) (hv : v < 2 ^ N) :
    (∀ k, k < N →
      APInt.mul ⟨N, v⟩ ⟨N, 2 ^ k⟩ = APInt.shl ⟨N, v⟩ k ∧
      APInt.mul ⟨N, 2 ^ k⟩ ⟨N, v⟩ = APInt.shl ⟨N, v⟩ k) ∧
    (N ≤ MAX_INT_BITS → ∀ (LHS RHS : Value) (c : APInt) (O : Value) (b : Bool),
      selectPowerOfTwo LHS RHS = some (c, O, b) → c.BitWidth = N → c.WellFormed →
      APInt.mul ⟨N, v⟩ c =
          APInt.shl ⟨N, v⟩ (ConstantInt.get (.IntegerTy N) (ShiftAmount c)).VAL ∧
      APInt.mul c ⟨N, v⟩ =
          APInt.shl ⟨N, v⟩ (ConstantInt.get (.IntegerTy N) (ShiftAmount c)).VAL) := by
  have key : ∀ k, APInt.mul ⟨N, v⟩ ⟨N, 2 ^ k⟩ = APInt.shl ⟨N, v⟩ k ∧
      APInt.mul ⟨N, 2 ^ k⟩ ⟨N, v⟩ = APInt.shl ⟨N, v⟩ k := by
    intro k
    simp only [APInt.mul, APInt.shl, Nat.shiftLeft_eq, Nat.mul_comm (2 ^ k) v, and_self]
  refine ⟨fun k _ => key k, ?_⟩
  intro hmax LHS RHS c O b hsel hw hwf
  obtain ⟨hp, _⟩ := selectPowerOfTwo_some hsel
  obtain ⟨k, hk, hcv, _, _, hs⟩ := ShiftAmount_of_isPowerOfTwo c hwf (hw ▸ hmax) hp
  have hkN : k < N := hw ▸ hk
  have hmod : k % 2 ^ N = k := Nat.mod_eq_of_lt (lt_trans hkN (Nat.lt_two_pow N))
  have hc : c = ⟨N, 2 ^ k⟩ := by
    obtain ⟨w, x⟩ := c
    simp only at hw hcv
    subst hw; subst hcv; rfl
  have hget : (ConstantInt.get (.IntegerTy N) (ShiftAmount c)).VAL = k := by
    simp [ConstantInt.get, hs, hmod]
  rw [hget, hc]
  exact key k

/-- C1 at the 8-bit wraparound value 255 = 2^8 - 1. -/
theorem C1_value_equivalence_witness :
    (1 ≤ 8 ∧ 255 < 2 ^ 8) ∧
    ((∀ k, k < 8 →
      APInt.mul ⟨8, 255⟩ ⟨8, 2 ^ k⟩ = APInt.shl ⟨8, 255⟩ k ∧
      APInt.mul ⟨8, 2 ^ k⟩ ⟨8, 255⟩ = APInt.shl ⟨8, 255⟩ k) ∧
    (8 ≤ MAX_INT_BITS → ∀ (LHS RHS : Value) (c : APInt) (O : Value) (b : Bool),
      selectPowerOfTwo LHS RHS = some (c, O, b) → c.BitWidth = 8 → c.WellFormed →
      APInt.mul ⟨8, 255⟩ c =
          APInt.shl ⟨8, 255⟩ (ConstantInt.get (.IntegerTy 8) (ShiftAmount c)).VAL ∧
      APInt.mul c ⟨8, 255⟩ =
          APInt.shl ⟨8, 255⟩ (ConstantInt.get (.IntegerTy 8) (ShiftAmount c)).VAL)) ∧
    (APInt.mul ⟨8, 255⟩ ⟨8, 16⟩ = ⟨8, 240⟩ ∧ APInt.shl ⟨8, 255⟩ 4 = ⟨8, 240⟩) :=
  ⟨⟨by decide, by decide⟩, C1_value_equivalence 8 (by decide) 255 (by decide), by decide⟩

/-! ## The loop body in closed form -/

/-- A matched instruction is an integer multiply whose operands select the pair. -/
theorem matchMul_some {I : Instruction} {id : Nat} {T : Ty} {P : APInt} {O : Value}
    (h : matchMul I = some (id, T, P, O)) :
    ∃ LHS RHS b, I = .BinaryOperator id .Mul T LHS RHS ∧ T.isIntegerTy = true ∧
      selectPowerOfTwo LHS RHS = some (P, O, b) := by
  cases I with
  | Other i op T2 ops => simp [matchMul] at h
  | BinaryOperator i op T2 L R =>
    simp only [matchMul] at h
    by_cases hop : op = .Mul
    · subst hop
      cases hT : T2.isIntegerTy
      · simp [hT] at h
      · cases hsel : selectPowerOfTwo L R with
        | none => simp [hT, hsel] at h
        | some q =>
          obtain ⟨P2, O2, b⟩ := q
          simp only [hT, hsel, ne_eq, not_true_eq_false, if_false, Bool.not_true,
            Bool.false_eq_true, Option.some.injEq, Prod.mk.injEq] at h
          obtain ⟨rfl, rfl, rfl, rfl⟩ := h
          exact ⟨L, R, b, rfl, hT, hsel⟩
    · simp [hop] at h

/-- The instruction at the cursor is left alone when the tests do not match. -/
theorem visit_skip (Folder : Constant → Constant → Option Constant) (Name : String)
    (S : PassState) (I : Instruction) (Rest : List Instruction) (hT : S.Tail = I :: Rest)
    (hm : matchMul I = Option.none) :
    visit Folder Name S = { S with Head := S.Head ++ [I], Tail := Rest } := by
  unfold visit
  rw [hT]
  cases I with
  | Other i op T2 ops => rfl
  | BinaryOperator i op T2 L R =>
    simp only [matchMul] at hm
    simp only
    by_cases hop : op = .Mul
    · subst hop
      cases hty : T2.isIntegerTy
      · simp
      · cases hsel : selectPowerOfTwo L R with
        | none => simp
        | some q =>
          obtain ⟨P2, O2, b⟩ := q
          simp [hty, hsel] at hm
    · simp [hop]

/-- The state after a matched multiply has been replaced. -/
theorem visit_rewrite (Folder : Constant → Constant → Option Constant) (Name : String)
    (S : PassState) (I : Instruction) (Rest : List Instruction) (hT : S.Tail = I :: Rest)
    (id : Nat) (T : Ty) (P : APInt) (O : Value) (hm : matchMul I = some (id, T, P, O)) :
    visit Folder Name S =
      { Prev := S.Prev.map (List.map (Instruction.replaceUsesOfWith id (NewInst Folder S.fresh T P O).1))
        Head := (S.Head ++ (NewInst Folder S.fresh T P O).2.toList).map
          (Instruction.replaceUsesOfWith id (NewInst Folder S.fresh T P O).1)
        Tail := Rest.map (Instruction.replaceUsesOfWith id (NewInst Folder S.fresh T P O).1)
        Next := S.Next.map (List.map (Instruction.replaceUsesOfWith id (NewInst Folder S.fresh T P O).1))
        Changed := true
        fresh := S.fresh + (NewInst Folder S.fresh T P O).2.toList.length
        errs := S.errs ++ ["Replaced mul with shl in: " ++ Name ++ "\n"]
        Replaced := S.Replaced ++ [(id, (NewInst Folder S.fresh T P O).1)] } := by
  obtain ⟨L, R, b, rfl, hty, hsel⟩ := matchMul_some hm
  unfold visit
  rw [hT]
  simp only [ne_eq, not_true_eq_false, if_false, hty, Bool.not_true, Bool.false_eq_true, hsel]
  simp [rewriteMul, PassState.replaceAllUsesWith, NewInst]

/-! ## The scan over blocks seen as one scan over the flat view -/

theorem tagFrom_map (r : Instruction → Instruction) (Bs : List BasicBlock) (k : Nat) :
    tagFrom k (Bs.map (List.map r)) = (tagFrom k Bs).map (fun p => (p.1, r p.2)) := by
  induction Bs generalizing k with
  | nil => rfl
  | cons B Bs ih => simp [tagFrom, ih, List.map_map, Function.comp_def]

theorem tagFrom_append (A B : List BasicBlock) (k : Nat) :
    tagFrom k (A ++ B) = tagFrom k A ++ tagFrom (k + A.length) B := by
  induction A generalizing k with
  | nil => simp [tagFrom]
  | cons X A ih =>
    have e : k + 1 + A.length = k + (A.length + 1) := by omega
    show tagFrom k (X :: (A ++ B)) = tagFrom k (X :: A) ++ tagFrom (k + (A.length + 1)) B
    simp only [tagFrom, List.append_assoc]
    rw [ih (k + 1), e]

theorem tagFrom_map_snd (Bs : List BasicBlock) (k : Nat) :
    (tagFrom k Bs).map Prod.snd = Bs.flatten := by
  induction Bs generalizing k with
  | nil => rfl
  | cons B Bs ih => simp [tagFrom, ih, List.map_map, Function.comp_def]

theorem mem_tagFrom {Bs : List BasicBlock} {k j : Nat} {I : Instruction} :
    (j, I) ∈ tagFrom k Bs ↔ ∃ i B, j = k + i ∧ Bs[i]? = some B ∧ I ∈ B := by
  induction Bs generalizing k with
  | nil => simp [tagFrom]
  | cons X Bs ih =>
    simp only [tagFrom, List.mem_append, List.mem_map, Prod.mk.injEq, ih]
    constructor
    · rintro (⟨J, hJ, rfl, rfl⟩ | ⟨i, B, rfl, hB, hI⟩)
      · exact ⟨0, X, rfl, by simp, hJ⟩
      · exact ⟨i + 1, B, by omega, by simpa using hB, hI⟩
    · rintro ⟨i, B, rfl, hB, hI⟩
      cases i with
      | zero =>
        simp only [List.getElem?_cons_zero, Option.some.injEq] at hB
        subst hB
        exact Or.inl ⟨I, hI, rfl, rfl⟩
      | succ i => exact Or.inr ⟨i, B, by omega, by simpa using hB, hI⟩

/-- One loop iteration of the pass is one iteration on the flat view. -/
theorem visit_flat (Folder : Constant → Constant → Option Constant) (Name : String)
    (S : PassState) (hT : S.Tail ≠ []) :
    (visit Folder Name S).flat = Flat.visit Folder S.flat := by
  obtain ⟨I, Rest, hIR⟩ := List.exists_cons_of_ne_nil hT
  cases hm : matchMul I with
  | none =>
    rw [visit_skip Folder Name S I Rest hIR hm]
    simp [PassState.flat, Flat.visit, hIR, hm]
  | some q =>
    obtain ⟨id, T, P, O⟩ := q
    rw [visit_rewrite Folder Name S I Rest hIR id T P O hm]
    simp [PassState.flat, Flat.visit, hIR, hm, tagFrom_map, List.map_map, Function.comp_def]

theorem visit_Prev_length (Folder : Constant → Constant → Option Constant) (Name : String)
    (S : PassState) : (visit Folder Name S).Prev.length = S.Prev.length := by
  cases hT : S.Tail with
  | nil => simp [visit, hT]
  | cons I Rest =>
    cases hm : matchMul I with
    | none => rw [visit_skip Folder Name S I Rest hT hm]
    | some q =>
      obtain ⟨id, T, P, O⟩ := q
      rw [visit_rewrite Folder Name S I Rest hT id T P O hm]
      simp

theorem visit_Next_length (Folder : Constant → Constant → Option Constant) (Name : String)
    (S : PassState) : (visit Folder Name S).Next.length = S.Next.length := by
  cases hT : S.Tail with
  | nil => simp [visit, hT]
  | cons I Rest =>
    cases hm : matchMul I with
    | none => rw [visit_skip Folder Name S I Rest hT hm]
    | some q =>
      obtain ⟨id, T, P, O⟩ := q
      rw [visit_rewrite Folder Name S I Rest hT id T P O hm]
      simp

theorem visit_Tail_length (Folder : Constant → Constant → Option Constant) (Name : String)
    (S : PassState) : (visit Folder Name S).Tail.length = S.Tail.length - 1 := by
  cases hT : S.Tail with
  | nil => simp [visit, hT]
  | cons I Rest =>
    cases hm : matchMul I with
    | none => rw [visit_skip Folder Name S I Rest hT hm]; simp
    | some q =>
      obtain ⟨id, T, P, O⟩ := q
      rw [visit_rewrite Folder Name S I Rest hT id T P O hm]
      simp

/-- A property of the flat view kept by every loop iteration holds when the scan of
a block ends, and the scan ends with the cursor at the end of the block. -/
theorem scanInstructions_flat (Folder : Constant → Constant → Option Constant) (Name : String)
    (P : Flat → Prop) (hstep : ∀ s, P s → P (Flat.visit Folder s)) :
    ∀ (n : Nat) (S : PassState), S.Tail.length ≤ n → P S.flat →
      P (scanInstructions Folder Name n S).flat ∧
      (scanInstructions Folder Name n S).Tail = [] ∧
      (scanInstructions Folder Name n S).Prev.length = S.Prev.length ∧
      (scanInstructions Folder Name n S).Next.length = S.Next.length := by
  intro n
  induction n with
  | zero =>
    intro S hlen hP
    have : S.Tail = [] := List.length_eq_zero.mp (by omega)
    exact ⟨hP, this, rfl, rfl⟩
  | succ n ih =>
    intro S hlen hP
    cases hT : S.Tail with
    | nil =>
      have e : scanInstructions Folder Name (n + 1) S = S := by
        simp only [scanInstructions, hT]
      rw [e]
      exact ⟨hP, hT, rfl, rfl⟩
    | cons I Rest =>
      simp only [scanInstructions, hT]
      have hne : S.Tail ≠ [] := by simp [hT]
      have h1 := visit_Tail_length Folder Name S
      have h2 := visit_flat Folder Name S hne
      have := ih (visit Folder Name S) (by rw [h1]; omega) (by rw [h2]; exact hstep _ hP)
      refine ⟨this.1, this.2.1, ?_, ?_⟩
      · rw [this.2.2.1, visit_Prev_length]
      · rw [this.2.2.2, visit_Next_length]

/-- The flat view between two blocks: nothing of the next block is visited yet. -/
theorem flat_open (S : PassState) (BB : BasicBlock) (Rest : List BasicBlock) :
    ({ S with Head := [], Tail := BB, Next := Rest } : PassState).flat =
      { visited := tagFrom 0 S.Prev, pending := tagFrom S.Prev.length (BB :: Rest),
        Changed := S.Changed, fresh := S.fresh, Replaced := S.Replaced } := by
  simp [PassState.flat, tagFrom]

/-- A property of the flat view kept by every loop iteration holds when the scan of
the function ends, and every block has then been scanned. -/
theorem scanBlocks_flat (Folder : Constant → Constant → Option Constant) (Name : String)
    (P : Flat → Prop) (hstep : ∀ s, P s → P (Flat.visit Folder s)) :
    ∀ (n : Nat) (S : PassState), S.Next.length ≤ n →
      P { visited := tagFrom 0 S.Prev, pending := tagFrom S.Prev.length S.Next,
          Changed := S.Changed, fresh := S.fresh, Replaced := S.Replaced } →
      P { visited := tagFrom 0 (scanBlocks Folder Name n S).Prev, pending := [],
          Changed := (scanBlocks Folder Name n S).Changed,
          fresh := (scanBlocks Folder Name n S).fresh,
          Replaced := (scanBlocks Folder Name n S).Replaced } ∧
      (scanBlocks Folder Name n S).Next = [] := by
  intro n
  induction n with
  | zero =>
    intro S hlen hP
    have : S.Next = [] := List.length_eq_zero.mp (by omega)
    simp only [scanBlocks]
    rw [this] at hP
    exact ⟨hP, this⟩
  | succ n ih =>
    intro S hlen hP
    cases hN : S.Next with
    | nil =>
      have e : scanBlocks Folder Name (n + 1) S = S := by
        simp only [scanBlocks, hN]
      rw [e]
      rw [hN] at hP
      exact ⟨hP, hN⟩
    | cons BB Rest =>
      simp only [scanBlocks, hN]
      rw [hN, ← flat_open] at hP
      obtain ⟨h1, h2, h3, h4⟩ := scanInstructions_flat Folder Name P hstep BB.length
        { S with Head := [], Tail := BB, Next := Rest } (le_refl _) hP
      generalize scanInstructions Folder Name BB.length
        { S with Head := [], Tail := BB, Next := Rest } = S1 at h1 h2 h3 h4 ⊢
      have hlen1 : S1.Next.length ≤ n := by
        rw [h4]
        simp only [hN, List.length_cons] at hlen
        simpa using hlen
      apply ih
      · exact hlen1
      · simp only [PassState.flat, h2, List.map_nil, List.nil_append] at h1
        simp only [List.length_append, List.length_singleton, h2, List.append_nil,
          tagFrom_append, tagFrom, zero_add]
        exact h1

/-- Induction over a run: a property of the flat view that holds on entry and is
kept by every loop iteration holds of the returned function, and nothing is left
to visit. -/
theorem runState_flat (Folder : Constant → Constant → Option Constant) (F : Function)
    (P : Flat → Prop) (hstep : ∀ s, P s → P (Flat.visit Folder s))
    (h0 : P { visited := [], pending := tagFrom 0 F.Blocks, Changed := false,
              fresh := F.freshId, Replaced := [] }) :
    P { visited := tagFrom 0 (run Folder F).1.Blocks, pending := [],
        Changed := (runState Folder F).Changed, fresh := (runState Folder F).fresh,
        Replaced := (runState Folder F).Replaced } :=
  (scanBlocks_flat Folder F.Name P hstep F.Blocks.length (PassState.entry F) (le_refl _) h0).1

/-! ## Eligibility and the loop body -/

theorem selectPowerOfTwo_isSome (LHS RHS : Value) :
    (selectPowerOfTwo LHS RHS).isSome = (isPowerOfTwoConstant LHS || isPowerOfTwoConstant RHS) := by
  unfold selectPowerOfTwo isPowerOfTwoConstant
  cases dyn_cast_ConstantInt LHS with
  | none =>
    cases dyn_cast_ConstantInt RHS with
    | none => rfl
    | some r => cases hr : isPowerOfTwo r <;> simp [hr]
  | some l =>
    cases hl : isPowerOfTwo l with
    | true => simp [hl]
    | false =>
      cases dyn_cast_ConstantInt RHS with
      | none => simp [hl]
      | some r => cases hr : isPowerOfTwo r <;> simp [hl, hr]

/-- The loop body rewrites exactly the eligible multiplies. -/
theorem matchMul_isSome (I : Instruction) : (matchMul I).isSome = eligible I := by
  cases I with
  | Other i op T ops => rfl
  | BinaryOperator i op T L R =>
    simp only [matchMul, eligible]
    by_cases hop : op = .Mul
    · subst hop
      cases hT : T.isIntegerTy
      · simp
      · rw [← selectPowerOfTwo_isSome]
        cases hsel : selectPowerOfTwo L R with
        | none => simp
        | some q => obtain ⟨P, O, b⟩ := q; simp
    · simp [hop]

theorem matchMul_eq_none {I : Instruction} : matchMul I = Option.none ↔ eligible I = false := by
  rw [← matchMul_isSome]
  cases matchMul I <;> simp

theorem flatVisit_nil (Folder : Constant → Constant → Option Constant) (s : Flat)
    (h : s.pending = []) : Flat.visit Folder s = s := by
  simp [Flat.visit, h]

theorem flatVisit_skip (Folder : Constant → Constant → Option Constant) (s : Flat)
    (k : Nat) (I : Instruction) (rest : List (Nat × Instruction))
    (h : s.pending = (k, I) :: rest) (hm : matchMul I = Option.none) :
    Flat.visit Folder s = { s with visited := s.visited ++ [(k, I)], pending := rest } := by
  simp [Flat.visit, h, hm]

theorem flatVisit_rewrite (Folder : Constant → Constant → Option Constant) (s : Flat)
    (k : Nat) (I : Instruction) (rest : List (Nat × Instruction))
    (h : s.pending = (k, I) :: rest) (id : Nat) (T : Ty) (P : APInt) (O : Value)
    (hm : matchMul I = some (id, T, P, O)) :
    Flat.visit Folder s =
      { visited := (s.visited ++ (NewInst Folder s.fresh T P O).2.toList.map (fun J => (k, J))).map
          (fun p => (p.1, p.2.replaceUsesOfWith id (NewInst Folder s.fresh T P O).1))
        pending := rest.map
          (fun p => (p.1, p.2.replaceUsesOfWith id (NewInst Folder s.fresh T P O).1))
        Changed := true
        fresh := s.fresh + (NewInst Folder s.fresh T P O).2.toList.length
        Replaced := s.Replaced ++ [(id, (NewInst Folder s.fresh T P O).1)] } := by
  simp [Flat.visit, h, hm]

/-- While nothing ahead of the cursor is eligible, nothing changes. -/
theorem unchanged_step (Folder : Constant → Constant → Option Constant) (s : Flat)
    (h : s.Changed = false ∧ ∀ p ∈ s.pending, eligible p.2 = false) :
    (Flat.visit Folder s).Changed = false ∧
      ∀ p ∈ (Flat.visit Folder s).pending, eligible p.2 = false := by
  cases hp : s.pending with
  | nil => rw [flatVisit_nil Folder s hp]; exact h
  | cons q rest =>
    obtain ⟨k, I⟩ := q
    have hI : matchMul I = Option.none := matchMul_eq_none.2 (h.2 (k, I) (by simp [hp]))
    rw [flatVisit_skip Folder s k I rest hp hI]
    exact ⟨h.1, fun p hp2 => h.2 p (by simp [hp, hp2])⟩

/-- An eligible multiply ahead of the cursor forces the flag. -/
theorem changed_step (Folder : Constant → Constant → Option Constant) (s : Flat)
    (h : s.Changed = true ∨ ∃ p ∈ s.pending, eligible p.2 = true) :
    (Flat.visit Folder s).Changed = true ∨
      ∃ p ∈ (Flat.visit Folder s).pending, eligible p.2 = true := by
  cases hp : s.pending with
  | nil =>
    rw [flatVisit_nil Folder s hp]
    rcases h with h | ⟨p, hp2, _⟩
    · exact Or.inl h
    · simp [hp] at hp2
  | cons q rest =>
    obtain ⟨k, I⟩ := q
    cases hm : matchMul I with
    | some x =>
      obtain ⟨id, T, P, O⟩ := x
      rw [flatVisit_rewrite Folder s k I rest hp id T P O hm]
      exact Or.inl rfl
    | none =>
      rw [flatVisit_skip Folder s k I rest hp hm]
      rcases h with h | ⟨p, hp2, he⟩
      · exact Or.inl h
      · right
        rw [hp] at hp2
        rcases List.mem_cons.1 hp2 with rfl | hin
        · rw [matchMul_eq_none.1 hm] at he
          simp at he
        · exact ⟨p, hin, he⟩

theorem mem_tagFrom_zero {Bs : List BasicBlock} {p : Nat × Instruction} :
    p ∈ tagFrom 0 Bs → ∃ B ∈ Bs, p.2 ∈ B := by
  obtain ⟨j, I⟩ := p
  intro h
  obtain ⟨i, B, _, hB, hI⟩ := mem_tagFrom.1 h
  exact ⟨B, List.getElem?_mem hB, hI⟩

theorem mem_tagFrom_of_mem {Bs : List BasicBlock} {B : BasicBlock} {I : Instruction}
    (hB : B ∈ Bs) (hI : I ∈ B) : ∃ j, (j, I) ∈ tagFrom 0 Bs := by
  obtain ⟨i, hi, rfl⟩ := List.getElem_of_mem hB
  exact ⟨i, mem_tagFrom.2 ⟨i, Bs[i], by simp, by simp [hi], hI⟩⟩

/-- C2: for every function F, the pass returns `PreservedAnalyses::none()` (Changed is
true) if and only if F contained on entry at least one eligible multiply, and it
returns `PreservedAnalyses::all()` exactly when F contained none. -/
theorem C2_changed_flag (Folder : Constant → Constant → Option Constant) (F : Function) :
    ((run Folder F).2 = PreservedAnalyses.none ↔
      ∃ B ∈ F.Blocks, ∃ I ∈ B, eligible I = true) ∧
    ((run Folder F).2 = PreservedAnalyses.all ↔
      ¬ ∃ B ∈ F.Blocks, ∃ I ∈ B, eligible I = true) := by
  have hyes : (∃ B ∈ F.Blocks, ∃ I ∈ B, eligible I = true) →
      (runState Folder F).Changed = true := by
    rintro ⟨B, hB, I, hI, he⟩
    obtain ⟨j, hj⟩ := mem_tagFrom_of_mem hB hI
    have := runState_flat Folder F
      (fun s => s.Changed = true ∨ ∃ p ∈ s.pending, eligible p.2 = true)
      (changed_step Folder) (Or.inr ⟨(j, I), hj, he⟩)
    simpa using this
  have hno : (¬ ∃ B ∈ F.Blocks, ∃ I ∈ B, eligible I = true) →
      (runState Folder F).Changed = false := by
    intro h
    have := runState_flat Folder F
      (fun s => s.Changed = false ∧ ∀ p ∈ s.pending, eligible p.2 = false)
      (unchanged_step Folder) ⟨rfl, fun p hp => by
        obtain ⟨B, hB, hI⟩ := mem_tagFrom_zero hp
        cases he : eligible p.2 with
        | false => rfl
        | true => exact absurd ⟨B, hB, p.2, hI, he⟩ h⟩
    exact this.1
  by_cases h : ∃ B ∈ F.Blocks, ∃ I ∈ B, eligible I = true
  · simp [run, hyes h, h]
  · simp [run, hno h, h]

/-! ## Redirection keeps what identifies an instruction -/

theorem id_replaceUsesOfWith (m : Nat) (V : Value) (I : Instruction) :
    (I.replaceUsesOfWith m V).id = I.id := by
  cases I <;> rfl

theorem getType_replaceUsesOfWith (m : Nat) (V : Value) (I : Instruction) :
    (I.replaceUsesOfWith m V).getType = I.getType := by
  cases I <;> rfl

theorem operands_replaceUsesOfWith (m : Nat) (V : Value) (I : Instruction) :
    (I.replaceUsesOfWith m V).operands = I.operands.map (Value.replaceUsesOfWith m V) := by
  cases I <;> rfl

theorem replaceUsesOfWith_const (m : Nat) (V : Value) (C : Constant) :
    Value.replaceUsesOfWith m V (.Const C) = .Const C := by
  simp [Value.replaceUsesOfWith]

theorem isPowerOfTwoConstant_replace (m : Nat) (V X : Value)
    (h : isPowerOfTwoConstant X = true) :
    Value.replaceUsesOfWith m V X = X := by
  cases X with
  | Const C => exact replaceUsesOfWith_const m V C
  | Argument a => simp [isPowerOfTwoConstant, dyn_cast_ConstantInt] at h
  | Inst i => simp [isPowerOfTwoConstant, dyn_cast_ConstantInt] at h

/-- An eligible multiply stays eligible whatever its uses are redirected to. -/
theorem eligible_replaceUsesOfWith (m : Nat) (V : Value) (I : Instruction)
    (h : eligible I = true) : eligible (I.replaceUsesOfWith m V) = true := by
  cases I with
  | Other i op T ops => simp [eligible] at h
  | BinaryOperator i op T L R =>
    simp only [eligible, Bool.and_eq_true, Bool.or_eq_true, decide_eq_true_eq] at h
    obtain ⟨⟨hop, hT⟩, hLR⟩ := h
    simp only [Instruction.replaceUsesOfWith, eligible, Bool.and_eq_true, Bool.or_eq_true,
      decide_eq_true_eq]
    refine ⟨⟨hop, hT⟩, ?_⟩
    rcases hLR with hL | hR
    · left; rw [isPowerOfTwoConstant_replace m V L hL]; exact hL
    · right; rw [isPowerOfTwoConstant_replace m V R hR]; exact hR

/-- What the builder hands back: a folded constant and no instruction, or the result
of a new shift with identity `fresh`, of the multiply type, shifting the other operand. -/
theorem NewInst_cases (Folder : Constant → Constant → Option Constant) (fresh : Nat) (T : Ty)
    (P : APInt) (O : Value) :
    (∃ C OC, O = .Const OC ∧ NewInst Folder fresh T P O = (.Const C, Option.none)) ∨
    NewInst Folder fresh T P O =
      (.Inst fresh, some (.BinaryOperator fresh .Shl T O
        (.Const (.ConstantInt (ConstantInt.get T (ShiftAmount P)))))) := by
  unfold NewInst CreateShl
  cases O with
  | Const OC =>
    simp only
    cases h : FoldShl Folder OC (.ConstantInt (ConstantInt.get T (ShiftAmount P))) with
    | none => right; rfl
    | some C => left; exact ⟨C, OC, rfl, rfl⟩
  | Argument a => right; rfl
  | Inst i => right; rfl

theorem matchMul_id {I : Instruction} {id : Nat} {T : Ty} {P : APInt} {O : Value}
    (h : matchMul I = some (id, T, P, O)) : I.id = id := by
  obtain ⟨L, R, b, rfl, _, _⟩ := matchMul_some h
  rfl

theorem lt_freshId_aux (L : List Nat) :
    ∀ x ∈ L, x < L.foldr (fun a b => max (a + 1) b) 0 := by
  induction L with
  | nil => simp
  | cons a L ih =>
    intro x hx
    simp only [List.foldr_cons]
    rcases List.mem_cons.1 hx with rfl | h
    · omega
    · have := ih x h
      omega

theorem lt_freshId (F : Function) (I : Instruction) (h : I ∈ F.instructions) :
    I.id < F.freshId :=
  lt_freshId_aux _ _ (List.mem_map_of_mem _ h)

/-! ## Every multiply eligible on entry is reached and rewritten -/

/-- An eligible multiply ahead of the cursor is either still ahead, still eligible,
or its replacement has been recorded. -/
theorem reached_step (Folder : Constant → Constant → Option Constant) (m : Nat) (s : Flat)
    (h : m ∈ s.Replaced.map Prod.fst ∨ ∃ p ∈ s.pending, p.2.id = m ∧ eligible p.2 = true) :
    m ∈ (Flat.visit Folder s).Replaced.map Prod.fst ∨
      ∃ p ∈ (Flat.visit Folder s).pending, p.2.id = m ∧ eligible p.2 = true := by
  cases hp : s.pending with
  | nil =>
    rw [flatVisit_nil Folder s hp]
    exact h
  | cons q rest =>
    obtain ⟨k, J⟩ := q
    cases hm : matchMul J with
    | none =>
      rw [flatVisit_skip Folder s k J rest hp hm]
      rcases h with h | ⟨p, hp2, hid, he⟩
      · exact Or.inl h
      · right
        rw [hp] at hp2
        rcases List.mem_cons.1 hp2 with rfl | hin
        · rw [matchMul_eq_none.1 hm] at he
          simp at he
        · exact ⟨p, hin, hid, he⟩
    | some x =>
      obtain ⟨id, T, P, O⟩ := x
      rw [flatVisit_rewrite Folder s k J rest hp id T P O hm]
      rcases h with h | ⟨p, hp2, hid, he⟩
      · left
        simp only [List.map_append, List.mem_append]
        exact Or.inl h
      · rw [hp] at hp2
        rcases List.mem_cons.1 hp2 with rfl | hin
        · left
          simp only [List.map_append, List.mem_append, List.map_cons, List.map_nil,
            List.mem_singleton]
          right
          rw [← hid]
          exact (matchMul_id hm)
        · right
          refine ⟨(p.1, p.2.replaceUsesOfWith id (NewInst Folder s.fresh T P O).1),
            List.mem_map_of_mem _ hin, ?_, ?_⟩
          · simp only [id_replaceUsesOfWith]; exact hid
          · exact eligible_replaceUsesOfWith _ _ _ he

/-! ## Identities during the scan -/

theorem idList_map_replace (m : Nat) (V : Value) (L : List (Nat × Instruction)) :
    (L.map (fun p => (p.1, p.2.replaceUsesOfWith m V))).map (fun p => p.2.id) =
      L.map (fun p => p.2.id) := by
  simp [List.map_map, Function.comp_def, id_replaceUsesOfWith]

/-- How one loop iteration changes the identities in the function: nothing when the
instruction is skipped; otherwise the multiply leaves and, unless the shift was
folded, the fresh identity takes its place. -/
theorem idList_visit (Folder : Constant → Constant → Option Constant) (s : Flat)
    (k : Nat) (J : Instruction) (rest : List (Nat × Instruction))
    (hp : s.pending = (k, J) :: rest) (id : Nat) (T : Ty) (P : APInt) (O : Value)
    (hm : matchMul J = some (id, T, P, O)) :
    s.idList = s.visited.map (fun p => p.2.id) ++ id :: rest.map (fun p => p.2.id) ∧
    (Flat.visit Folder s).idList =
      s.visited.map (fun p => p.2.id) ++
        (NewInst Folder s.fresh T P O).2.toList.map (fun _ => s.fresh) ++
        rest.map (fun p => p.2.id) ∧
    (Flat.visit Folder s).fresh = s.fresh + (NewInst Folder s.fresh T P O).2.toList.length ∧
    (Flat.visit Folder s).Replaced = s.Replaced ++ [(id, (NewInst Folder s.fresh T P O).1)] := by
  refine ⟨?_, ?_, ?_, ?_⟩
  · simp [Flat.idList, hp, matchMul_id hm]
  · rw [flatVisit_rewrite Folder s k J rest hp id T P O hm]
    simp only [Flat.idList, List.map_append, idList_map_replace, List.map_map,
      Function.comp_def, id_replaceUsesOfWith]
    rcases NewInst_cases Folder s.fresh T P O with ⟨C, OC, _, h⟩ | h
    · simp [h]
    · simp [h, Instruction.id]
  · rw [flatVisit_rewrite Folder s k J rest hp id T P O hm]
  · rw [flatVisit_rewrite Folder s k J rest hp id T P O hm]

/-- The identity discipline is kept by every loop iteration. -/
theorem IdsOk_step (Folder : Constant → Constant → Option Constant) (s : Flat)
    (h : s.IdsOk) : (Flat.visit Folder s).IdsOk := by
  cases hp : s.pending with
  | nil => rw [flatVisit_nil Folder s hp]; exact h
  | cons q rest =>
    obtain ⟨k, J⟩ := q
    cases hm : matchMul J with
    | none =>
      rw [flatVisit_skip Folder s k J rest hp hm]
      have e : ({ s with visited := s.visited ++ [(k, J)], pending := rest } : Flat).idList =
          s.idList := by
        simp [Flat.idList, hp]
      unfold Flat.IdsOk
      rw [e]
      exact h
    | some x =>
      obtain ⟨id, T, P, O⟩ := x
      obtain ⟨e1, e2, e3, e4⟩ := idList_visit Folder s k J rest hp id T P O hm
      obtain ⟨hnd, hlt, hrep⟩ := h
      rw [e1] at hnd hlt hrep
      have hfresh : s.fresh ∉ s.visited.map (fun p => p.2.id) ++ id :: rest.map (fun p => p.2.id) :=
        fun hin => Nat.lt_irrefl _ (hlt _ hin)
      have hins : ∀ x ∈ (NewInst Folder s.fresh T P O).2.toList.map (fun _ => s.fresh),
          x = s.fresh := by
        intro x hx
        obtain ⟨_, _, rfl⟩ := List.mem_map.1 hx
        rfl
      have hinsnd : ((NewInst Folder s.fresh T P O).2.toList.map (fun _ => s.fresh)).Nodup := by
        cases (NewInst Folder s.fresh T P O).2 <;> simp
      have hsub : ∀ x ∈ (Flat.visit Folder s).idList,
          x = s.fresh ∨ (x ≠ id ∧
            x ∈ s.visited.map (fun p => p.2.id) ++ id :: rest.map (fun p => p.2.id)) := by
        intro x hx
        rw [e2] at hx
        simp only [List.mem_append] at hx
        have hnd' := hnd
        rw [List.nodup_append] at hnd'
        obtain ⟨_, hnd2, hdis⟩ := hnd'
        rcases hx with (hx | hx) | hx
        · right
          refine ⟨?_, by simp [hx]⟩
          rintro rfl
          exact hdis hx (by simp)
        · exact Or.inl (hins x hx)
        · right
          refine ⟨?_, by simp [hx]⟩
          rintro rfl
          exact (List.nodup_cons.1 hnd2).1 hx
      refine ⟨?_, ?_, ?_⟩
      · rw [e2]
        rw [List.nodup_append] at hnd ⊢
        obtain ⟨hv, hr, hdis⟩ := hnd
        refine ⟨?_, (List.nodup_cons.1 hr).2, ?_⟩
        · rw [List.nodup_append]
          refine ⟨hv, hinsnd, ?_⟩
          intro a ha hb
          rw [hins a hb] at ha
          exact hfresh (by simp [ha])
        · intro a ha hb
          simp only [List.mem_append] at ha
          rcases ha with ha | ha
          · exact hdis ha (by simp [hb])
          · rw [hins a ha] at hb
            exact hfresh (by simp [hb])
      · intro x hx
        rw [e3]
        rcases hsub x hx with rfl | ⟨_, hx⟩
        · rw [e2] at hx
          simp only [List.mem_append] at hx
          rcases hx with (hx | hx) | hx
          · exact absurd (by simp [hx]) hfresh
          · obtain ⟨I, hI, _⟩ := List.mem_map.1 hx
            have : (NewInst Folder s.fresh T P O).2.toList.length ≠ 0 := by
              intro h0
              rw [List.length_eq_zero.1 h0] at hI
              simp at hI
            omega
          · exact absurd (by simp [hx]) hfresh
        · have := hlt x hx
          omega
      · intro q hq
        rw [e4] at hq
        rw [e3]
        rcases List.mem_append.1 hq with hq | hq
        · obtain ⟨h1, h2⟩ := hrep q hq
          refine ⟨by omega, ?_⟩
          intro hin
          rcases hsub _ hin with hf | ⟨_, hx⟩
          · omega
          · exact h2 hx
        · simp only [List.mem_singleton] at hq
          subst hq
          have hid : id < s.fresh := hlt id (by simp)
          refine ⟨by simp only; omega, ?_⟩
          intro hin
          rcases hsub _ hin with hf | ⟨hne, _⟩
          · simp only at hf; omega
          · exact hne rfl

theorem tagFrom_idList (F : Function) :
    (tagFrom 0 F.Blocks).map (fun p => p.2.id) = ids F.instructions := by
  have := tagFrom_map_snd F.Blocks 0
  simp only [ids, Function.instructions, ← this, List.map_map, Function.comp_def]

/-- On entry to the pass a well-formed function satisfies the identity discipline. -/
theorem IdsOk_entry (F : Function) (h : F.WellFormed) :
    Flat.IdsOk { visited := [], pending := tagFrom 0 F.Blocks, Changed := false,
                 fresh := F.freshId, Replaced := [] } := by
  refine ⟨?_, ?_, ?_⟩
  · simp only [Flat.idList, List.nil_append, tagFrom_idList]
    exact h
  · intro x hx
    simp only [Flat.idList, List.nil_append, tagFrom_idList] at hx
    obtain ⟨I, hI, rfl⟩ := List.mem_map.1 hx
    exact lt_freshId F I hI
  · intro q hq
    simp at hq

/-- C5: for every function (with distinct instruction identities), every multiply that
is eligible on entry is rewritten by one invocation: its replacement is made (its uses
are redirected) and no instruction with its identity is left in the function; none is
skipped because an earlier instruction of the block was replaced during the scan. -/
theorem C5_scan_completeness (Folder : Constant → Constant → Option Constant) (F : Function)
    (hwf : F.WellFormed) :
    ∀ B ∈ F.Blocks, ∀ I ∈ B, eligible I = true →
      I.id ∈ (runState Folder F).Replaced.map Prod.fst ∧
      ∀ J ∈ (run Folder F).1.instructions, J.id ≠ I.id := by
  intro B hB I hI he
  obtain ⟨j, hj⟩ := mem_tagFrom_of_mem hB hI
  have h := runState_flat Folder F
    (fun s => s.IdsOk ∧
      (I.id ∈ s.Replaced.map Prod.fst ∨ ∃ p ∈ s.pending, p.2.id = I.id ∧ eligible p.2 = true))
    (fun s hs => ⟨IdsOk_step Folder s hs.1, reached_step Folder I.id s hs.2⟩)
    ⟨IdsOk_entry F hwf, Or.inr ⟨(j, I), hj, rfl, he⟩⟩
  obtain ⟨⟨_, _, hrep⟩, hreach⟩ := h
  have hin : I.id ∈ (runState Folder F).Replaced.map Prod.fst := by
    rcases hreach with h | ⟨p, hp, _⟩
    · exact h
    · simp at hp
  refine ⟨hin, ?_⟩
  obtain ⟨q, hq, hq1⟩ := List.mem_map.1 hin
  intro J hJ hid
  apply (hrep q hq).2
  simp only [Flat.idList, List.append_nil]
  have e := tagFrom_idList (run Folder F).1
  rw [e, hq1, ← hid]
  exact List.mem_map_of_mem _ hJ

/-- C5 on a block of three consecutive eligible multiplies: all three are rewritten. -/
theorem C5_scan_completeness_witness :
    threeMuls.WellFormed ∧
    (∀ B ∈ threeMuls.Blocks, ∀ I ∈ B, eligible I = true →
      I.id ∈ (runState NoFold threeMuls).Replaced.map Prod.fst ∧
      ∀ J ∈ (run NoFold threeMuls).1.instructions, J.id ≠ I.id) ∧
    (run NoFold threeMuls).1.Blocks = [[
      .BinaryOperator 4 .Shl (.IntegerTy 32) (.Argument 0) (i32 1),
      .BinaryOperator 5 .Shl (.IntegerTy 32) (.Argument 1) (i32 2),
      .BinaryOperator 6 .Shl (.IntegerTy 32) (.Argument 2) (i32 3),
      Ret 3 (.Inst 6)]] :=
  ⟨by decide, C5_scan_completeness NoFold threeMuls (by decide), by decide⟩

/-! ## Redirection of uses -/

theorem redirect_append (R : List (Nat × Value)) (m : Nat) (V X : Value) :
    redirect (R ++ [(m, V)]) X = Value.replaceUsesOfWith m V (redirect R X) := by
  simp [redirect, List.foldl_append]

theorem instruction_redirect_append (R : List (Nat × Value)) (m : Nat) (V : Value)
    (I : Instruction) :
    I.redirect (R ++ [(m, V)]) = (I.redirect R).replaceUsesOfWith m V := by
  simp [Instruction.redirect, List.foldl_append]

theorem redirect_of_forall_ne (R : List (Nat × Value)) (X : Value)
    (h : ∀ q ∈ R, X ≠ .Inst q.1) : redirect R X = X := by
  induction R with
  | nil => rfl
  | cons q R ih =>
    have h1 : Value.replaceUsesOfWith q.1 q.2 X = X := by
      simp [Value.replaceUsesOfWith, h q (by simp)]
    simp only [redirect, List.foldl_cons, h1]
    exact ih (fun q hq => h q (by simp [hq]))

theorem id_redirect (R : List (Nat × Value)) (I : Instruction) : (I.redirect R).id = I.id := by
  induction R generalizing I with
  | nil => rfl
  | cons q R ih =>
    simp only [Instruction.redirect, List.foldl_cons]
    exact (ih _).trans (id_replaceUsesOfWith _ _ _)

theorem getType_redirect (R : List (Nat × Value)) (I : Instruction) :
    (I.redirect R).getType = I.getType := by
  induction R generalizing I with
  | nil => rfl
  | cons q R ih =>
    simp only [Instruction.redirect, List.foldl_cons]
    exact (ih _).trans (getType_replaceUsesOfWith _ _ _)

theorem operands_redirect (R : List (Nat × Value)) (I : Instruction) :
    (I.redirect R).operands = I.operands.map (redirect R) := by
  induction R generalizing I with
  | nil =>
    have : redirect [] = fun V => V := rfl
    simp [Instruction.redirect, this]
  | cons q R ih =>
    simp only [Instruction.redirect, List.foldl_cons]
    have := ih (I.replaceUsesOfWith q.1 q.2)
    simp only [Instruction.redirect] at this
    rw [this, operands_replaceUsesOfWith, List.map_map]
    apply List.map_congr_left
    intro a _
    simp [redirect]

theorem isShl_replaceUsesOfWith (m : Nat) (V : Value) (I : Instruction) :
    isShl (I.replaceUsesOfWith m V) = isShl I := by
  cases I with
  | Other i op T ops => rfl
  | BinaryOperator i op T L R => cases op <;> rfl

theorem isMul_replaceUsesOfWith (m : Nat) (V : Value) (I : Instruction) :
    isMul (I.replaceUsesOfWith m V) = isMul I := by
  cases I with
  | Other i op T ops => rfl
  | BinaryOperator i op T L R => cases op <;> rfl

theorem matchMul_operand {I : Instruction} {id : Nat} {T : Ty} {P : APInt} {O : Value}
    (h : matchMul I = some (id, T, P, O)) : O ∈ I.operands ∧ isMul I = true := by
  obtain ⟨L, R, b, rfl, _, hsel⟩ := matchMul_some h
  obtain ⟨_, h1 | h1⟩ := selectPowerOfTwo_some hsel
  · simp [Instruction.operands, isMul, h1.2.2]
  · simp [Instruction.operands, isMul, h1.2.2.1]

/-- A surviving instruction of the entry function sits, with its operands redirected,
in the block it was in. -/
theorem redirected_step (Folder : Constant → Constant → Option Constant) (k0 : Nat)
    (J0 : Instruction) (s : Flat)
    (h : J0.id ∈ s.Replaced.map Prod.fst ∨
      (k0, J0.redirect s.Replaced) ∈ s.visited ++ s.pending) :
    J0.id ∈ (Flat.visit Folder s).Replaced.map Prod.fst ∨
      (k0, J0.redirect (Flat.visit Folder s).Replaced) ∈
        (Flat.visit Folder s).visited ++ (Flat.visit Folder s).pending := by
  cases hp : s.pending with
  | nil => rw [flatVisit_nil Folder s hp]; exact h
  | cons q rest =>
    obtain ⟨k, J⟩ := q
    cases hm : matchMul J with
    | none =>
      rw [flatVisit_skip Folder s k J rest hp hm]
      rcases h with h | h
      · exact Or.inl h
      · right
        rw [hp] at h
        simpa using h
    | some x =>
      obtain ⟨id, T, P, O⟩ := x
      rw [flatVisit_rewrite Folder s k J rest hp id T P O hm]
      simp only [List.map_append, List.mem_append, instruction_redirect_append]
      rcases h with h | h
      · exact Or.inl (Or.inl h)
      · rw [hp] at h
        simp only [List.mem_append, List.mem_cons] at h
        rcases h with h | h | h
        · right; left; left
          exact List.mem_map.2 ⟨_, h, rfl⟩
        · left; right
          simp only [Prod.mk.injEq] at h
          have : J0.id = id := by
            rw [← matchMul_id hm, ← h.2, id_redirect]
          simp [this]
        · right; right
          exact List.mem_map.2 ⟨_, h, rfl⟩

theorem NoDangling_step (Folder : Constant → Constant → Option Constant) (s : Flat)
    (hids : s.IdsOk) (h : s.NoDangling) : (Flat.visit Folder s).NoDangling := by
  cases hp : s.pending with
  | nil => rw [flatVisit_nil Folder s hp]; exact h
  | cons q0 rest =>
    obtain ⟨k, J⟩ := q0
    cases hm : matchMul J with
    | none =>
      rw [flatVisit_skip Folder s k J rest hp hm]
      intro q hq p hp2
      apply h q hq p
      rw [hp]
      simpa using hp2
    | some x =>
      obtain ⟨id, T, P, O⟩ := x
      rw [flatVisit_rewrite Folder s k J rest hp id T P O hm]
      have hJmem : (k, J) ∈ s.visited ++ s.pending := by simp [hp]
      have hidlt : id < s.fresh := by
        apply hids.2.1
        simp only [Flat.idList]
        rw [← matchMul_id hm]
        exact List.mem_map.2 ⟨(k, J), hJmem, rfl⟩
      intro q hq p hp2 hmem
      simp only at hq hp2
      have hqlt : q.1 < s.fresh := by
        rcases List.mem_append.1 hq with hq | hq
        · exact (hids.2.2 q hq).1
        · simp only [List.mem_singleton] at hq
          subst hq
          exact hidlt
      have hp3 : ∃ p0, (p0 ∈ s.visited ∨
            p0 ∈ (NewInst Folder s.fresh T P O).2.toList.map (fun J => (k, J)) ∨ p0 ∈ rest) ∧
          p = (p0.1, p0.2.replaceUsesOfWith id (NewInst Folder s.fresh T P O).1) := by
        simp only [List.mem_append, List.mem_map] at hp2
        rcases hp2 with ⟨p0, h1 | ⟨a, ha, rfl⟩, rfl⟩ | ⟨p0, h1, rfl⟩
        · exact ⟨p0, Or.inl h1, rfl⟩
        · exact ⟨(k, a), Or.inr (Or.inl (List.mem_map.2 ⟨a, ha, rfl⟩)), rfl⟩
        · exact ⟨p0, Or.inr (Or.inr h1), rfl⟩
      obtain ⟨p0, hp0, rfl⟩ := hp3
      simp only [operands_replaceUsesOfWith, List.mem_map] at hmem
      obtain ⟨o, ho, hoeq⟩ := hmem
      by_cases hoid : o = .Inst id
      · simp only [Value.replaceUsesOfWith, hoid, if_true] at hoeq
        rcases NewInst_cases Folder s.fresh T P O with ⟨C, OC, _, hN⟩ | hN
        · rw [hN] at hoeq
          simp at hoeq
        · rw [hN] at hoeq
          simp only [Value.Inst.injEq] at hoeq
          omega
      · simp only [Value.replaceUsesOfWith, hoid, if_false] at hoeq
        subst hoeq
        have hqold : q ∈ s.Replaced := by
          rcases List.mem_append.1 hq with hq | hq
          · exact hq
          · simp only [List.mem_singleton] at hq
            subst hq
            exact absurd rfl hoid
        rcases hp0 with h1 | h1 | h1
        · exact h q hqold p0 (by simp [h1]) ho
        · rcases NewInst_cases Folder s.fresh T P O with ⟨C, OC, _, hN⟩ | hN
          · rw [hN] at h1
            simp at h1
          · rw [hN] at h1
            simp only [Option.toList, List.map_cons, List.map_nil, List.mem_singleton] at h1
            subst h1
            simp only [Instruction.operands, List.mem_cons, List.mem_singleton,
              List.not_mem_nil, or_false] at ho
            rcases ho with ho | ho
            · exact h q hqold (k, J) hJmem (ho ▸ (matchMul_operand hm).1)
            · simp at ho
        · exact h q hqold p0 (by simp [hp, h1]) ho

theorem Settled_step (Folder : Constant → Constant → Option Constant) (s : Flat)
    (hids : s.IdsOk) (h : s.Settled) : (Flat.visit Folder s).Settled := by
  cases hp : s.pending with
  | nil => rw [flatVisit_nil Folder s hp]; exact h
  | cons q0 rest =>
    obtain ⟨k, J⟩ := q0
    cases hm : matchMul J with
    | none =>
      rw [flatVisit_skip Folder s k J rest hp hm]
      intro q hq
      obtain ⟨h1, h2⟩ := h q hq
      refine ⟨h1, ?_⟩
      rcases h2 with h2 | ⟨p, hp2, h3⟩
      · exact Or.inl h2
      · exact Or.inr ⟨p, by simp [hp2], h3⟩
    | some x =>
      obtain ⟨id, T, P, O⟩ := x
      obtain ⟨e1, _, _, _⟩ := idList_visit Folder s k J rest hp id T P O hm
      rw [flatVisit_rewrite Folder s k J rest hp id T P O hm]
      obtain ⟨hnd, hlt, hrep⟩ := hids
      intro q hq
      simp only at hq
      simp only [redirect_append]
      rcases List.mem_append.1 hq with hq | hq
      · obtain ⟨h1, h2⟩ := h q hq
        rw [h1]
        rcases h2 with ⟨C, hC⟩ | ⟨p, hp2, hpe, hps⟩
        · refine ⟨?_, Or.inl ⟨C, hC⟩⟩
          rw [hC]
          exact replaceUsesOfWith_const _ _ _
        · have hne : p.2.id ≠ id := by
            rw [e1, List.nodup_append] at hnd
            intro heq
            exact hnd.2.2 (List.mem_map.2 ⟨p, hp2, rfl⟩) (by simp [heq])
          refine ⟨?_, Or.inr ⟨(p.1, p.2.replaceUsesOfWith id (NewInst Folder s.fresh T P O).1),
            ?_, ?_, ?_⟩⟩
          · rw [hpe]
            simp [Value.replaceUsesOfWith, hne]
          · exact List.mem_map.2 ⟨p, by simp [hp2], rfl⟩
          · simp only [id_replaceUsesOfWith]; exact hpe
          · simp only [isShl_replaceUsesOfWith]; exact hps
      · simp only [List.mem_singleton] at hq
        subst hq
        have hidin : id ∈ s.idList := by rw [e1]; simp
        have hR : redirect s.Replaced (.Inst id) = .Inst id := by
          apply redirect_of_forall_ne
          intro q hq heq
          simp only [Value.Inst.injEq] at heq
          exact (hrep q hq).2 (heq ▸ hidin)
        simp only [hR]
        refine ⟨by simp [Value.replaceUsesOfWith], ?_⟩
        rcases NewInst_cases Folder s.fresh T P O with ⟨C, OC, _, hN⟩ | hN
        · left; exact ⟨C, by rw [hN]⟩
        · right
          refine ⟨(k, (Instruction.BinaryOperator s.fresh .Shl T O
              (.Const (.ConstantInt (ConstantInt.get T (ShiftAmount P))))).replaceUsesOfWith id
                (NewInst Folder s.fresh T P O).1), ?_, ?_, ?_⟩
          · apply List.mem_map.2
            refine ⟨(k, _), ?_, rfl⟩
            rw [hN]
            simp
          · rw [hN]; rfl
          · rw [isShl_replaceUsesOfWith]; rfl

theorem FromEntry_step (Folder : Constant → Constant → Option Constant) (F : Function)
    (s : Flat) (h : s.FromEntry F) : (Flat.visit Folder s).FromEntry F := by
  cases hp : s.pending with
  | nil => rw [flatVisit_nil Folder s hp]; exact h
  | cons q0 rest =>
    obtain ⟨k, J⟩ := q0
    cases hm : matchMul J with
    | none =>
      rw [flatVisit_skip Folder s k J rest hp hm]
      exact ⟨fun p hp2 => h.1 p (by simp [hp, hp2]), h.2⟩
    | some x =>
      obtain ⟨id, T, P, O⟩ := x
      rw [flatVisit_rewrite Folder s k J rest hp id T P O hm]
      refine ⟨?_, ?_⟩
      · intro p hp2
        obtain ⟨p0, hp0, rfl⟩ := List.mem_map.1 hp2
        obtain ⟨I, hI, h1, h2⟩ := h.1 p0 (by simp [hp, hp0])
        exact ⟨I, hI, by simp only [id_replaceUsesOfWith]; exact h1,
          by simp only [isMul_replaceUsesOfWith]; exact h2⟩
      · intro q hq
        rcases List.mem_append.1 hq with hq | hq
        · exact h.2 q hq
        · simp only [List.mem_singleton] at hq
          subst hq
          obtain ⟨I, hI, h1, h2⟩ := h.1 (k, J) (by simp [hp])
          exact ⟨I, hI, h1.trans (matchMul_id hm), h2.trans (matchMul_operand hm).2⟩

theorem FromBuilder_step (Folder : Constant → Constant → Option Constant) (s : Flat)
    (h : s.FromBuilder Folder) : (Flat.visit Folder s).FromBuilder Folder := by
  cases hp : s.pending with
  | nil => rw [flatVisit_nil Folder s hp]; exact h
  | cons q0 rest =>
    obtain ⟨k, J⟩ := q0
    cases hm : matchMul J with
    | none =>
      rw [flatVisit_skip Folder s k J rest hp hm]
      exact h
    | some x =>
      obtain ⟨id, T, P, O⟩ := x
      rw [flatVisit_rewrite Folder s k J rest hp id T P O hm]
      intro q hq
      rcases List.mem_append.1 hq with hq | hq
      · exact h q hq
      · simp only [List.mem_singleton] at hq
        subst hq
        exact ⟨J, s.fresh, T, P, O, hm, rfl⟩

theorem FromEntry_entry (F : Function) :
    Flat.FromEntry F { visited := [], pending := tagFrom 0 F.Blocks, Changed := false,
                       fresh := F.freshId, Replaced := [] } := by
  refine ⟨?_, fun q hq => by simp at hq⟩
  intro p hp
  refine ⟨p.2, ?_, rfl, rfl⟩
  simp only [Function.instructions, ← tagFrom_map_snd F.Blocks 0]
  exact List.mem_map_of_mem _ hp

theorem mem_tagFrom_zero_iff {Bs : List BasicBlock} {k : Nat} {I : Instruction} :
    (k, I) ∈ tagFrom 0 Bs ↔ ∃ B, Bs[k]? = some B ∧ I ∈ B := by
  rw [mem_tagFrom]
  constructor
  · rintro ⟨i, B, hk, hB, hI⟩
    exact ⟨B, by rw [hk, zero_add]; exact hB, hI⟩
  · rintro ⟨B, hB, hI⟩
    exact ⟨k, B, by omega, hB, hI⟩

theorem mem_instructions_iff {F : Function} {I : Instruction} :
    I ∈ F.instructions ↔ ∃ k, (k, I) ∈ tagFrom 0 F.Blocks := by
  simp only [Function.instructions, ← tagFrom_map_snd F.Blocks 0, List.mem_map]
  constructor
  · rintro ⟨p, hp, rfl⟩; exact ⟨p.1, hp⟩
  · rintro ⟨k, hk⟩; exact ⟨(k, I), hk, rfl⟩

/-- C3 (amended): for every function with distinct instruction identities, after the
pass every recorded replacement (m, V) is that of a multiply m of the entry function; no
instruction of the result has identity m (the multiply left its block) and no operand
anywhere in the result refers to m; V is what `CreateShl` returned for it, either the
result of a shift instruction that stands in the result, or the constant the shift was
folded to; and every instruction that was not replaced is in the block it was in, with
each operand that referred to a replaced multiply now referring to that V and every
other operand as it was. -/
theorem C3_use_redirection (Folder : Constant → Constant → Option Constant) (F : Function)
    (hwf : F.WellFormed) :
    (∀ q ∈ (runState Folder F).Replaced,
      (∃ I ∈ F.instructions, I.id = q.1 ∧ isMul I = true) ∧
      (∀ J ∈ (run Folder F).1.instructions, J.id ≠ q.1 ∧ Value.Inst q.1 ∉ J.operands) ∧
      redirect (runState Folder F).Replaced (.Inst q.1) = q.2 ∧
      (∃ (J : Instruction) (fresh : Nat) (T : Ty) (P : APInt) (O : Value),
        matchMul J = some (q.1, T, P, O) ∧ q.2 = (NewInst Folder fresh T P O).1) ∧
      ((∃ C, q.2 = .Const C) ∨
        ∃ X ∈ (run Folder F).1.instructions, q.2 = .Inst X.id ∧ isShl X = true)) ∧
    (∀ V, (∀ q ∈ (runState Folder F).Replaced, V ≠ .Inst q.1) →
      redirect (runState Folder F).Replaced V = V) ∧
    (∀ (k : Nat) (B : BasicBlock) (I : Instruction), F.Blocks[k]? = some B → I ∈ B →
      I.id ∉ (runState Folder F).Replaced.map Prod.fst →
      ∃ (B2 : BasicBlock) (I2 : Instruction), (run Folder F).1.Blocks[k]? = some B2 ∧ I2 ∈ B2 ∧ I2.id = I.id ∧
        I2.getType = I.getType ∧
        I2.operands = I.operands.map (redirect (runState Folder F).Replaced)) := by
  have h := runState_flat Folder F
    (fun s => s.IdsOk ∧ s.NoDangling ∧ s.Settled ∧ s.FromEntry F ∧ s.FromBuilder Folder)
    (fun s hs => ⟨IdsOk_step Folder s hs.1, NoDangling_step Folder s hs.1 hs.2.1,
      Settled_step Folder s hs.1 hs.2.2.1, FromEntry_step Folder F s hs.2.2.2.1,
      FromBuilder_step Folder s hs.2.2.2.2⟩)
    ⟨IdsOk_entry F hwf, fun q hq => by simp at hq, fun q hq => by simp at hq,
      FromEntry_entry F, fun q hq => by simp at hq⟩
  obtain ⟨⟨_, _, hrep⟩, hdang, hset, hfrom, hbuild⟩ := h
  refine ⟨?_, fun V hV => redirect_of_forall_ne _ V hV, ?_⟩
  · intro q hq
    refine ⟨hfrom.2 q hq, ?_, (hset q hq).1, hbuild q hq, ?_⟩
    · intro J hJ
      obtain ⟨k, hk⟩ := mem_instructions_iff.1 hJ
      refine ⟨?_, ?_⟩
      · intro hid
        apply (hrep q hq).2
        simp only [Flat.idList, List.append_nil]
        exact List.mem_map.2 ⟨(k, J), hk, hid⟩
      · exact hdang q hq (k, J) (by simpa using hk)
    · rcases (hset q hq).2 with hC | ⟨p, hp, h1, h2⟩
      · exact Or.inl hC
      · exact Or.inr ⟨p.2, mem_instructions_iff.2 ⟨p.1, hp⟩, h1, h2⟩
  · intro k B I hB hI hnot
    have h2 := runState_flat Folder F
      (fun s => I.id ∈ s.Replaced.map Prod.fst ∨
        (k, I.redirect s.Replaced) ∈ s.visited ++ s.pending)
      (redirected_step Folder k I)
      (Or.inr (by
        simp only [List.nil_append]
        exact mem_tagFrom_zero_iff.2 ⟨B, hB, hI⟩))
    rcases h2 with h2 | h2
    · exact absurd h2 hnot
    · simp only [List.append_nil] at h2
      obtain ⟨B2, hB2, hI2⟩ := mem_tagFrom_zero_iff.1 h2
      exact ⟨B2, _, hB2, hI2, id_redirect _ _, getType_redirect _ _, operands_redirect _ _⟩

/-- C3 on `x = a * 8; y = x + 1; z = x * 2`: both uses of `x` refer to the new shift,
and the multiply is gone. -/
theorem C3_use_redirection_witness :
    useChain.WellFormed ∧
    ((∀ q ∈ (runState NoFold useChain).Replaced,
      (∃ I ∈ useChain.instructions, I.id = q.1 ∧ isMul I = true) ∧
      (∀ J ∈ (run NoFold useChain).1.instructions, J.id ≠ q.1 ∧ Value.Inst q.1 ∉ J.operands) ∧
      redirect (runState NoFold useChain).Replaced (.Inst q.1) = q.2 ∧
      (∃ (J : Instruction) (fresh : Nat) (T : Ty) (P : APInt) (O : Value),
        matchMul J = some (q.1, T, P, O) ∧ q.2 = (NewInst NoFold fresh T P O).1) ∧
      ((∃ C, q.2 = .Const C) ∨
        ∃ X ∈ (run NoFold useChain).1.instructions, q.2 = .Inst X.id ∧ isShl X = true)) ∧
    (∀ V, (∀ q ∈ (runState NoFold useChain).Replaced, V ≠ .Inst q.1) →
      redirect (runState NoFold useChain).Replaced V = V) ∧
    (∀ (k : Nat) (B : BasicBlock) (I : Instruction), useChain.Blocks[k]? = some B → I ∈ B →
      I.id ∉ (runState NoFold useChain).Replaced.map Prod.fst →
      ∃ (B2 : BasicBlock) (I2 : Instruction), (run NoFold useChain).1.Blocks[k]? = some B2 ∧ I2 ∈ B2 ∧ I2.id = I.id ∧
        I2.getType = I.getType ∧
        I2.operands = I.operands.map (redirect (runState NoFold useChain).Replaced))) ∧
    (run NoFold useChain).1.Blocks = [[
      .BinaryOperator 4 .Shl (.IntegerTy 32) (.Argument 0) (i32 3),
      .BinaryOperator 1 .Add (.IntegerTy 32) (.Inst 4) (i32 1),
      .BinaryOperator 5 .Shl (.IntegerTy 32) (.Inst 4) (i32 1),
      Ret 3 (.Inst 5)]] :=
  ⟨by decide, C3_use_redirection NoFold useChain (by decide), by decide⟩

/-- C3 as stated fails on `x = 4 * 8; y = x + 1; ret y`: the multiply is replaced, yet
the use of `x` in `y` refers to the constant 32 and the function holds no shift. -/
theorem C3_use_redirection_counterexample :
    (run NoFold constChain).1.Blocks = [[
      .BinaryOperator 1 .Add (.IntegerTy 32) (i32 32) (i32 1),
      Ret 2 (.Inst 1)]] ∧
    (runState NoFold constChain).Replaced = [(0, i32 32)] ∧
    (run NoFold constChain).2 = PreservedAnalyses.none ∧
    ¬ ∃ X ∈ (run NoFold constChain).1.instructions, isShl X = true := by
  decide

/-! ## A function without eligible multiplies is returned as it is -/

theorem scanInstructions_skip (Folder : Constant → Constant → Option Constant) (Name : String) :
    ∀ (n : Nat) (S : PassState), S.Tail.length ≤ n → (∀ I ∈ S.Tail, eligible I = false) →
      scanInstructions Folder Name n S = { S with Head := S.Head ++ S.Tail, Tail := [] } := by
  intro n
  induction n with
  | zero =>
    intro S hlen _
    have : S.Tail = [] := List.length_eq_zero.mp (by omega)
    cases S
    simp_all [scanInstructions]
  | succ n ih =>
    intro S hlen hne
    cases hT : S.Tail with
    | nil =>
      cases S
      simp_all [scanInstructions]
    | cons I Rest =>
      have hI : matchMul I = Option.none := matchMul_eq_none.2 (hne I (by simp [hT]))
      simp only [scanInstructions, hT]
      rw [visit_skip Folder Name S I Rest hT hI]
      rw [ih _ (by simp only [hT, List.length_cons] at hlen; simpa using hlen)
        (fun J hJ => hne J (by simp only [hT]; exact List.mem_cons_of_mem _ hJ))]
      simp

theorem scanBlocks_skip (Folder : Constant → Constant → Option Constant) (Name : String) :
    ∀ (n : Nat) (S : PassState), S.Next.length ≤ n → S.Head = [] → S.Tail = [] →
      (∀ B ∈ S.Next, ∀ I ∈ B, eligible I = false) →
      scanBlocks Folder Name n S = { S with Prev := S.Prev ++ S.Next, Next := [] } := by
  intro n
  induction n with
  | zero =>
    intro S hlen _ _ _
    have : S.Next = [] := List.length_eq_zero.mp (by omega)
    cases S
    simp_all [scanBlocks]
  | succ n ih =>
    intro S hlen hH hT hne
    cases hN : S.Next with
    | nil =>
      cases S
      simp_all [scanBlocks]
    | cons BB Rest =>
      simp only [scanBlocks, hN]
      rw [scanInstructions_skip Folder Name BB.length _ (le_refl _)
        (fun I hI => hne BB (by simp [hN]) I hI)]
      simp only [List.nil_append, List.append_nil]
      rw [ih _ (by simp only [hN, List.length_cons] at hlen; simpa using hlen) rfl rfl
        (fun B hB => hne B (by simp only [hN]; exact List.mem_cons_of_mem _ hB))]
      simp [hH, hT]

/-- The pass returns a function without eligible multiplies unchanged and reports
that nothing changed. -/
theorem run_of_no_eligible (Folder : Constant → Constant → Option Constant) (F : Function)
    (h : ∀ B ∈ F.Blocks, ∀ I ∈ B, eligible I = false) :
    run Folder F = (F, PreservedAnalyses.all) := by
  have := scanBlocks_skip Folder F.Name F.Blocks.length (PassState.entry F) (le_refl _)
    rfl rfl h
  simp only [run, runState, this]
  simp [PassState.entry]

/-! ## No eligible multiply is left when no shift is folded -/

theorem replaceUsesOfWith_inst_isPowerOfTwoConstant (m s : Nat) (X : Value) :
    isPowerOfTwoConstant (Value.replaceUsesOfWith m (.Inst s) X) = isPowerOfTwoConstant X := by
  cases X with
  | Const C => rw [replaceUsesOfWith_const]
  | Argument a => simp [Value.replaceUsesOfWith]
  | Inst i =>
    simp only [Value.replaceUsesOfWith]
    split <;> rfl

theorem eligible_replace_inst (m s : Nat) (I : Instruction) :
    eligible (I.replaceUsesOfWith m (.Inst s)) = eligible I := by
  cases I with
  | Other i op T ops => rfl
  | BinaryOperator i op T L R =>
    simp only [Instruction.replaceUsesOfWith, eligible,
      replaceUsesOfWith_inst_isPowerOfTwoConstant]

theorem isConstant_replace_inst (m s : Nat) (X : Value) :
    (Value.replaceUsesOfWith m (.Inst s) X).isConstant = X.isConstant := by
  cases X with
  | Const C => rw [replaceUsesOfWith_const]
  | Argument a => simp [Value.replaceUsesOfWith]
  | Inst i =>
    simp only [Value.replaceUsesOfWith]
    split <;> rfl

theorem bothConstant_replace_inst (m s : Nat) (I : Instruction) :
    bothConstant (I.replaceUsesOfWith m (.Inst s)) = bothConstant I := by
  cases I with
  | Other i op T ops => rfl
  | BinaryOperator i op T L R =>
    simp only [Instruction.replaceUsesOfWith, bothConstant, isConstant_replace_inst]

/-- For a matched multiply that is not a multiply of two constants the builder
creates the shift. -/
theorem NewInst_of_not_bothConstant (Folder : Constant → Constant → Option Constant)
    (fresh : Nat) {J : Instruction} {id : Nat} {T : Ty} {P : APInt} {O : Value}
    (hm : matchMul J = some (id, T, P, O)) (hb : bothConstant J = false) :
    NewInst Folder fresh T P O =
      (.Inst fresh, some (.BinaryOperator fresh .Shl T O
        (.Const (.ConstantInt (ConstantInt.get T (ShiftAmount P)))))) := by
  rcases NewInst_cases Folder fresh T P O with ⟨C, OC, hO, _⟩ | h
  · exfalso
    obtain ⟨L, R, b, rfl, _, hsel⟩ := matchMul_some hm
    obtain ⟨_, h1 | h1⟩ := selectPowerOfTwo_some hsel
    · rw [h1.2.1, ← h1.2.2, hO] at hb
      simp [bothConstant, Value.isConstant] at hb
    · rw [h1.2.1, ← h1.2.2.1, hO] at hb
      simp [bothConstant, Value.isConstant] at hb
  · exact h

theorem noFold_step (Folder : Constant → Constant → Option Constant) (s : Flat)
    (h : (∀ p ∈ s.visited, eligible p.2 = false) ∧
      (∀ p ∈ s.pending, eligible p.2 = true → bothConstant p.2 = false)) :
    (∀ p ∈ (Flat.visit Folder s).visited, eligible p.2 = false) ∧
      (∀ p ∈ (Flat.visit Folder s).pending, eligible p.2 = true → bothConstant p.2 = false) := by
  cases hp : s.pending with
  | nil => rw [flatVisit_nil Folder s hp]; exact h
  | cons q0 rest =>
    obtain ⟨k, J⟩ := q0
    cases hm : matchMul J with
    | none =>
      rw [flatVisit_skip Folder s k J rest hp hm]
      refine ⟨?_, fun p hp2 => h.2 p (by simp [hp, hp2])⟩
      intro p hp2
      simp only [List.mem_append, List.mem_singleton] at hp2
      rcases hp2 with hp2 | rfl
      · exact h.1 p hp2
      · exact matchMul_eq_none.1 hm
    | some x =>
      obtain ⟨id, T, P, O⟩ := x
      have hJe : eligible J = true := by
        rw [← matchMul_isSome, hm]; rfl
      have hN := NewInst_of_not_bothConstant Folder s.fresh hm (h.2 (k, J) (by simp [hp]) hJe)
      rw [flatVisit_rewrite Folder s k J rest hp id T P O hm, hN]
      refine ⟨?_, ?_⟩
      · intro p hp2
        simp only [Option.toList, List.map_cons, List.map_nil, List.map_append,
          List.mem_append, List.mem_map, List.mem_singleton] at hp2
        rcases hp2 with ⟨p0, hp0, rfl⟩ | ⟨p0, rfl, rfl⟩
        · simp only [eligible_replace_inst]
          exact h.1 p0 hp0
        · simp only [eligible_replace_inst]
          rfl
      · intro p hp2
        obtain ⟨p0, hp0, rfl⟩ := List.mem_map.1 hp2
        simp only [eligible_replace_inst, bothConstant_replace_inst]
        exact h.2 p0 (by simp [hp, hp0])

/-! ## No eligible multiply is left when every multiply is scanned before its uses -/

theorem replaceUsesOfWith_of_not_mem (m : Nat) (V : Value) (I : Instruction)
    (h : Value.Inst m ∉ I.operands) : I.replaceUsesOfWith m V = I := by
  cases I with
  | BinaryOperator i op T L R =>
    simp only [Instruction.operands, List.mem_cons, List.mem_singleton, List.not_mem_nil,
      or_false, not_or] at h
    have hL : L ≠ .Inst m := fun e => h.1 e.symm
    have hR : R ≠ .Inst m := fun e => h.2 e.symm
    simp [Instruction.replaceUsesOfWith, Value.replaceUsesOfWith, hL, hR]
  | Other i op T ops =>
    simp only [Instruction.operands] at h
    simp only [Instruction.replaceUsesOfWith, Instruction.Other.injEq, true_and]
    conv_rhs => rw [← List.map_id ops]
    apply List.map_congr_left
    intro o ho
    have : o ≠ .Inst m := fun e => h (e ▸ ho)
    simp [Value.replaceUsesOfWith, this]

theorem UsesOnlyEarlier_map_replace (m : Nat) (V : Value) (L : List Instruction)
    (h : UsesOnlyEarlier L) (hV : ∀ J ∈ L, V ≠ .Inst J.id) :
    UsesOnlyEarlier (L.map (Instruction.replaceUsesOfWith m V)) := by
  induction L with
  | nil => trivial
  | cons I Rest ih =>
    obtain ⟨h1, h2⟩ := h
    refine ⟨?_, ih h2 (fun J hJ => hV J (List.mem_cons_of_mem _ hJ))⟩
    intro J hJ hmul hmem
    rw [← List.map_cons] at hJ
    obtain ⟨J0, hJ0, rfl⟩ := List.mem_map.1 hJ
    rw [isMul_replaceUsesOfWith] at hmul
    rw [id_replaceUsesOfWith, operands_replaceUsesOfWith] at hmem
    obtain ⟨o, ho, hoeq⟩ := List.mem_map.1 hmem
    by_cases hom : o = .Inst m
    · simp only [Value.replaceUsesOfWith, hom, if_true] at hoeq
      exact hV J0 hJ0 hoeq
    · simp only [Value.replaceUsesOfWith, hom, if_false] at hoeq
      exact h1 J0 hJ0 hmul (hoeq ▸ ho)

/-- The scan of a function whose multiplies all come before their uses: what is
behind the cursor is not eligible and uses no multiply that is still ahead. -/
theorem ordered_step (Folder : Constant → Constant → Option Constant) (s : Flat)
    (hids : s.IdsOk)
    (h : (∀ p ∈ s.visited, eligible p.2 = false) ∧
      (∀ p ∈ s.visited, ∀ p2 ∈ s.pending, isMul p2.2 = true →
        Value.Inst p2.2.id ∉ p.2.operands) ∧
      UsesOnlyEarlier (s.pending.map Prod.snd)) :
    (∀ p ∈ (Flat.visit Folder s).visited, eligible p.2 = false) ∧
      (∀ p ∈ (Flat.visit Folder s).visited, ∀ p2 ∈ (Flat.visit Folder s).pending,
        isMul p2.2 = true → Value.Inst p2.2.id ∉ p.2.operands) ∧
      UsesOnlyEarlier ((Flat.visit Folder s).pending.map Prod.snd) := by
  cases hp : s.pending with
  | nil => rw [flatVisit_nil Folder s hp]; exact h
  | cons q0 rest =>
    obtain ⟨k, J⟩ := q0
    obtain ⟨h1, h2, h3⟩ := h
    rw [hp] at h3
    simp only [List.map_cons] at h3
    obtain ⟨h3a, h3b⟩ := h3
    cases hm : matchMul J with
    | none =>
      rw [flatVisit_skip Folder s k J rest hp hm]
      refine ⟨?_, ?_, h3b⟩
      · intro p hp2
        simp only [List.mem_append, List.mem_singleton] at hp2
        rcases hp2 with hp2 | rfl
        · exact h1 p hp2
        · exact matchMul_eq_none.1 hm
      · intro p hp2 p2 hp3 hmul
        simp only at hp3
        simp only [List.mem_append, List.mem_singleton] at hp2
        rcases hp2 with hp2 | rfl
        · exact h2 p hp2 p2 (by simp [hp, hp3]) hmul
        · exact h3a p2.2 (List.mem_cons_of_mem _ (List.mem_map_of_mem _ hp3)) hmul
    | some x =>
      obtain ⟨id, T, P, O⟩ := x
      have hJid : J.id = id := matchMul_id hm
      obtain ⟨hO, hJmul⟩ := matchMul_operand hm
      have hself : Value.Inst id ∉ J.operands := by
        rw [← hJid]
        exact h3a J (by simp) hJmul
      have hOne : O ≠ .Inst id := fun e => hself (e ▸ hO)
      have hvis : ∀ p ∈ s.visited,
          p.2.replaceUsesOfWith id (NewInst Folder s.fresh T P O).1 = p.2 := by
        intro p hp2
        apply replaceUsesOfWith_of_not_mem
        rw [← hJid]
        exact h2 p hp2 (k, J) (by simp [hp]) hJmul
      have hshl : (Instruction.BinaryOperator s.fresh .Shl T O
            (.Const (.ConstantInt (ConstantInt.get T (ShiftAmount P))))).replaceUsesOfWith id
              (NewInst Folder s.fresh T P O).1 =
          .BinaryOperator s.fresh .Shl T O
            (.Const (.ConstantInt (ConstantInt.get T (ShiftAmount P)))) := by
        simp [Instruction.replaceUsesOfWith, Value.replaceUsesOfWith, hOne]
      have hfresh : ∀ p ∈ rest, (NewInst Folder s.fresh T P O).1 ≠ .Inst p.2.id := by
        intro p hp2 heq
        rcases NewInst_cases Folder s.fresh T P O with ⟨C, OC, _, hN⟩ | hN
        · rw [hN] at heq; simp at heq
        · rw [hN] at heq
          simp only [Value.Inst.injEq] at heq
          have : p.2.id < s.fresh := by
            apply hids.2.1
            simp only [Flat.idList, hp]
            exact List.mem_map.2 ⟨p, by simp [hp2], rfl⟩
          omega
      rw [flatVisit_rewrite Folder s k J rest hp id T P O hm]
      have hnewvis : ∀ p ∈ (s.visited ++
            (NewInst Folder s.fresh T P O).2.toList.map (fun J => (k, J))).map
              (fun p => (p.1, p.2.replaceUsesOfWith id (NewInst Folder s.fresh T P O).1)),
          p ∈ s.visited ∨ p.2 = .BinaryOperator s.fresh .Shl T O
            (.Const (.ConstantInt (ConstantInt.get T (ShiftAmount P)))) := by
        intro p hp2
        simp only [List.map_append, List.mem_append, List.mem_map] at hp2
        rcases hp2 with ⟨p0, hp0, rfl⟩ | ⟨p0, ⟨X, hX, rfl⟩, rfl⟩
        · left
          rw [hvis p0 hp0]
          exact hp0
        · right
          rcases NewInst_cases Folder s.fresh T P O with ⟨C, OC, _, hN⟩ | hN
          · rw [hN] at hX; simp at hX
          · have hX2 : X = .BinaryOperator s.fresh .Shl T O
                (.Const (.ConstantInt (ConstantInt.get T (ShiftAmount P)))) := by
              rw [hN] at hX
              simpa using hX
            rw [hX2]
            exact hshl
      refine ⟨?_, ?_, ?_⟩
      · intro p hp2
        rcases hnewvis p hp2 with hp3 | hp3
        · exact h1 p hp3
        · rw [hp3]; rfl
      · intro p hp2 p2 hp3 hmul
        obtain ⟨p0, hp0, rfl⟩ := List.mem_map.1 hp3
        simp only [isMul_replaceUsesOfWith] at hmul
        simp only [id_replaceUsesOfWith]
        rcases hnewvis p hp2 with hp4 | hp4
        · exact h2 p hp4 p0 (by simp [hp, hp0]) hmul
        · rw [hp4]
          simp only [Instruction.operands, List.mem_cons, List.mem_singleton,
            List.not_mem_nil, or_false, not_or]
          refine ⟨?_, by simp⟩
          intro heq
          exact h3a p0.2 (List.mem_cons_of_mem _ (List.mem_map_of_mem _ hp0)) hmul (heq ▸ hO)
      · have e : (rest.map (fun p => (p.1, p.2.replaceUsesOfWith id
            (NewInst Folder s.fresh T P O).1))).map Prod.snd =
            (rest.map Prod.snd).map
              (Instruction.replaceUsesOfWith id (NewInst Folder s.fresh T P O).1) := by
          simp [List.map_map, Function.comp_def]
        simp only [e]
        apply UsesOnlyEarlier_map_replace _ _ _ h3b
        intro X hX
        obtain ⟨p0, hp0, rfl⟩ := List.mem_map.1 hX
        exact hfresh p0 hp0

/-- C4 (amended): for every function in which no eligible multiply has two constant
operands (so that no replacement shift is folded to a constant), or in which every
multiply is scanned before the instructions that use its result (as in any single
block), the function produced by the pass contains no eligible multiply, and a second
run returns it unchanged and reports that nothing changed. -/
theorem C4_idempotence (Folder : Constant → Constant → Option Constant) (F : Function)
    (h : (∀ B ∈ F.Blocks, ∀ I ∈ B, eligible I = true → bothConstant I = false) ∨
      (F.WellFormed ∧ UsesOnlyEarlier F.instructions)) :
    (∀ I ∈ (run Folder F).1.instructions, eligible I = false) ∧
    run Folder (run Folder F).1 = ((run Folder F).1, PreservedAnalyses.all) := by
  have h2 : ∀ I ∈ (run Folder F).1.instructions, eligible I = false := by
    intro I hI
    obtain ⟨k, hk⟩ := mem_instructions_iff.1 hI
    rcases h with h | ⟨hwf, hord⟩
    · have h1 := runState_flat Folder F
        (fun s => (∀ p ∈ s.visited, eligible p.2 = false) ∧
          (∀ p ∈ s.pending, eligible p.2 = true → bothConstant p.2 = false))
        (noFold_step Folder)
        ⟨fun p hp => by simp at hp, fun p hp he => by
          obtain ⟨B, hB, hI⟩ := mem_tagFrom_zero hp
          exact h B hB p.2 hI he⟩
      exact h1.1 (k, I) hk
    · have h1 := runState_flat Folder F
        (fun s => s.IdsOk ∧ (∀ p ∈ s.visited, eligible p.2 = false) ∧
          (∀ p ∈ s.visited, ∀ p2 ∈ s.pending, isMul p2.2 = true →
            Value.Inst p2.2.id ∉ p.2.operands) ∧
          UsesOnlyEarlier (s.pending.map Prod.snd))
        (fun s hs => ⟨IdsOk_step Folder s hs.1, ordered_step Folder s hs.1 hs.2⟩)
        ⟨IdsOk_entry F hwf, fun p hp => by simp at hp, fun p hp => by simp at hp, by
          simp only [tagFrom_map_snd]
          exact hord⟩
      exact h1.2.1 (k, I) hk
  refine ⟨h2, run_of_no_eligible Folder _ ?_⟩
  intro B hB I hI
  apply h2
  simp only [Function.instructions, List.mem_flatten]
  exact ⟨B, hB, hI⟩

/-- C4 on `x = 4 * 8; y = x + 1; ret y`, where the multiply of two constants comes
before its use: the second run changes nothing. -/
theorem C4_idempotence_witness :
    ((∀ B ∈ constChain.Blocks, ∀ I ∈ B, eligible I = true → bothConstant I = false) ∨
      (constChain.WellFormed ∧ UsesOnlyEarlier constChain.instructions)) ∧
    ((∀ I ∈ (run NoFold constChain).1.instructions, eligible I = false) ∧
    run NoFold (run NoFold constChain).1 = ((run NoFold constChain).1, PreservedAnalyses.all)) :=
  ⟨Or.inr ⟨by decide, by decide⟩,
    C4_idempotence NoFold constChain (Or.inr ⟨by decide, by decide⟩)⟩

/-- C4 as stated fails on `foldLater`: the first run folds `4 * 8` to 32 after the
multiply that uses it was scanned, so its result holds the eligible multiply `32 * a`,
and a second run changes it and reports a change. -/
theorem C4_idempotence_counterexample :
    (run NoFold foldLater).1.Blocks = [
      [Br 0],
      [.BinaryOperator 1 .Mul (.IntegerTy 32) (i32 32) (.Argument 0), Ret 2 (.Inst 1)],
      [Br 4]] ∧
    (∃ I ∈ (run NoFold foldLater).1.instructions, eligible I = true) ∧
    (run NoFold (run NoFold foldLater).1).2 = PreservedAnalyses.none ∧
    (run NoFold (run NoFold foldLater).1).1 ≠ (run NoFold foldLater).1 := by
  decide

/-! ## Instructions the scan leaves where they are -/

/-- An instruction that is not eligible and has no operand open to redirection stays
in its block through every loop iteration. -/
theorem stays_step (Folder : Constant → Constant → Option Constant) (k : Nat) (I : Instruction)
    (he : eligible I = false) (hst : ∀ m V, I.replaceUsesOfWith m V = I) (s : Flat)
    (h : (k, I) ∈ s.visited ++ s.pending) :
    (k, I) ∈ (Flat.visit Folder s).visited ++ (Flat.visit Folder s).pending := by
  cases hp : s.pending with
  | nil => rw [flatVisit_nil Folder s hp]; exact h
  | cons q0 rest =>
    obtain ⟨k0, J⟩ := q0
    cases hm : matchMul J with
    | none =>
      rw [flatVisit_skip Folder s k0 J rest hp hm]
      rw [hp] at h
      simpa using h
    | some x =>
      obtain ⟨id, T, P, O⟩ := x
      rw [flatVisit_rewrite Folder s k0 J rest hp id T P O hm]
      rw [hp] at h
      simp only [List.mem_append, List.mem_cons] at h
      simp only [List.map_append, List.mem_append]
      rcases h with h | h | h
      · left; left
        exact List.mem_map.2 ⟨(k, I), h, by simp [hst]⟩
      · simp only [Prod.mk.injEq] at h
        rw [← h.2, matchMul_eq_none.2 he] at hm
        simp at hm
      · right
        exact List.mem_map.2 ⟨(k, I), h, by simp [hst]⟩

theorem stays (Folder : Constant → Constant → Option Constant) (F : Function) (k : Nat)
    (B : BasicBlock) (I : Instruction) (he : eligible I = false)
    (hst : ∀ m V, I.replaceUsesOfWith m V = I) (hB : F.Blocks[k]? = some B) (hI : I ∈ B) :
    ∃ B2, (run Folder F).1.Blocks[k]? = some B2 ∧ I ∈ B2 := by
  have h := runState_flat Folder F (fun s => (k, I) ∈ s.visited ++ s.pending)
    (stays_step Folder k I he hst)
    (by simp only [List.nil_append]; exact mem_tagFrom_zero_iff.2 ⟨B, hB, hI⟩)
  simp only [List.append_nil] at h
  exact mem_tagFrom_zero_iff.1 h

theorem replaceUsesOfWith_of_not_inst (m : Nat) (V X : Value) (h : ∀ i, X ≠ .Inst i) :
    Value.replaceUsesOfWith m V X = X := by
  simp [Value.replaceUsesOfWith, h m]

theorem isPowerOfTwo_zero (N : Nat) : isPowerOfTwo ⟨N, 0⟩ = false := by
  simp [isPowerOfTwo, APInt.getBoolValue]

/-- A multiply by a constant that fails the source test, whose other operand is no
constant power of two either, does not match. -/
theorem matchMul_of_not_power (id : Nat) (T : Ty) (c : APInt) (V : Value)
    (hc : isPowerOfTwo c = false) (hV : isPowerOfTwoConstant V = false) :
    matchMul (.BinaryOperator id .Mul T (.Const (.ConstantInt c)) V) = Option.none ∧
    matchMul (.BinaryOperator id .Mul T V (.Const (.ConstantInt c))) = Option.none := by
  have hC : isPowerOfTwoConstant (.Const (.ConstantInt c)) = false := by
    simp [isPowerOfTwoConstant, dyn_cast_ConstantInt, hc]
  constructor <;>
  · apply matchMul_eq_none.2
    simp only [eligible, hC, hV, Bool.or_self, Bool.and_false]

/-- C6 (amended): zero never passes the power-of-two test and is never the selected
operand. An integer multiply with the constant 0 as one operand is left alone by the
loop body whenever its other operand is not a constant power of two at that moment;
when that other operand is a function argument or a constant that is no power of two,
the multiply stays in its block through the whole run and is not an eligible multiply
(so it contributes nothing to the changed flag). -/
theorem C6_zero_excluded (Folder : Constant → Constant → Option Constant) :
    (∀ N, isPowerOfTwo ⟨N, 0⟩ = false) ∧
    (∀ (LHS RHS : Value) (c : APInt) (O : Value) (b : Bool),
      selectPowerOfTwo LHS RHS = some (c, O, b) → c.VAL ≠ 0) ∧
    (∀ (Name : String) (S : PassState) (id : Nat) (T : Ty) (N : Nat) (V : Value)
      (Rest : List Instruction) (I : Instruction),
      (I = .BinaryOperator id .Mul T (.Const (.ConstantInt ⟨N, 0⟩)) V ∨
        I = .BinaryOperator id .Mul T V (.Const (.ConstantInt ⟨N, 0⟩))) →
      isPowerOfTwoConstant V = false → S.Tail = I :: Rest →
      visit Folder Name S = { S with Head := S.Head ++ [I], Tail := Rest }) ∧
    (∀ (F : Function) (k : Nat) (B : BasicBlock) (id : Nat) (T : Ty) (N : Nat) (V : Value)
      (I : Instruction),
      (I = .BinaryOperator id .Mul T (.Const (.ConstantInt ⟨N, 0⟩)) V ∨
        I = .BinaryOperator id .Mul T V (.Const (.ConstantInt ⟨N, 0⟩))) →
      isPowerOfTwoConstant V = false → (∀ i, V ≠ .Inst i) →
      F.Blocks[k]? = some B → I ∈ B →
      eligible I = false ∧ ∃ B2, (run Folder F).1.Blocks[k]? = some B2 ∧ I ∈ B2) := by
  refine ⟨isPowerOfTwo_zero, ?_, ?_, ?_⟩
  · intro LHS RHS c O b hsel hz
    obtain ⟨hp, _⟩ := selectPowerOfTwo_some hsel
    obtain ⟨N, v⟩ := c
    simp only at hz
    subst hz
    rw [isPowerOfTwo_zero] at hp
    exact Bool.false_ne_true hp
  · intro Name S id T N V Rest I hI hV hT
    have hm : matchMul I = Option.none := by
      rcases hI with rfl | rfl
      · exact (matchMul_of_not_power id T ⟨N, 0⟩ V (isPowerOfTwo_zero N) hV).1
      · exact (matchMul_of_not_power id T ⟨N, 0⟩ V (isPowerOfTwo_zero N) hV).2
    exact visit_skip Folder Name S I Rest hT hm
  · intro F k B id T N V I hI hV hni hB hIB
    have hm : matchMul I = Option.none := by
      rcases hI with rfl | rfl
      · exact (matchMul_of_not_power id T ⟨N, 0⟩ V (isPowerOfTwo_zero N) hV).1
      · exact (matchMul_of_not_power id T ⟨N, 0⟩ V (isPowerOfTwo_zero N) hV).2
    have he := matchMul_eq_none.1 hm
    refine ⟨he, stays Folder F k B I he ?_ hB hIB⟩
    intro m W
    rcases hI with rfl | rfl <;>
      simp [Instruction.replaceUsesOfWith, replaceUsesOfWith_const,
        replaceUsesOfWith_of_not_inst m W V hni]

/-- C6 on `x = 0 * a; ret x`: the multiply stays and the function is returned as it was. -/
theorem C6_zero_excluded_witness :
    (eligible (.BinaryOperator 0 .Mul (.IntegerTy 32) (i32 0) (.Argument 0)) = false ∧
      ∃ B2, (run NoFold zeroTimesArg).1.Blocks[0]? = some B2 ∧
        .BinaryOperator 0 .Mul (.IntegerTy 32) (i32 0) (.Argument 0) ∈ B2) ∧
    run NoFold zeroTimesArg = (zeroTimesArg, PreservedAnalyses.all) :=
  ⟨(C6_zero_excluded NoFold).2.2.2 zeroTimesArg 0
      [.BinaryOperator 0 .Mul (.IntegerTy 32) (i32 0) (.Argument 0), Ret 1 (.Inst 0)]
      0 (.IntegerTy 32) 32 (.Argument 0) _ (Or.inl rfl) (by decide) (by intro i; simp)
      (by decide) (by simp),
    by decide⟩

/-- C6 as stated fails on `x = 0 * 4; ret x`: the multiply has the constant 0 as an
operand and is rewritten, through its other operand 4, to `0 << 2`, folded to 0. -/
theorem C6_zero_excluded_counterexample :
    (run NoFold zeroTimesFour).1.Blocks = [[Ret 1 (i32 0)]] ∧
    (run NoFold zeroTimesFour).2 = PreservedAnalyses.none ∧
    (runState NoFold zeroTimesFour).Replaced = [(0, i32 0)] := by
  decide

theorem two_pow_ne_small (k c : Nat) (hc : c = 3 ∨ c = 5 ∨ c = 6) : 2 ^ k ≠ c := by
  match k with
  | 0 => simp; omega
  | 1 => simp; omega
  | k + 2 =>
    have : 2 ^ (k + 2) = 4 * 2 ^ k := by ring
    omega

theorem two_pow_ne_all_ones (N k : Nat) (hN : 2 ≤ N) (hk : k < N) : 2 ^ k ≠ 2 ^ N - 1 := by
  obtain ⟨M, rfl⟩ : ∃ M, N = M + 1 := ⟨N - 1, by omega⟩
  have h1 : 2 ^ k ≤ 2 ^ M := Nat.pow_le_pow_right (by norm_num) (by omega)
  have h2 : 2 ^ (M + 1) = 2 * 2 ^ M := by ring
  have h3 : 2 ^ 1 ≤ 2 ^ M := Nat.pow_le_pow_right (by norm_num) (by omega)
  omega

/-- The constants of the claim fail the source test. -/
theorem isPowerOfTwo_non_power (N c : Nat)
    (hc : (2 ≤ N ∧ c = 2 ^ N - 1) ∨ ((c = 3 ∨ c = 5 ∨ c = 6) ∧ c < 2 ^ N)) :
    isPowerOfTwo ⟨N, c⟩ = false := by
  have hwf : (⟨N, c⟩ : APInt).WellFormed := by
    simp only [APInt.WellFormed]
    rcases hc with ⟨_, rfl⟩ | ⟨_, h⟩
    · have : 0 < 2 ^ N := Nat.pos_pow_of_pos _ (by norm_num)
      omega
    · exact h
  cases h : isPowerOfTwo ⟨N, c⟩ with
  | false => rfl
  | true =>
    exfalso
    obtain ⟨k, hk, hv⟩ := (isPowerOfTwo_iff_pow _ hwf).1 h
    simp only at hk hv
    rcases hc with ⟨hN, rfl⟩ | ⟨hc, _⟩
    · exact two_pow_ne_all_ones N k hN hk hv.symm
    · exact two_pow_ne_small k c hc hv.symm

/-- C7 (amended): for every bit width N >= 2 the constant -1 (all N bits set), and for
every N that can represent them the constants 3, 5 and 6, fail the power-of-two test.
A multiply by such a constant is left alone by the loop body whenever its other operand
is not a constant power of two at that moment; when the other operand is a function
argument (or a constant that is no power of two) the multiply stays unchanged in its
block through the whole run. -/
theorem C7_non_power_constants (Folder : Constant → Constant → Option Constant) (N c : Nat)
    (hc : (2 ≤ N ∧ c = 2 ^ N - 1) ∨ ((c = 3 ∨ c = 5 ∨ c = 6) ∧ c < 2 ^ N)) :
    isPowerOfTwo ⟨N, c⟩ = false ∧
    (∀ (Name : String) (S : PassState) (id : Nat) (T : Ty) (V : Value)
      (Rest : List Instruction) (I : Instruction),
      (I = .BinaryOperator id .Mul T (.Const (.ConstantInt ⟨N, c⟩)) V ∨
        I = .BinaryOperator id .Mul T V (.Const (.ConstantInt ⟨N, c⟩))) →
      isPowerOfTwoConstant V = false → S.Tail = I :: Rest →
      visit Folder Name S = { S with Head := S.Head ++ [I], Tail := Rest }) ∧
    (∀ (F : Function) (k : Nat) (B : BasicBlock) (id : Nat) (T : Ty) (V : Value)
      (I : Instruction),
      (I = .BinaryOperator id .Mul T (.Const (.ConstantInt ⟨N, c⟩)) V ∨
        I = .BinaryOperator id .Mul T V (.Const (.ConstantInt ⟨N, c⟩))) →
      isPowerOfTwoConstant V = false → (∀ i, V ≠ .Inst i) →
      F.Blocks[k]? = some B → I ∈ B →
      eligible I = false ∧ ∃ B2, (run Folder F).1.Blocks[k]? = some B2 ∧ I ∈ B2) := by
  have hp := isPowerOfTwo_non_power N c hc
  refine ⟨hp, ?_, ?_⟩
  · intro Name S id T V Rest I hI hV hT
    have hm : matchMul I = Option.none := by
      rcases hI with rfl | rfl
      · exact (matchMul_of_not_power id T ⟨N, c⟩ V hp hV).1
      · exact (matchMul_of_not_power id T ⟨N, c⟩ V hp hV).2
    exact visit_skip Folder Name S I Rest hT hm
  · intro F k B id T V I hI hV hni hB hIB
    have hm : matchMul I = Option.none := by
      rcases hI with rfl | rfl
      · exact (matchMul_of_not_power id T ⟨N, c⟩ V hp hV).1
      · exact (matchMul_of_not_power id T ⟨N, c⟩ V hp hV).2
    have he := matchMul_eq_none.1 hm
    refine ⟨he, stays Folder F k B I he ?_ hB hIB⟩
    intro m W
    rcases hI with rfl | rfl <;>
      simp [Instruction.replaceUsesOfWith, replaceUsesOfWith_const,
        replaceUsesOfWith_of_not_inst m W V hni]

/-- C7 at the 32-bit constant -1, with `x = a * -1; ret x` returned as it was. -/
theorem C7_non_power_constants_witness :
    ((2 ≤ 32 ∧ 4294967295 = 2 ^ 32 - 1) ∨
      (((4294967295 : Nat) = 3 ∨ (4294967295 : Nat) = 5 ∨ (4294967295 : Nat) = 6) ∧
        4294967295 < 2 ^ 32)) ∧
    (isPowerOfTwo ⟨32, 4294967295⟩ = false ∧
    (∀ (Name : String) (S : PassState) (id : Nat) (T : Ty) (V : Value)
      (Rest : List Instruction) (I : Instruction),
      (I = .BinaryOperator id .Mul T (.Const (.ConstantInt ⟨32, 4294967295⟩)) V ∨
        I = .BinaryOperator id .Mul T V (.Const (.ConstantInt ⟨32, 4294967295⟩))) →
      isPowerOfTwoConstant V = false → S.Tail = I :: Rest →
      visit NoFold Name S = { S with Head := S.Head ++ [I], Tail := Rest }) ∧
    (∀ (F : Function) (k : Nat) (B : BasicBlock) (id : Nat) (T : Ty) (V : Value)
      (I : Instruction),
      (I = .BinaryOperator id .Mul T (.Const (.ConstantInt ⟨32, 4294967295⟩)) V ∨
        I = .BinaryOperator id .Mul T V (.Const (.ConstantInt ⟨32, 4294967295⟩))) →
      isPowerOfTwoConstant V = false → (∀ i, V ≠ .Inst i) →
      F.Blocks[k]? = some B → I ∈ B →
      eligible I = false ∧ ∃ B2, (run NoFold F).1.Blocks[k]? = some B2 ∧ I ∈ B2)) ∧
    run NoFold timesMinusOne = (timesMinusOne, PreservedAnalyses.all) :=
  ⟨Or.inl ⟨by decide, by decide⟩,
    C7_non_power_constants NoFold 32 4294967295 (Or.inl ⟨by decide, by decide⟩), by decide⟩

/-- C7 as stated fails twice. At width 1 the constant -1 is the value 1 = 2^0, and
`x = a * -1` is rewritten to `a << 0`. And a multiply by 3 of a value that is not a
constant on entry is rewritten when that value is a multiply folded to a power of two:
in `x = 1 * 4; y = x * 3` the second multiply becomes `4 * 3` and is replaced by
`3 << 2`, folded to 12. -/
theorem C7_non_power_constants_counterexample :
    ((run NoFold timesMinusOneBit).1.Blocks = [[
        .BinaryOperator 2 .Shl (.IntegerTy 1) (.Argument 0) (.Const (.ConstantInt ⟨1, 0⟩)),
        Ret 1 (.Inst 2)]] ∧
      (run NoFold timesMinusOneBit).2 = PreservedAnalyses.none) ∧
    ((run NoFold foldThenThree).1.Blocks = [[Ret 2 (i32 12)]] ∧
      (runState NoFold foldThenThree).Replaced = [(0, i32 4), (1, i32 12)]) := by
  decide

/-- C8: for every integer multiply whose two operands are both constant powers of two
the pass selects the left operand as the power-of-two operand and the right operand as
the shifted value: the shift amount is the base-2 logarithm of the left operand, and
the replacement is the right operand shifted left by it (a shift of two constants,
which the builder hands back as the constant it evaluates to). With the two operands
exchanged the choice is exchanged too: the position decides, not the value. -/
theorem C8_tie_break (Folder : Constant → Constant → Option Constant) (a b : APInt)
    (ha : isPowerOfTwo a = true) (hb : isPowerOfTwo b = true) :
    selectPowerOfTwo (.Const (.ConstantInt a)) (.Const (.ConstantInt b)) =
      some (a, .Const (.ConstantInt b), true) ∧
    selectPowerOfTwo (.Const (.ConstantInt b)) (.Const (.ConstantInt a)) =
      some (b, .Const (.ConstantInt a), true) ∧
    (∀ (id : Nat) (T : Ty), T.isIntegerTy = true →
      matchMul (.BinaryOperator id .Mul T (.Const (.ConstantInt a)) (.Const (.ConstantInt b))) =
        some (id, T, a, .Const (.ConstantInt b))) ∧
    (∀ (N fresh : Nat), IsBitWidth N → a.BitWidth = N → b.BitWidth = N → a.WellFormed →
      2 ^ ShiftAmount a = a.VAL ∧
      NewInst Folder fresh (.IntegerTy N) a (.Const (.ConstantInt b)) =
        (.Const (.ConstantInt (b.shl (ShiftAmount a))), Option.none)) := by
  have hsel : selectPowerOfTwo (.Const (.ConstantInt a)) (.Const (.ConstantInt b)) =
      some (a, .Const (.ConstantInt b), true) := by
    simp [selectPowerOfTwo, dyn_cast_ConstantInt, ha]
  refine ⟨hsel, ?_, ?_, ?_⟩
  · simp [selectPowerOfTwo, dyn_cast_ConstantInt, hb]
  · intro id T hT
    simp [matchMul, hT, hsel]
  · intro N fresh hN hwa hwb hwf
    obtain ⟨k, hk, hv, _, _, hs⟩ := ShiftAmount_of_isPowerOfTwo a hwf (hwa ▸ hN.2) ha
    have hkN : k < N := hwa ▸ hk
    have hmod : k % 2 ^ N = k := Nat.mod_eq_of_lt (lt_trans hkN (Nat.lt_two_pow N))
    refine ⟨by rw [hs, hv], ?_⟩
    simp [NewInst, CreateShl, FoldShl, ConstantInt.get, hs, hmod, hwb, hkN]

/-- C8 on `4 * 8` over 32 bits: the shift amount is 2 = log2 4, the replacement is
8 << 2, the constant 32, and a second evaluation of the run gives the same. -/
theorem C8_tie_break_witness :
    (isPowerOfTwo ⟨32, 4⟩ = true ∧ isPowerOfTwo ⟨32, 8⟩ = true) ∧
    (selectPowerOfTwo (.Const (.ConstantInt ⟨32, 4⟩)) (.Const (.ConstantInt ⟨32, 8⟩)) =
      some (⟨32, 4⟩, .Const (.ConstantInt ⟨32, 8⟩), true) ∧
    selectPowerOfTwo (.Const (.ConstantInt ⟨32, 8⟩)) (.Const (.ConstantInt ⟨32, 4⟩)) =
      some (⟨32, 8⟩, .Const (.ConstantInt ⟨32, 4⟩), true) ∧
    (∀ (id : Nat) (T : Ty), T.isIntegerTy = true →
      matchMul (.BinaryOperator id .Mul T (.Const (.ConstantInt ⟨32, 4⟩))
          (.Const (.ConstantInt ⟨32, 8⟩))) =
        some (id, T, ⟨32, 4⟩, .Const (.ConstantInt ⟨32, 8⟩))) ∧
    (∀ (N fresh : Nat), IsBitWidth N → (⟨32, 4⟩ : APInt).BitWidth = N →
      (⟨32, 8⟩ : APInt).BitWidth = N → (⟨32, 4⟩ : APInt).WellFormed →
      2 ^ ShiftAmount ⟨32, 4⟩ = (⟨32, 4⟩ : APInt).VAL ∧
      NewInst NoFold fresh (.IntegerTy N) ⟨32, 4⟩ (.Const (.ConstantInt ⟨32, 8⟩)) =
        (.Const (.ConstantInt ((⟨32, 8⟩ : APInt).shl (ShiftAmount ⟨32, 4⟩))), Option.none))) ∧
    (ShiftAmount ⟨32, 4⟩ = 2 ∧ (⟨32, 8⟩ : APInt).shl 2 = ⟨32, 32⟩ ∧
      (run NoFold fourTimesEight).1.Blocks = [[Ret 1 (i32 32)]] ∧
      (runState NoFold fourTimesEight).Replaced = [(0, i32 32)]) :=
  ⟨⟨by decide, by decide⟩, C8_tie_break NoFold ⟨32, 4⟩ ⟨32, 8⟩ (by decide) (by decide),
    by decide⟩

/-! ## The sign of the selected constant -/

/-- The signed reading of a single set bit: negative exactly for the sign bit. -/
theorem getSExtValue_two_pow (w k : Nat) (hk : k < w) :
    APInt.getSExtValue ⟨w, 2 ^ k⟩ =
      if k = w - 1 then -((2 ^ k : Nat) : Int) else ((2 ^ k : Nat) : Int) := by
  have hw2 : 2 ^ w = 2 * 2 ^ (w - 1) := by
    obtain ⟨M, rfl⟩ : ∃ M, w = M + 1 := ⟨w - 1, by omega⟩
    simp [pow_succ, Nat.mul_comm]
  have e : ((2 : Int) ^ w) = ((2 ^ w : Nat) : Int) := by push_cast; rfl
  simp only [APInt.getSExtValue, e]
  by_cases h : k = w - 1
  · subst h
    simp only [lt_self_iff_false, if_false, if_true]
    rw [hw2]
    push_cast
    omega
  · have hlt : 2 ^ k < 2 ^ (w - 1) := Nat.pow_lt_pow_right (by norm_num) (by omega)
    simp [hlt, h]

/-- C11 (amended): for every bit width N and every constant the pass selects as the
power-of-two operand, the constant satisfies v & (v - 1) == 0 and is nonzero, that is
strictly positive when read as an unsigned N-bit integer; read as a signed
two's-complement integer it is strictly positive exactly when it is not the sign bit
2^(N-1), and the sign bit itself (negative as a signed integer) is selected too. -/
theorem C11_selected_sign (N : Nat) (hN : IsBitWidth N) (LHS RHS : Value) (c : APInt)
    (O : Value) (b : Bool) (hsel : selectPowerOfTwo LHS RHS = some (c, O, b))
    (hw : c.BitWidth = N) (hwf : c.WellFormed) :
    isPowerOfTwo c = true ∧ 0 < c.VAL ∧ c.VAL &&& ((c.VAL + 2 ^ N - 1) % 2 ^ N) = 0 ∧
    (0 < c.getSExtValue ↔ c.VAL ≠ 2 ^ (N - 1)) ∧
    (c.VAL = 2 ^ (N - 1) → c.getSExtValue < 0) ∧
    isPowerOfTwo ⟨N, 2 ^ (N - 1)⟩ = true := by
  obtain ⟨hp, _⟩ := selectPowerOfTwo_some hsel
  obtain ⟨k, hk, hv⟩ := (isPowerOfTwo_iff_pow c hwf).1 hp
  obtain ⟨w, v⟩ := c
  simp only at hw hk hv
  subst hw
  subst hv
  have hN1 : 1 ≤ w := hN.1
  have hpos : 0 < 2 ^ k := Nat.pos_pow_of_pos _ (by norm_num)
  have h1 : 1 % 2 ^ w = 1 := Nat.mod_eq_of_lt (Nat.one_lt_two_pow (by omega))
  have hand : 2 ^ k &&& ((2 ^ k + 2 ^ w - 1) % 2 ^ w) = 0 := by
    have := hp
    simp only [isPowerOfTwo, APInt.getBoolValue, APInt.isZero, APInt.and, APInt.sub, h1,
      Bool.and_eq_true, beq_iff_eq] at this
    exact this.2
  have hsign : isPowerOfTwo ⟨w, 2 ^ (w - 1)⟩ = true := by
    apply (isPowerOfTwo_iff_pow _ _).2
    · exact ⟨w - 1, by simp only; omega, rfl⟩
    · simp only [APInt.WellFormed]
      exact Nat.pow_lt_pow_right (by norm_num) (by omega)
  have hs := getSExtValue_two_pow w k hk
  have hposI : (0 : Int) < ((2 ^ k : Nat) : Int) := by exact_mod_cast hpos
  refine ⟨hp, hpos, hand, ?_, ?_, hsign⟩
  · rw [hs]
    by_cases h : k = w - 1
    · simp only [h, if_true, ne_eq, not_true_eq_false, iff_false, not_lt]
      rw [h] at hposI
      omega
    · simp only [h, if_false, ne_eq]
      refine ⟨fun _ heq => h ?_, fun _ => hposI⟩
      exact Nat.pow_right_injective (le_refl 2) heq
  · intro h
    have hk2 : k = w - 1 := Nat.pow_right_injective (le_refl 2) h
    rw [hs]
    simp only [hk2, if_true]
    rw [hk2] at hposI
    omega

/-- C11 at the 8-bit multiply `a * 64`. -/
theorem C11_selected_sign_witness :
    (IsBitWidth 8 ∧
      selectPowerOfTwo (.Argument 0) (.Const (.ConstantInt ⟨8, 64⟩)) =
        some (⟨8, 64⟩, .Argument 0, false) ∧
      (⟨8, 64⟩ : APInt).BitWidth = 8 ∧ (⟨8, 64⟩ : APInt).WellFormed) ∧
    (isPowerOfTwo ⟨8, 64⟩ = true ∧ 0 < (⟨8, 64⟩ : APInt).VAL ∧
    (⟨8, 64⟩ : APInt).VAL &&& (((⟨8, 64⟩ : APInt).VAL + 2 ^ 8 - 1) % 2 ^ 8) = 0 ∧
    (0 < (⟨8, 64⟩ : APInt).getSExtValue ↔ (⟨8, 64⟩ : APInt).VAL ≠ 2 ^ (8 - 1)) ∧
    ((⟨8, 64⟩ : APInt).VAL = 2 ^ (8 - 1) → (⟨8, 64⟩ : APInt).getSExtValue < 0) ∧
    isPowerOfTwo ⟨8, 2 ^ (8 - 1)⟩ = true) :=
  ⟨⟨by decide, by decide, by decide, by decide⟩,
    C11_selected_sign 8 (by decide) (.Argument 0) (.Const (.ConstantInt ⟨8, 64⟩)) ⟨8, 64⟩
      (.Argument 0) false (by decide) (by decide) (by decide)⟩

/-- C11 as stated fails on `x = a * -128` over 8 bits: the constant 128 is selected and
the multiply is rewritten to `a << 7`, yet read as a signed 8-bit integer it is -128. -/
theorem C11_selected_sign_counterexample :
    selectPowerOfTwo (.Argument 0) (.Const (.ConstantInt ⟨8, 128⟩)) =
      some (⟨8, 128⟩, .Argument 0, false) ∧
    (⟨8, 128⟩ : APInt).getSExtValue = -128 ∧
    ¬ (0 < (⟨8, 128⟩ : APInt).getSExtValue) ∧
    (run NoFold timesSignBit).1.Blocks = [[
      .BinaryOperator 2 .Shl (.IntegerTy 8) (.Argument 0) (.Const (.ConstantInt ⟨8, 7⟩)),
      Ret 1 (.Inst 2)]] ∧
    (run NoFold timesSignBit).2 = PreservedAnalyses.none := by
  decide

end ShiftMul

/-! ## The renamer's choice of prefix -/

namespace VarRenamer

theorem mapFind_mapAssign (m : List (Nat × String)) (key : Nat) (value : String) :
    mapFind (mapAssign m key value) key = some value := by
  simp [mapFind, mapAssign]

theorem mapFind_mapAssign_of_ne (m : List (Nat × String)) (key k : Nat) (value : String)
    (h : k ≠ key) : mapFind (mapAssign m key value) k = mapFind m k := by
  have hk : (key == k) = false := by simpa using fun e => h e.symm
  simp only [mapFind, mapAssign, List.find?_cons, hk]
  congr 1
  induction m with
  | nil => rfl
  | cons e m ih =>
    by_cases he : e.1 = key
    · have h1 : (e.1 == k) = false := by simpa [he] using fun e2 => h e2.symm
      simp [List.filter_cons, he, List.find?_cons, hk, ih]
    · by_cases hek : e.1 = k
      · simp [List.filter_cons, List.find?_cons, hek, h]
      · simp [List.filter_cons, he, List.find?_cons, hek, ih]

/-- C17: for every non-implicit variable declaration whose beginning is written in the
main file, `VisitVarDecl` (on the visitor the plugin's consumer sets up, whose source
manager is set) records the new name prefix + original name and replaces the name by
it, where the prefix is "param_" for a function parameter, otherwise "static_" for
static storage, otherwise "global_" at translation-unit scope, otherwise "local_";
exactly one of the four prefixes is the chosen one, a static variable at
translation-unit scope gets "static_", and the original name is a suffix of the new
name. -/
theorem C17_renamer_naming (V : VarRenamerVisitor) (SM : Nat → Bool) (VD : VarDecl)
    (hSM : V.SM_ = some SM) (hmain : SM VD.BeginLoc = true) (himp : VD.isImplicit = false) :
    (VisitVarDecl V (some VD)).2 = true ∧
    mapFind (VisitVarDecl V (some VD)).1.renamedVars_ VD.id = some (prefixFor VD ++ VD.Name) ∧
    (∀ k, k ≠ VD.id →
      mapFind (VisitVarDecl V (some VD)).1.renamedVars_ k = mapFind V.renamedVars_ k) ∧
    (VisitVarDecl V (some VD)).1.rewriter_ =
      V.rewriter_ ++ [⟨VD.Location, VD.Name.utf8ByteSize, prefixFor VD ++ VD.Name⟩] ∧
    (VD.isParmVarDecl = true → prefixFor VD = "param_") ∧
    (VD.isParmVarDecl = false → VD.StorageClass = .SC_Static → prefixFor VD = "static_") ∧
    (VD.isParmVarDecl = false → VD.StorageClass ≠ .SC_Static → VD.isTranslationUnit = true →
      prefixFor VD = "global_") ∧
    (VD.isParmVarDecl = false → VD.StorageClass ≠ .SC_Static → VD.isTranslationUnit = false →
      prefixFor VD = "local_") ∧
    (∃! p, p ∈ ["param_", "static_", "global_", "local_"] ∧ prefixFor VD = p) ∧
    VD.Name.data <:+ (prefixFor VD ++ VD.Name).data := by
  have hin : isInMainFile V VD.BeginLoc = true := by simp [isInMainFile, hSM, hmain]
  have hv : VisitVarDecl V (some VD) =
      ({ V with
          renamedVars_ := mapAssign V.renamedVars_ VD.id (prefixFor VD ++ VD.Name)
          rewriter_ := V.rewriter_ ++
            [⟨VD.Location, VD.Name.utf8ByteSize, prefixFor VD ++ VD.Name⟩] }, true) := by
    simp [VisitVarDecl, hin, himp]
  rw [hv]
  refine ⟨rfl, mapFind_mapAssign _ _ _, fun k hk => mapFind_mapAssign_of_ne _ _ _ _ hk, rfl,
    ?_, ?_, ?_, ?_, ?_, ?_⟩
  · intro h; simp [prefixFor, h]
  · intro h1 h2; simp [prefixFor, h1, h2]
  · intro h1 h2 h3; simp [prefixFor, h1, h2, h3]
  · intro h1 h2 h3; simp [prefixFor, h1, h2, h3]
  · refine ⟨prefixFor VD, ⟨?_, rfl⟩, fun p hp => hp.2.symm⟩
    unfold prefixFor
    split
    · simp
    · split
      · simp
      · split <;> simp
  · rw [String.data_append]
    exact List.suffix_append _ _

/-- C17 on `static int counter;` at translation-unit scope: the name recorded is
"static_counter". -/
theorem C17_renamer_naming_witness :
    ((VarRenamerConsumer (fun _ => true)).SM_ = some (fun _ => true) ∧
      (fun (_ : Nat) => true) staticGlobal.BeginLoc = true ∧ staticGlobal.isImplicit = false) ∧
    mapFind (VisitVarDecl (VarRenamerConsumer (fun _ => true)) (some staticGlobal)).1.renamedVars_
      staticGlobal.id = some (prefixFor staticGlobal ++ staticGlobal.Name) ∧
    prefixFor staticGlobal ++ staticGlobal.Name = "static_counter" :=
  ⟨⟨rfl, rfl, rfl⟩,
    (C17_renamer_naming (VarRenamerConsumer (fun _ => true)) (fun _ => true) staticGlobal
      rfl rfl rfl).2.1, by decide⟩

end VarRenamer

namespace ShiftMul

/-! ## The side on which the constant stands -/

theorem selectPowerOfTwo_left (c : APInt) (V : Value) (hc : isPowerOfTwo c = true) :
    selectPowerOfTwo (.Const (.ConstantInt c)) V = some (c, V, true) := by
  simp [selectPowerOfTwo, dyn_cast_ConstantInt, hc]

theorem selectPowerOfTwo_right (c : APInt) (V : Value) (hc : isPowerOfTwo c = true)
    (hV : isPowerOfTwoConstant V = false) :
    selectPowerOfTwo V (.Const (.ConstantInt c)) = some (c, V, false) := by
  unfold isPowerOfTwoConstant at hV
  unfold selectPowerOfTwo
  cases hd : dyn_cast_ConstantInt V with
  | none => simp [dyn_cast_ConstantInt, hc]
  | some d =>
    rw [hd] at hV
    simp only at hV
    simp [dyn_cast_ConstantInt, hc, hV]

theorem matchMul_left (id : Nat) (T : Ty) (c : APInt) (V : Value) (hT : T.isIntegerTy = true)
    (hc : isPowerOfTwo c = true) :
    matchMul (.BinaryOperator id .Mul T (.Const (.ConstantInt c)) V) = some (id, T, c, V) := by
  simp [matchMul, hT, selectPowerOfTwo_left c V hc]

theorem matchMul_right (id : Nat) (T : Ty) (c : APInt) (V : Value) (hT : T.isIntegerTy = true)
    (hc : isPowerOfTwo c = true) (hV : isPowerOfTwoConstant V = false) :
    matchMul (.BinaryOperator id .Mul T V (.Const (.ConstantInt c))) = some (id, T, c, V) := by
  simp [matchMul, hT, selectPowerOfTwo_right c V hc hV]

/-- The state after the loop body has replaced the multiply at the cursor, whatever
stands in the two operand places. -/
theorem visit_matched (Folder : Constant → Constant → Option Constant) (Name : String)
    (S : PassState) (I : Instruction) (Rest : List Instruction)
    (id : Nat) (T : Ty) (P : APInt) (O : Value) (hm : matchMul I = some (id, T, P, O)) :
    visit Folder Name { S with Tail := I :: Rest } =
      { Prev := S.Prev.map (List.map (Instruction.replaceUsesOfWith id (NewInst Folder S.fresh T P O).1))
        Head := (S.Head ++ (NewInst Folder S.fresh T P O).2.toList).map
          (Instruction.replaceUsesOfWith id (NewInst Folder S.fresh T P O).1)
        Tail := Rest.map (Instruction.replaceUsesOfWith id (NewInst Folder S.fresh T P O).1)
        Next := S.Next.map (List.map (Instruction.replaceUsesOfWith id (NewInst Folder S.fresh T P O).1))
        Changed := true
        fresh := S.fresh + (NewInst Folder S.fresh T P O).2.toList.length
        errs := S.errs ++ ["Replaced mul with shl in: " ++ Name ++ "\n"]
        Replaced := S.Replaced ++ [(id, (NewInst Folder S.fresh T P O).1)] } :=
  visit_rewrite Folder Name { S with Tail := I :: Rest } I Rest rfl id T P O hm

/-- The builder's answer for a selected constant `2^k` of the type's width: the new
shift by `k` of a value that is not a constant, the folded constant for a `ConstantInt`. -/
theorem NewInst_shape (Folder : Constant → Constant → Option Constant) (fresh N : Nat)
    (hN : IsBitWidth N) (c : APInt) (hc : isPowerOfTwo c = true) (hw : c.BitWidth = N)
    (hwf : c.WellFormed) :
    ∃ k, k < N ∧ 2 ^ k = c.VAL ∧ ConstantInt.get (.IntegerTy N) (ShiftAmount c) = ⟨N, k⟩ ∧
      (∀ V, V.isConstant = false →
        NewInst Folder fresh (.IntegerTy N) c V =
          (.Inst fresh, some (.BinaryOperator fresh .Shl (.IntegerTy N) V
            (.Const (.ConstantInt ⟨N, k⟩))))) ∧
      (∀ d : APInt, d.BitWidth = N →
        NewInst Folder fresh (.IntegerTy N) c (.Const (.ConstantInt d)) =
          (.Const (.ConstantInt (d.shl k)), Option.none)) := by
  obtain ⟨k, hk, hv, _, _, hs⟩ := ShiftAmount_of_isPowerOfTwo c hwf (hw ▸ hN.2) hc
  have hkN : k < N := hw ▸ hk
  have hmod : k % 2 ^ N = k := Nat.mod_eq_of_lt (lt_trans hkN (Nat.lt_two_pow N))
  have hget : ConstantInt.get (.IntegerTy N) (ShiftAmount c) = ⟨N, k⟩ := by
    simp [ConstantInt.get, hs, hmod]
  refine ⟨k, hkN, hv.symm, hget, ?_, ?_⟩
  · intro V hV
    cases V with
    | Const C => simp [Value.isConstant] at hV
    | Argument a => simp [NewInst, CreateShl, hget]
    | Inst i => simp [NewInst, CreateShl, hget]
  · intro d hd
    simp [NewInst, CreateShl, FoldShl, hget, hd, hkN]

/-- C15: for every integer multiply in which one operand is a constant power of two and
the other operand is not, the pass selects the constant and shifts the other operand,
on whichever side the constant stands: the two selections differ in `IsLeftOperand`
only, the loop body leaves the same state behind for `mul(2^k, v)` and `mul(v, 2^k)`,
and what it puts in place of the multiply is the shift of the other operand by k: a new
shift instruction `v << k` for a runtime value, the constant `d << k` for a constant d
that is not a power of two. -/
theorem C15_position_independence (Folder : Constant → Constant → Option Constant) (N : Nat)
    (hN : IsBitWidth N) (c : APInt) (hc : isPowerOfTwo c = true) (hw : c.BitWidth = N)
    (hwf : c.WellFormed) (V : Value) (hV : isPowerOfTwoConstant V = false) :
    selectPowerOfTwo (.Const (.ConstantInt c)) V = some (c, V, true) ∧
    selectPowerOfTwo V (.Const (.ConstantInt c)) = some (c, V, false) ∧
    (∀ (Name : String) (S : PassState) (id : Nat) (Rest : List Instruction),
      visit Folder Name
          { S with Tail := .BinaryOperator id .Mul (.IntegerTy N) (.Const (.ConstantInt c)) V :: Rest } =
        visit Folder Name
          { S with Tail := .BinaryOperator id .Mul (.IntegerTy N) V (.Const (.ConstantInt c)) :: Rest } ∧
      (visit Folder Name
          { S with Tail := .BinaryOperator id .Mul (.IntegerTy N) V (.Const (.ConstantInt c)) :: Rest }).Replaced =
        S.Replaced ++ [(id, (NewInst Folder S.fresh (.IntegerTy N) c V).1)] ∧
      (visit Folder Name
          { S with Tail := .BinaryOperator id .Mul (.IntegerTy N) V (.Const (.ConstantInt c)) :: Rest }).Head =
        (S.Head ++ (NewInst Folder S.fresh (.IntegerTy N) c V).2.toList).map
          (Instruction.replaceUsesOfWith id (NewInst Folder S.fresh (.IntegerTy N) c V).1)) ∧
    (∃ k, k < N ∧ 2 ^ k = c.VAL ∧
      (∀ fresh, V.isConstant = false →
        NewInst Folder fresh (.IntegerTy N) c V =
          (.Inst fresh, some (.BinaryOperator fresh .Shl (.IntegerTy N) V
            (.Const (.ConstantInt ⟨N, k⟩))))) ∧
      (∀ (fresh : Nat) (d : APInt), V = .Const (.ConstantInt d) → d.BitWidth = N →
        NewInst Folder fresh (.IntegerTy N) c V =
          (.Const (.ConstantInt (d.shl k)), Option.none))) := by
  have hT : (Ty.IntegerTy N).isIntegerTy = true := rfl
  refine ⟨selectPowerOfTwo_left c V hc, selectPowerOfTwo_right c V hc hV, ?_, ?_⟩
  · intro Name S id Rest
    have e1 := visit_matched Folder Name S _ Rest id _ c V (matchMul_left id _ c V hT hc)
    have e2 := visit_matched Folder Name S _ Rest id _ c V (matchMul_right id _ c V hT hc hV)
    refine ⟨e1.trans e2.symm, ?_, ?_⟩
    · rw [e2]
    · rw [e2]
  · obtain ⟨k, hk, hv, _, h1, h2⟩ := NewInst_shape Folder 0 N hN c hc hw hwf
    refine ⟨k, hk, hv, ?_, ?_⟩
    · intro fresh hVc
      obtain ⟨k2, _, hv2, _, h3, _⟩ := NewInst_shape Folder fresh N hN c hc hw hwf
      have : k2 = k := Nat.pow_right_injective (le_refl 2) (hv2.trans hv.symm)
      subst this
      exact h3 V hVc
    · intro fresh d hd hdw
      obtain ⟨k2, _, hv2, _, _, h4⟩ := NewInst_shape Folder fresh N hN c hc hw hwf
      have : k2 = k := Nat.pow_right_injective (le_refl 2) (hv2.trans hv.symm)
      subst this
      rw [hd]
      exact h4 d hdw

/-- C15 on the 32-bit constant 8 and a function argument, with the runs of `8 * a` and
`a * 8` (and of `3 * 4` and `4 * 3`, folded to 12) giving the same function. -/
theorem C15_position_independence_witness :
    (IsBitWidth 32 ∧ isPowerOfTwo ⟨32, 8⟩ = true ∧ (⟨32, 8⟩ : APInt).BitWidth = 32 ∧
      (⟨32, 8⟩ : APInt).WellFormed ∧ isPowerOfTwoConstant (.Argument 0) = false) ∧
    (selectPowerOfTwo (.Const (.ConstantInt ⟨32, 8⟩)) (.Argument 0) =
        some (⟨32, 8⟩, .Argument 0, true) ∧
      selectPowerOfTwo (.Argument 0) (.Const (.ConstantInt ⟨32, 8⟩)) =
        some (⟨32, 8⟩, .Argument 0, false)) ∧
    (run NoFold constantLeft = run NoFold constantRight ∧
      (run NoFold constantRight).1.Blocks = [[
        .BinaryOperator 3 .Shl (.IntegerTy 32) (.Argument 0) (i32 3), Ret 2 (.Inst 3)]] ∧
      (runState NoFold constantRight).Replaced = [(0, .Inst 3), (1, i32 12)]) :=
  ⟨⟨by decide, by decide, by decide, by decide, by decide⟩,
    ⟨(C15_position_independence NoFold 32 (by decide) ⟨32, 8⟩ (by decide) (by decide)
        (by decide) (.Argument 0) (by decide)).1,
      (C15_position_independence NoFold 32 (by decide) ⟨32, 8⟩ (by decide) (by decide)
        (by decide) (.Argument 0) (by decide)).2.1⟩,
    by decide⟩

/-! ## Multiplication by one -/

theorem isPowerOfTwo_one (N : Nat) (hN : 1 ≤ N) : isPowerOfTwo ⟨N, 1⟩ = true := by
  apply (isPowerOfTwo_iff_pow _ _).2
  · exact ⟨0, by simp only; omega, by simp⟩
  · simp only [APInt.WellFormed]
    exact Nat.one_lt_two_pow (by omega)

theorem isPowerOfTwoConstant_of_not_constant (V : Value) (h : V.isConstant = false) :
    isPowerOfTwoConstant V = false := by
  cases V with
  | Const C => simp [Value.isConstant] at h
  | Argument a => rfl
  | Inst i => rfl

/-- The loop body on a multiply by the constant 1 of a value that is not a constant:
the shift by 0 of that value is created in its place. -/
theorem times_one_shape (Folder : Constant → Constant → Option Constant) (fresh : Nat)
    (N : Nat) (hN : IsBitWidth N) (id : Nat) (V : Value)
    (hV : V.isConstant = false) (I : Instruction)
    (hI : I = .BinaryOperator id .Mul (.IntegerTy N) V (.Const (.ConstantInt ⟨N, 1⟩)) ∨
      I = .BinaryOperator id .Mul (.IntegerTy N) (.Const (.ConstantInt ⟨N, 1⟩)) V) :
    matchMul I = some (id, .IntegerTy N, ⟨N, 1⟩, V) ∧
    NewInst Folder fresh (.IntegerTy N) ⟨N, 1⟩ V =
      (.Inst fresh, some (.BinaryOperator fresh .Shl (.IntegerTy N) V
        (.Const (.ConstantInt ⟨N, 0⟩)))) := by
  have hone := isPowerOfTwo_one N hN.1
  have hwf : (⟨N, 1⟩ : APInt).WellFormed := by
    simp only [APInt.WellFormed]
    exact Nat.one_lt_two_pow (by have := hN.1; simp only [MIN_INT_BITS] at this; omega)
  constructor
  · rcases hI with rfl | rfl
    · exact matchMul_right id _ _ V rfl hone (isPowerOfTwoConstant_of_not_constant V hV)
    · exact matchMul_left id _ _ V rfl hone
  · obtain ⟨k, _, hv, _, h1, _⟩ := NewInst_shape Folder fresh N hN ⟨N, 1⟩ hone rfl hwf
    have hk : k = 0 := by
      simp only at hv
      cases k with
      | zero => rfl
      | succ k => rw [pow_succ] at hv; omega
    subst hk
    exact h1 V hV

/-- A multiply by one of a function argument ahead of the cursor, or its shift by 0
behind it. -/
theorem times_one_step (Folder : Constant → Constant → Option Constant) (N : Nat)
    (hN : IsBitWidth N) (k id a : Nat) (I : Instruction)
    (hI : I = .BinaryOperator id .Mul (.IntegerTy N) (.Argument a) (.Const (.ConstantInt ⟨N, 1⟩)) ∨
      I = .BinaryOperator id .Mul (.IntegerTy N) (.Const (.ConstantInt ⟨N, 1⟩)) (.Argument a))
    (s : Flat)
    (h : (k, I) ∈ s.pending ∨ ∃ f, (k, Instruction.BinaryOperator f .Shl (.IntegerTy N)
      (.Argument a) (.Const (.ConstantInt ⟨N, 0⟩))) ∈ s.visited) :
    (k, I) ∈ (Flat.visit Folder s).pending ∨
      ∃ f, (k, Instruction.BinaryOperator f .Shl (.IntegerTy N)
        (.Argument a) (.Const (.ConstantInt ⟨N, 0⟩))) ∈ (Flat.visit Folder s).visited := by
  have hstI : ∀ m W, I.replaceUsesOfWith m W = I := by
    intro m W
    rcases hI with rfl | rfl <;>
      simp [Instruction.replaceUsesOfWith, Value.replaceUsesOfWith]
  have hstS : ∀ f m W, (Instruction.BinaryOperator f .Shl (.IntegerTy N)
      (.Argument a) (.Const (.ConstantInt ⟨N, 0⟩))).replaceUsesOfWith m W =
      .BinaryOperator f .Shl (.IntegerTy N) (.Argument a) (.Const (.ConstantInt ⟨N, 0⟩)) := by
    intro f m W
    simp [Instruction.replaceUsesOfWith, Value.replaceUsesOfWith]
  cases hp : s.pending with
  | nil =>
    rw [flatVisit_nil Folder s hp]
    exact h
  | cons q0 rest =>
    obtain ⟨k0, J⟩ := q0
    rw [hp] at h
    cases hm : matchMul J with
    | none =>
      rw [flatVisit_skip Folder s k0 J rest hp hm]
      rcases h with h | ⟨f, hf⟩
      · rcases List.mem_cons.1 h with h | h
        · exfalso
          simp only [Prod.mk.injEq] at h
          have := (times_one_shape Folder 0 N hN id (.Argument a) rfl I hI).1
          rw [h.2, hm] at this
          simp at this
        · exact Or.inl h
      · exact Or.inr ⟨f, by simp [hf]⟩
    | some x =>
      obtain ⟨id2, T, P, O⟩ := x
      rw [flatVisit_rewrite Folder s k0 J rest hp id2 T P O hm]
      rcases h with h | ⟨f, hf⟩
      · rcases List.mem_cons.1 h with h | h
        · right
          simp only [Prod.mk.injEq] at h
          obtain ⟨rfl, rfl⟩ := h
          have hv := times_one_shape Folder s.fresh N hN id (.Argument a) rfl I hI
          rw [hm] at hv
          simp only [Option.some.injEq, Prod.mk.injEq] at hv
          obtain ⟨⟨rfl, rfl, rfl, rfl⟩, hN2⟩ := hv
          refine ⟨s.fresh, ?_⟩
          rw [hN2]
          simp only [Option.toList, List.map_cons, List.map_nil, List.map_append,
            List.mem_append, List.mem_singleton, Prod.mk.injEq, true_and]
          right
          exact (hstS _ _ _).symm
        · left
          exact List.mem_map.2 ⟨(k, I), h, by simp [hstI]⟩
      · right
        refine ⟨f, ?_⟩
        simp only [List.map_append, List.mem_append]
        left
        exact List.mem_map.2 ⟨_, hf, by simp [hstS]⟩

/-- C14 (amended): on the 32-bit body `r1 = a * 16; r2 = r1 * 1; return r2` the pass
produces `s1 = a << 4; s2 = s1 << 0; return s2` and reports a change. In general, for
every width N, when the loop body visits a multiply by the constant 1 of a value v that
is not a constant at that moment, it puts the shift instruction `v << 0` in its place
(the multiply is not kept and the shift is not simplified away); in particular a
multiply of a function argument by 1 ends as the shift of that argument by 0 in its
block. -/
theorem C14_times_one (Folder : Constant → Constant → Option Constant) (N : Nat)
    (hN : IsBitWidth N) :
    run Folder chainByOne =
      (⟨"chainByOne", [[
          .BinaryOperator 3 .Shl (.IntegerTy 32) (.Argument 0) (i32 4),
          .BinaryOperator 4 .Shl (.IntegerTy 32) (.Inst 3) (i32 0),
          Ret 2 (.Inst 4)]]⟩, PreservedAnalyses.none) ∧
    (∀ (Name : String) (S : PassState) (id : Nat) (V : Value) (Rest : List Instruction)
      (I : Instruction), V.isConstant = false →
      (I = .BinaryOperator id .Mul (.IntegerTy N) V (.Const (.ConstantInt ⟨N, 1⟩)) ∨
        I = .BinaryOperator id .Mul (.IntegerTy N) (.Const (.ConstantInt ⟨N, 1⟩)) V) →
      visit Folder Name { S with Tail := I :: Rest } =
        { Prev := S.Prev.map (List.map (Instruction.replaceUsesOfWith id (.Inst S.fresh)))
          Head := (S.Head ++ [Instruction.BinaryOperator S.fresh .Shl (.IntegerTy N) V
              (.Const (.ConstantInt ⟨N, 0⟩))]).map
            (Instruction.replaceUsesOfWith id (.Inst S.fresh))
          Tail := Rest.map (Instruction.replaceUsesOfWith id (.Inst S.fresh))
          Next := S.Next.map (List.map (Instruction.replaceUsesOfWith id (.Inst S.fresh)))
          Changed := true
          fresh := S.fresh + 1
          errs := S.errs ++ ["Replaced mul with shl in: " ++ Name ++ "\n"]
          Replaced := S.Replaced ++ [(id, .Inst S.fresh)] }) ∧
    (∀ (F : Function) (k : Nat) (B : BasicBlock) (id a : Nat) (I : Instruction),
      (I = .BinaryOperator id .Mul (.IntegerTy N) (.Argument a) (.Const (.ConstantInt ⟨N, 1⟩)) ∨
        I = .BinaryOperator id .Mul (.IntegerTy N) (.Const (.ConstantInt ⟨N, 1⟩)) (.Argument a)) →
      F.Blocks[k]? = some B → I ∈ B →
      ∃ (B2 : BasicBlock) (f : Nat), (run Folder F).1.Blocks[k]? = some B2 ∧
        .BinaryOperator f .Shl (.IntegerTy N) (.Argument a) (.Const (.ConstantInt ⟨N, 0⟩)) ∈ B2) := by
  refine ⟨rfl, ?_, ?_⟩
  · intro Name S id V Rest I hV hI
    obtain ⟨hm, hnew⟩ := times_one_shape Folder S.fresh N hN id V hV I hI
    rw [visit_matched Folder Name S I Rest id _ _ V hm, hnew]
    rfl
  · intro F k B id a I hI hB hIB
    have h := runState_flat Folder F
      (fun s => (k, I) ∈ s.pending ∨ ∃ f, (k, Instruction.BinaryOperator f .Shl (.IntegerTy N)
        (.Argument a) (.Const (.ConstantInt ⟨N, 0⟩))) ∈ s.visited)
      (times_one_step Folder N hN k id a I hI)
      (Or.inl (mem_tagFrom_zero_iff.2 ⟨B, hB, hIB⟩))
    rcases h with h | ⟨f, hf⟩
    · simp at h
    · obtain ⟨B2, hB2, hI2⟩ := mem_tagFrom_zero_iff.1 hf
      exact ⟨B2, f, hB2, hI2⟩

/-- C14 at width 32. -/
theorem C14_times_one_witness :
    IsBitWidth 32 ∧
    (run NoFold chainByOne).1.Blocks = [[
      .BinaryOperator 3 .Shl (.IntegerTy 32) (.Argument 0) (i32 4),
      .BinaryOperator 4 .Shl (.IntegerTy 32) (.Inst 3) (i32 0),
      Ret 2 (.Inst 4)]] ∧
    (run NoFold chainByOne).2 = PreservedAnalyses.none :=
  ⟨by decide, by rw [(C14_times_one NoFold 32 (by decide)).1],
    by rw [(C14_times_one NoFold 32 (by decide)).1]⟩

/-- C14 as stated fails on `x = 4 * 8; y = x * 1; ret y`: on entry `y` multiplies the
result of an instruction by 1, but `x` is folded to 32 before `y` is visited, `y` is
then `32 * 1`, its left operand is selected, and it is replaced by `1 << 5` folded to
32: no shift by 0 is created, no shift at all is left in the function. -/
theorem C14_times_one_counterexample :
    (run NoFold foldedByOne).1.Blocks = [[Ret 2 (i32 32)]] ∧
    (runState NoFold foldedByOne).Replaced = [(0, i32 32), (1, i32 32)] ∧
    ¬ ∃ X ∈ (run NoFold foldedByOne).1.instructions, isShl X = true := by
  decide

/-! ## Blocks read off the flat view -/

theorem blockOf_map_tag (B : List Instruction) (j k : Nat) :
    blockOf (B.map (fun I => (j, I))) k = if j = k then B else [] := by
  induction B with
  | nil => simp [blockOf]
  | cons I B ih =>
    simp only [blockOf] at ih ⊢
    by_cases h : j = k
    · simp only [h, if_true] at ih ⊢
      simp [List.filter_cons, ih]
    · simp only [h, if_false] at ih ⊢
      simp [List.filter_cons, h, ih]

theorem blockOf_append (A B : List (Nat × Instruction)) (k : Nat) :
    blockOf (A ++ B) k = blockOf A k ++ blockOf B k := by
  simp [blockOf]

theorem blockOf_tagFrom (Bs : List BasicBlock) (j k : Nat) :
    blockOf (tagFrom j Bs) k = if k < j then [] else (Bs[k - j]?).getD [] := by
  induction Bs generalizing j with
  | nil => simp [tagFrom, blockOf]
  | cons B Bs ih =>
    simp only [tagFrom, blockOf_append, blockOf_map_tag, ih]
    by_cases h1 : j = k
    · subst h1
      simp
    · by_cases h2 : k < j
      · have h3 : k < j + 1 := by omega
        simp [h1, h2, h3]
      · have h3 : ¬ k < j + 1 := by omega
        have h4 : k - j = (k - (j + 1)) + 1 := by omega
        simp [h1, h2, h3, h4]

theorem blockOf_tagFrom_zero (Bs : List BasicBlock) (k : Nat) :
    blockOf (tagFrom 0 Bs) k = (Bs[k]?).getD [] := by
  simp [blockOf_tagFrom]

/-! ## The number of blocks -/

theorem scanInstructions_lengths (Folder : Constant → Constant → Option Constant)
    (Name : String) (n : Nat) (S : PassState) (h : S.Tail.length ≤ n) :
    (scanInstructions Folder Name n S).Tail = [] ∧
    (scanInstructions Folder Name n S).Prev.length = S.Prev.length ∧
    (scanInstructions Folder Name n S).Next.length = S.Next.length :=
  (scanInstructions_flat Folder Name (fun _ => True) (fun _ _ => trivial) n S h trivial).2

theorem scanBlocks_length (Folder : Constant → Constant → Option Constant) (Name : String) :
    ∀ (n : Nat) (S : PassState), S.Next.length ≤ n →
      (scanBlocks Folder Name n S).Prev.length = S.Prev.length + S.Next.length := by
  intro n
  induction n with
  | zero =>
    intro S hlen
    have : S.Next = [] := List.length_eq_zero.mp (by omega)
    simp [scanBlocks, this]
  | succ n ih =>
    intro S hlen
    cases hN : S.Next with
    | nil => simp [scanBlocks, hN]
    | cons BB Rest =>
      simp only [scanBlocks, hN]
      obtain ⟨_, h2, h3⟩ := scanInstructions_lengths Folder Name BB.length
        { S with Head := [], Tail := BB, Next := Rest } (le_refl _)
      simp only at h2 h3
      simp only [hN, List.length_cons] at hlen
      rw [ih]
      · simp only [List.length_append, List.length_singleton, List.length_cons,
          List.length_nil, h2, h3]
        omega
      · simp only [h3]
        omega

/-- The pass keeps the number of blocks. -/
theorem run_Blocks_length (Folder : Constant → Constant → Option Constant) (F : Function) :
    (run Folder F).1.Blocks.length = F.Blocks.length := by
  have := scanBlocks_length Folder F.Name F.Blocks.length (PassState.entry F) (le_refl _)
  simpa [run, runState, PassState.entry] using this

/-- The block of the result with a given index, when the entry function has one. -/
theorem run_block_exists (Folder : Constant → Constant → Option Constant) (F : Function)
    (k : Nat) (B : BasicBlock) (h : F.Blocks[k]? = some B) :
    ∃ B2, (run Folder F).1.Blocks[k]? = some B2 := by
  have hk : k < F.Blocks.length := by
    rcases Nat.lt_or_ge k F.Blocks.length with h1 | h1
    · exact h1
    · rw [List.getElem?_eq_none h1] at h
      simp at h
  rw [← run_Blocks_length Folder F] at hk
  exact ⟨(run Folder F).1.Blocks[k], List.getElem?_eq_getElem hk⟩

/-! ## Instructions that can never match stay, in their order -/

theorem sublist_remove {α : Type} {L A B : List α} {x : α}
    (h : L.Sublist (A ++ x :: B)) (hx : x ∉ L) : L.Sublist (A ++ B) := by
  induction A generalizing L with
  | nil =>
    simp only [List.nil_append] at h ⊢
    cases h with
    | cons _ h2 => exact h2
    | cons₂ _ h2 => simp at hx
  | cons a A ih =>
    simp only [List.cons_append] at h ⊢
    cases h with
    | cons _ h2 => exact (ih h2 hx).cons a
    | cons₂ _ h2 =>
      rename_i L2
      exact (ih h2 (fun hm => hx (List.mem_cons_of_mem _ hm))).cons₂ a

theorem notIntegerMul_replaceUsesOfWith (m : Nat) (V : Value) (I : Instruction) :
    notIntegerMul (I.replaceUsesOfWith m V) = notIntegerMul I := by
  simp [notIntegerMul, isMul_replaceUsesOfWith, getType_replaceUsesOfWith]

theorem isMul_redirect (R : List (Nat × Value)) (I : Instruction) :
    isMul (I.redirect R) = isMul I := by
  induction R generalizing I with
  | nil => rfl
  | cons q R ih =>
    simp only [Instruction.redirect, List.foldl_cons]
    exact (ih _).trans (isMul_replaceUsesOfWith _ _ _)

theorem notIntegerMul_redirect (R : List (Nat × Value)) (I : Instruction) :
    notIntegerMul (I.redirect R) = notIntegerMul I := by
  simp [notIntegerMul, isMul_redirect, getType_redirect]

theorem getOpcode_replaceUsesOfWith (m : Nat) (V : Value) (I : Instruction) :
    (I.replaceUsesOfWith m V).getOpcode = I.getOpcode := by
  cases I <;> rfl

theorem getOpcode_redirect (R : List (Nat × Value)) (I : Instruction) :
    (I.redirect R).getOpcode = I.getOpcode := by
  induction R generalizing I with
  | nil => rfl
  | cons q R ih =>
    simp only [Instruction.redirect, List.foldl_cons]
    exact (ih _).trans (getOpcode_replaceUsesOfWith _ _ _)

theorem matchMul_of_notIntegerMul (I : Instruction) (h : notIntegerMul I = true) :
    matchMul I = Option.none := by
  cases hm : matchMul I with
  | none => rfl
  | some q =>
    obtain ⟨id, T, P, O⟩ := q
    obtain ⟨L, R, b, rfl, hT, _⟩ := matchMul_some hm
    simp [notIntegerMul, isMul, Instruction.getType, hT] at h

/-- A subsequence of instructions that the loop body does not match stays a
subsequence, redirected, through a loop iteration. -/
theorem kept_step (Folder : Constant → Constant → Option Constant)
    (E : List (Nat × Instruction)) (s : Flat)
    (hun : ∀ p ∈ E, matchMul (p.2.redirect s.Replaced) = Option.none)
    (h : (E.map (fun p => (p.1, p.2.redirect s.Replaced))).Sublist (s.visited ++ s.pending)) :
    (E.map (fun p => (p.1, p.2.redirect (Flat.visit Folder s).Replaced))).Sublist
      ((Flat.visit Folder s).visited ++ (Flat.visit Folder s).pending) := by
  cases hp : s.pending with
  | nil => rw [flatVisit_nil Folder s hp]; exact h
  | cons q0 rest =>
    obtain ⟨k, J⟩ := q0
    cases hm : matchMul J with
    | none =>
      rw [flatVisit_skip Folder s k J rest hp hm]
      rw [hp] at h
      simpa using h
    | some x =>
      obtain ⟨id, T, P, O⟩ := x
      rw [flatVisit_rewrite Folder s k J rest hp id T P O hm]
      rw [hp] at h
      have hJ : (k, J) ∉ E.map (fun p => (p.1, p.2.redirect s.Replaced)) := by
        intro hin
        obtain ⟨p, hpE, hpe⟩ := List.mem_map.1 hin
        simp only [Prod.mk.injEq] at hpe
        have := hun p hpE
        rw [hpe.2, hm] at this
        simp at this
      have h2 := sublist_remove h hJ
      have h3 := h2.map (fun p : Nat × Instruction =>
        (p.1, p.2.replaceUsesOfWith id (NewInst Folder s.fresh T P O).1))
      simp only [List.map_map, Function.comp_def, ← instruction_redirect_append,
        List.map_append] at h3
      simp only [List.map_append]
      refine h3.trans ?_
      apply List.Sublist.append_right
      exact List.sublist_append_left _ _

/-! ## The tests of the loop body under redirection to instruction results -/

theorem dyn_cast_replace_inst (m s : Nat) (X : Value) :
    dyn_cast_ConstantInt (Value.replaceUsesOfWith m (.Inst s) X) = dyn_cast_ConstantInt X := by
  cases X with
  | Const C => rw [replaceUsesOfWith_const]
  | Argument a => simp [Value.replaceUsesOfWith]
  | Inst i =>
    simp only [Value.replaceUsesOfWith]
    split <;> rfl

theorem selectPowerOfTwo_replace_inst (m s : Nat) (L R : Value) :
    selectPowerOfTwo (Value.replaceUsesOfWith m (.Inst s) L)
        (Value.replaceUsesOfWith m (.Inst s) R) =
      (selectPowerOfTwo L R).map
        (fun q => (q.1, Value.replaceUsesOfWith m (.Inst s) q.2.1, q.2.2)) := by
  unfold selectPowerOfTwo
  rw [dyn_cast_replace_inst, dyn_cast_replace_inst]
  cases dyn_cast_ConstantInt L with
  | none =>
    cases dyn_cast_ConstantInt R with
    | none => rfl
    | some r => cases hr : isPowerOfTwo r <;> simp [hr]
  | some l =>
    cases hl : isPowerOfTwo l with
    | true => simp [hl]
    | false =>
      cases dyn_cast_ConstantInt R with
      | none => simp [hl]
      | some r => cases hr : isPowerOfTwo r <;> simp [hl, hr]

theorem matchMul_replace_inst (m s : Nat) (I : Instruction) :
    matchMul (I.replaceUsesOfWith m (.Inst s)) =
      (matchMul I).map
        (fun q => (q.1, q.2.1, q.2.2.1, Value.replaceUsesOfWith m (.Inst s) q.2.2.2)) := by
  cases I with
  | Other i op T ops => rfl
  | BinaryOperator i op T L R =>
    simp only [Instruction.replaceUsesOfWith, matchMul]
    by_cases hop : op = .Mul
    · subst hop
      cases hT : T.isIntegerTy
      · simp
      · rw [selectPowerOfTwo_replace_inst]
        cases hsel : selectPowerOfTwo L R with
        | none => simp
        | some q => obtain ⟨P, O, b⟩ := q; simp
    · simp [hop]

theorem matchMul_redirect (R : List (Nat × Value)) (hR : AllInst R) (I : Instruction) :
    matchMul (I.redirect R) =
      (matchMul I).map (fun q => (q.1, q.2.1, q.2.2.1, redirect R q.2.2.2)) := by
  induction R generalizing I with
  | nil =>
    have : redirect [] = fun V => V := rfl
    cases h : matchMul I <;> simp [Instruction.redirect, this, h]
  | cons q R ih =>
    obtain ⟨s, hs⟩ := hR q (by simp)
    have hR2 : AllInst R := fun x hx => hR x (by simp [hx])
    have e : I.redirect (q :: R) = (I.replaceUsesOfWith q.1 q.2).redirect R := rfl
    rw [e, ih hR2, hs, matchMul_replace_inst]
    cases h : matchMul I with
    | none => rfl
    | some x =>
      simp only [Option.map_some', Option.some.injEq, Prod.mk.injEq, true_and]
      simp [redirect, hs]

theorem AllInst_append (R : List (Nat × Value)) (m s : Nat) (h : AllInst R) :
    AllInst (R ++ [(m, .Inst s)]) := by
  intro q hq
  rcases List.mem_append.1 hq with hq | hq
  · exact h q hq
  · simp only [List.mem_singleton] at hq
    exact ⟨s, by rw [hq]⟩

theorem PlacedAt_extend (base : Nat) (R : List (Nat × Value)) (m : Nat) (V : Value)
    (J X : Instruction) (h : PlacedAt base R J X) :
    PlacedAt base (R ++ [(m, V)]) J (X.replaceUsesOfWith m V) := by
  unfold PlacedAt at h ⊢
  cases hm : matchMul J with
  | none =>
    rw [hm] at h
    simp only at h ⊢
    rw [h, instruction_redirect_append]
  | some q =>
    obtain ⟨id, T, P, O⟩ := q
    rw [hm] at h
    simp only at h ⊢
    obtain ⟨f, hf, rfl⟩ := h
    refine ⟨f, hf, ?_⟩
    simp [Instruction.replaceUsesOfWith, redirect_append, replaceUsesOfWith_const]

/-- The scan of a function in which no shift is folded, position by position: what is
behind the cursor stands where its entry instruction stood, what is ahead is the entry
instruction redirected. -/
theorem placed_step (Folder : Constant → Constant → Option Constant)
    (E : List (Nat × Instruction)) (base : Nat) (s : Flat)
    (h : AllInst s.Replaced ∧ base ≤ s.fresh ∧
      (∀ p ∈ s.pending, eligible p.2 = true → bothConstant p.2 = false) ∧
      ∃ Ev Ep, E = Ev ++ Ep ∧
        List.Forall₂ (fun e x => x.1 = e.1 ∧ PlacedAt base s.Replaced e.2 x.2) Ev s.visited ∧
        s.pending = Ep.map (fun p => (p.1, p.2.redirect s.Replaced))) :
    AllInst (Flat.visit Folder s).Replaced ∧ base ≤ (Flat.visit Folder s).fresh ∧
      (∀ p ∈ (Flat.visit Folder s).pending, eligible p.2 = true → bothConstant p.2 = false) ∧
      ∃ Ev Ep, E = Ev ++ Ep ∧
        List.Forall₂ (fun e x => x.1 = e.1 ∧
          PlacedAt base (Flat.visit Folder s).Replaced e.2 x.2) Ev (Flat.visit Folder s).visited ∧
        (Flat.visit Folder s).pending =
          Ep.map (fun p => (p.1, p.2.redirect (Flat.visit Folder s).Replaced)) := by
  obtain ⟨hall, hbase, hnf, Ev, Ep, hE, hrel, hpend⟩ := h
  cases hp : s.pending with
  | nil =>
    rw [flatVisit_nil Folder s hp]
    exact ⟨hall, hbase, hnf, Ev, Ep, hE, hrel, hpend⟩
  | cons q0 rest =>
    obtain ⟨k, J⟩ := q0
    rw [hp] at hpend
    cases Ep with
    | nil => simp at hpend
    | cons e Ep =>
      simp only [List.map_cons, List.cons.injEq, Prod.mk.injEq] at hpend
      obtain ⟨⟨hk, hJ⟩, hrest⟩ := hpend
      have hmJ := matchMul_redirect s.Replaced hall e.2
      rw [← hJ] at hmJ
      cases hm : matchMul J with
      | none =>
        rw [flatVisit_skip Folder s k J rest hp hm]
        refine ⟨hall, hbase, fun p hp2 => hnf p (by simp [hp, hp2]), Ev ++ [e], Ep,
          by simp [hE], ?_, hrest⟩
        apply List.rel_append hrel
        refine List.Forall₂.cons ⟨hk, ?_⟩ List.Forall₂.nil
        rw [hm] at hmJ
        have hme : matchMul e.2 = Option.none := by
          cases h2 : matchMul e.2 with
          | none => rfl
          | some x => rw [h2] at hmJ; simp at hmJ
        simp only [PlacedAt, hme]
        exact hJ
      | some x =>
        obtain ⟨id, T, P, O⟩ := x
        have hJe : eligible J = true := by rw [← matchMul_isSome, hm]; rfl
        have hN := NewInst_of_not_bothConstant Folder s.fresh hm
          (hnf (k, J) (by simp [hp]) hJe)
        rw [flatVisit_rewrite Folder s k J rest hp id T P O hm, hN]
        rw [hm] at hmJ
        obtain ⟨O0, hme, hO⟩ : ∃ O0, matchMul e.2 = some (id, T, P, O0) ∧
            O = redirect s.Replaced O0 := by
          cases h2 : matchMul e.2 with
          | none => rw [h2] at hmJ; simp at hmJ
          | some x =>
            obtain ⟨id2, T2, P2, O2⟩ := x
            rw [h2] at hmJ
            simp only [Option.map_some', Option.some.injEq, Prod.mk.injEq] at hmJ
            obtain ⟨rfl, rfl, rfl, rfl⟩ := hmJ
            exact ⟨O2, rfl, rfl⟩
        refine ⟨AllInst_append _ _ _ hall, by simp only [Option.toList, List.length_singleton]; omega,
          ?_, Ev ++ [e], Ep, by simp [hE], ?_, ?_⟩
        · intro p hp2
          obtain ⟨p0, hp0, rfl⟩ := List.mem_map.1 hp2
          simp only [eligible_replace_inst, bothConstant_replace_inst]
          exact hnf p0 (by simp [hp, hp0])
        · simp only [Option.toList, List.map_cons, List.map_nil, List.map_append]
          apply List.rel_append
          · rw [List.forall₂_map_right_iff]
            exact List.Forall₂.imp (fun a b h => ⟨h.1, PlacedAt_extend base _ id _ _ _ h.2⟩) hrel
          · refine List.Forall₂.cons ⟨hk, ?_⟩ List.Forall₂.nil
            simp only [PlacedAt, hme]
            refine ⟨s.fresh, hbase, ?_⟩
            simp [Instruction.replaceUsesOfWith, redirect_append, replaceUsesOfWith_const, hO]
        · rw [hrest]
          simp [List.map_map, Function.comp_def, instruction_redirect_append]

/-! ## The result block by block -/

theorem forall₂_blockOf {Q : Instruction → Instruction → Prop}
    {A B : List (Nat × Instruction)}
    (h : List.Forall₂ (fun e x => x.1 = e.1 ∧ Q e.2 x.2) A B) (k : Nat) :
    List.Forall₂ Q (blockOf A k) (blockOf B k) := by
  induction h with
  | nil => exact List.Forall₂.nil
  | @cons a b A B hab _ ih =>
    have e1 : blockOf (a :: A) k = (if a.1 = k then [a.2] else []) ++ blockOf A k := by
      by_cases hk : a.1 = k <;> simp [blockOf, List.filter_cons, hk]
    have e2 : blockOf (b :: B) k = (if b.1 = k then [b.2] else []) ++ blockOf B k := by
      by_cases hk : b.1 = k <;> simp [blockOf, List.filter_cons, hk]
    rw [e1, e2, hab.1]
    by_cases hk : a.1 = k
    · simp only [hk, if_true, List.singleton_append]
      exact List.Forall₂.cons hab.2 ih
    · simp only [hk, if_false, List.nil_append]
      exact ih

theorem forall₂_getElem? {α β : Type} {Q : α → β → Prop} {A : List α} {B : List β}
    (h : List.Forall₂ Q A B) (i : Nat) (a : α) (ha : A[i]? = some a) :
    ∃ b, B[i]? = some b ∧ Q a b := by
  induction h generalizing i with
  | nil => simp at ha
  | cons hab _ ih =>
    cases i with
    | zero =>
      simp only [List.getElem?_cons_zero, Option.some.injEq] at ha
      subst ha
      exact ⟨_, by simp, hab⟩
    | succ i =>
      simp only [List.getElem?_cons_succ] at ha ⊢
      exact ih i ha

theorem map_redirect_nil (E : List (Nat × Instruction)) :
    E.map (fun p => (p.1, p.2.redirect [])) = E := by
  have : ∀ I : Instruction, I.redirect [] = I := fun _ => rfl
  simp [this]

/-- In a function in which no eligible multiply has two constant operands, every block
of the result is the entry block position by position. -/
theorem placed_blocks (Folder : Constant → Constant → Option Constant) (F : Function)
    (h : ∀ B ∈ F.Blocks, ∀ I ∈ B, eligible I = true → bothConstant I = false)
    (k : Nat) (B : BasicBlock) (hB : F.Blocks[k]? = some B) :
    ∃ B2, (run Folder F).1.Blocks[k]? = some B2 ∧
      List.Forall₂ (PlacedAt F.freshId (runState Folder F).Replaced) B B2 := by
  have h1 := runState_flat Folder F
    (fun s => AllInst s.Replaced ∧ F.freshId ≤ s.fresh ∧
      (∀ p ∈ s.pending, eligible p.2 = true → bothConstant p.2 = false) ∧
      ∃ Ev Ep, tagFrom 0 F.Blocks = Ev ++ Ep ∧
        List.Forall₂ (fun e x => x.1 = e.1 ∧ PlacedAt F.freshId s.Replaced e.2 x.2)
          Ev s.visited ∧
        s.pending = Ep.map (fun p => (p.1, p.2.redirect s.Replaced)))
    (placed_step Folder (tagFrom 0 F.Blocks) F.freshId)
    ⟨fun q hq => by simp at hq, le_refl _, fun p hp he => by
        obtain ⟨B, hB, hI⟩ := mem_tagFrom_zero hp
        exact h B hB p.2 hI he,
      [], tagFrom 0 F.Blocks, rfl, List.Forall₂.nil, (map_redirect_nil _).symm⟩
  obtain ⟨_, _, _, Ev, Ep, hE, hrel, hpend⟩ := h1
  have hEp : Ep = [] := by
    cases Ep with
    | nil => rfl
    | cons e Ep => exact absurd hpend (by simp)
  rw [hEp, List.append_nil] at hE
  rw [← hE] at hrel
  have h2 := forall₂_blockOf hrel k
  rw [blockOf_tagFrom_zero, blockOf_tagFrom_zero, hB] at h2
  obtain ⟨B2, hB2⟩ := run_block_exists Folder F k B hB
  rw [hB2] at h2
  exact ⟨B2, hB2, h2⟩

theorem placed_sublist (base : Nat) (R : List (Nat × Value)) {B B2 : List Instruction}
    (h : List.Forall₂ (PlacedAt base R) B B2) :
    ((B.filter (fun I => !eligible I)).map (Instruction.redirect R)).Sublist B2 := by
  induction h with
  | nil => exact List.Sublist.slnil
  | @cons J X B B2 hab _ ih =>
    simp only [List.filter_cons]
    cases he : eligible J with
    | true =>
      simp only [Bool.not_true, Bool.false_eq_true, if_false]
      exact ih.cons X
    | false =>
      simp only [Bool.not_false, if_true, List.map_cons]
      have hm := matchMul_eq_none.2 he
      simp only [PlacedAt, hm] at hab
      rw [hab]
      exact ih.cons₂ _

/-- For every function, each block of the result holds, in their order and with their
operands redirected, the instructions of the entry block that are no integer multiply. -/
theorem kept_blocks (Folder : Constant → Constant → Option Constant) (F : Function)
    (k : Nat) (B : BasicBlock) (hB : F.Blocks[k]? = some B) :
    ∃ B2, (run Folder F).1.Blocks[k]? = some B2 ∧
      ((B.filter notIntegerMul).map
        (Instruction.redirect (runState Folder F).Replaced)).Sublist B2 := by
  have h1 := runState_flat Folder F
    (fun s => (((tagFrom 0 F.Blocks).filter (fun p => notIntegerMul p.2)).map
      (fun p => (p.1, p.2.redirect s.Replaced))).Sublist (s.visited ++ s.pending))
    (fun s hs => kept_step Folder _ s (fun p hp => by
      apply matchMul_of_notIntegerMul
      rw [notIntegerMul_redirect]
      exact (List.mem_filter.1 hp).2) hs)
    (by
      simp only [List.nil_append, map_redirect_nil]
      exact List.filter_sublist _)
  simp only [List.append_nil] at h1
  obtain ⟨B2, hB2⟩ := run_block_exists Folder F k B hB
  refine ⟨B2, hB2, ?_⟩
  have h2 := (h1.filter (fun p => p.1 == k)).map Prod.snd
  have e2 : ((tagFrom 0 (run Folder F).1.Blocks).filter (fun p => p.1 == k)).map Prod.snd = B2 := by
    have := blockOf_tagFrom_zero (run Folder F).1.Blocks k
    simp only [blockOf, hB2, Option.getD_some] at this
    exact this
  rw [e2] at h2
  have e1 : ((((tagFrom 0 F.Blocks).filter (fun p => notIntegerMul p.2)).map
      (fun p => (p.1, p.2.redirect (runState Folder F).Replaced))).filter
        (fun p => p.1 == k)).map Prod.snd =
      (B.filter notIntegerMul).map (Instruction.redirect (runState Folder F).Replaced) := by
    have := blockOf_tagFrom_zero F.Blocks k
    simp only [blockOf, hB, Option.getD_some] at this
    rw [← this]
    generalize tagFrom 0 F.Blocks = E
    induction E with
    | nil => rfl
    | cons e E ih =>
      by_cases hn : notIntegerMul e.2 = true <;> by_cases hk : e.1 = k <;>
        simp [List.filter_cons, hn, hk, ih]
  rw [e1] at h2
  exact h2

/-- C13 (amended): for every function, the pass never removes or replaces an instruction
that is no integer-typed multiply (floating-point multiplies, vector-typed multiplies,
add, sub, shl and so on, whatever their operands): these stay in their block, in their
order, with the same identity, opcode and result type, their operands changing only
where they referred to a rewritten multiply. An integer-typed multiply that is not
eligible on entry stays in the same way in every function in which no eligible multiply
has two constant operands; otherwise it can become eligible, by an operand folded to a
constant power of two, and be rewritten. A function with no eligible multiply is
returned identical to its input. -/
theorem C13_frame (Folder : Constant → Constant → Option Constant) (F : Function) :
    (∀ (k : Nat) (B : BasicBlock), F.Blocks[k]? = some B →
      ∃ B2, (run Folder F).1.Blocks[k]? = some B2 ∧
        ((B.filter notIntegerMul).map
          (Instruction.redirect (runState Folder F).Replaced)).Sublist B2) ∧
    (∀ I : Instruction,
      (I.redirect (runState Folder F).Replaced).id = I.id ∧
      (I.redirect (runState Folder F).Replaced).getOpcode = I.getOpcode ∧
      (I.redirect (runState Folder F).Replaced).getType = I.getType ∧
      (I.redirect (runState Folder F).Replaced).operands =
        I.operands.map (redirect (runState Folder F).Replaced)) ∧
    (∀ V, (∀ q ∈ (runState Folder F).Replaced, V ≠ .Inst q.1) →
      redirect (runState Folder F).Replaced V = V) ∧
    (∀ q ∈ (runState Folder F).Replaced, ∃ I ∈ F.instructions, I.id = q.1 ∧ isMul I = true) ∧
    ((∀ B ∈ F.Blocks, ∀ I ∈ B, eligible I = true → bothConstant I = false) →
      ∀ (k : Nat) (B : BasicBlock), F.Blocks[k]? = some B →
        ∃ B2, (run Folder F).1.Blocks[k]? = some B2 ∧ B2.length = B.length ∧
          ((B.filter (fun I => !eligible I)).map
            (Instruction.redirect (runState Folder F).Replaced)).Sublist B2) ∧
    ((∀ B ∈ F.Blocks, ∀ I ∈ B, eligible I = false) →
      run Folder F = (F, PreservedAnalyses.all)) := by
  refine ⟨kept_blocks Folder F,
    fun I => ⟨id_redirect _ I, getOpcode_redirect _ I, getType_redirect _ I,
      operands_redirect _ I⟩,
    fun V hV => redirect_of_forall_ne _ V hV, ?_, ?_, run_of_no_eligible Folder F⟩
  · have h := runState_flat Folder F (fun s => s.FromEntry F)
      (FromEntry_step Folder F) (FromEntry_entry F)
    exact h.2
  · intro h k B hB
    obtain ⟨B2, hB2, hrel⟩ := placed_blocks Folder F h k B hB
    exact ⟨B2, hB2, hrel.length_eq.symm, placed_sublist _ _ hrel⟩

/-- C13 on a block with a floating-point multiply, a vector multiply, an eligible
multiply, an add and a return. -/
theorem C13_frame_witness :
    (∃ B2, (run NoFold mixedBlock).1.Blocks[0]? = some B2 ∧
      (([.BinaryOperator 0 .FMul .FloatTy (.Argument 1) (.Const (.Other 2)),
          .BinaryOperator 1 .Mul (.VectorTy 32 4) (.Argument 2) (.Const (.Other 4)),
          .BinaryOperator 2 .Mul (.IntegerTy 32) (.Argument 0) (i32 8),
          .BinaryOperator 3 .Add (.IntegerTy 32) (.Inst 2) (i32 4),
          Ret 4 (.Inst 3)].filter notIntegerMul).map
        (Instruction.redirect (runState NoFold mixedBlock).Replaced)).Sublist B2) ∧
    (run NoFold mixedBlock).1.Blocks = [[
      .BinaryOperator 0 .FMul .FloatTy (.Argument 1) (.Const (.Other 2)),
      .BinaryOperator 1 .Mul (.VectorTy 32 4) (.Argument 2) (.Const (.Other 4)),
      .BinaryOperator 5 .Shl (.IntegerTy 32) (.Argument 0) (i32 3),
      .BinaryOperator 3 .Add (.IntegerTy 32) (.Inst 5) (i32 4),
      Ret 4 (.Inst 3)]] :=
  ⟨(C13_frame NoFold mixedBlock).1 0 _ (by decide), by decide⟩

/-- C13 as stated fails on `x = 1 * 4; y = x * 3; z = y + x; ret z`: on entry `y` is a
multiply without a constant power-of-two operand, yet after `x` is folded to 4 it is
`4 * 3`, is replaced by the constant 12 and is gone from its block. -/
theorem C13_frame_counterexample :
    eligible (.BinaryOperator 1 .Mul (.IntegerTy 32) (.Inst 0) (i32 3)) = false ∧
    .BinaryOperator 1 .Mul (.IntegerTy 32) (.Inst 0) (i32 3) ∈ foldThenThreeUsed.instructions ∧
    (run NoFold foldThenThreeUsed).1.Blocks = [[
      .BinaryOperator 2 .Add (.IntegerTy 32) (i32 12) (i32 4), Ret 3 (.Inst 2)]] ∧
    (runState NoFold foldThenThreeUsed).Replaced = [(0, i32 4), (1, i32 12)] ∧
    ¬ ∃ X ∈ (run NoFold foldThenThreeUsed).1.instructions, X.id = 1 := by
  decide

/-! ## The scan examines the original sequence, and agrees with the scan over a snapshot -/

theorem span_handle (Head : List Instruction) (I : Instruction) (Rest : List Instruction)
    (h : ∀ J ∈ Head, J.id ≠ I.id) :
    (Head ++ I :: Rest).span (fun J => J.id != I.id) = (Head, I :: Rest) := by
  rw [List.span_eq_take_drop]
  induction Head with
  | nil => simp [List.takeWhile, List.dropWhile]
  | cons X Head ih =>
    have hX : X.id ≠ I.id := h X (by simp)
    have hX2 : (X.id != I.id) = true := by simp [hX]
    have := ih (fun J hJ => h J (by simp [hJ]))
    simp only [Prod.mk.injEq] at this
    simp [List.takeWhile, List.dropWhile, hX2, this.1, this.2]

theorem set_cursor_block {α : Type} (A : List α) (x y : α) (B : List α) :
    (A ++ x :: B).set A.length y = A ++ y :: B := by
  induction A with
  | nil => rfl
  | cons a A ih => simp [ih]

/-- The rewrite through the handle of the instruction at the cursor is the loop body. -/
theorem rewriteHandle_visit (Folder : Constant → Constant → Option Constant) (Name : String)
    (S : PassState) (I : Instruction) (Rest : List Instruction) (hT : S.Tail = I :: Rest)
    (hH : ∀ J ∈ S.Head, J.id ≠ I.id) :
    rewriteHandle Folder Name S.Prev.length S.snapshot I.id =
      (visit Folder Name S).snapshot := by
  have hb : S.snapshot.Blocks[S.Prev.length]? = some (S.Head ++ I :: Rest) := by
    simp only [PassState.snapshot, hT]
    rw [List.getElem?_append_right (le_refl _)]
    simp
  unfold rewriteHandle
  rw [hb]
  simp only [span_handle S.Head I Rest hH]
  cases hm : matchMul I with
  | none =>
    rw [visit_skip Folder Name S I Rest hT hm]
    simp [PassState.snapshot, hT]
  | some q =>
    obtain ⟨id, T, P, O⟩ := q
    rw [visit_rewrite Folder Name S I Rest hT id T P O hm]
    simp [PassState.snapshot, hT, set_cursor_block]

theorem visit_Tail_ids (Folder : Constant → Constant → Option Constant) (Name : String)
    (S : PassState) (I : Instruction) (Rest : List Instruction) (hT : S.Tail = I :: Rest) :
    ids (visit Folder Name S).Tail = ids Rest ∧
    (visit Folder Name S).Next.map ids = S.Next.map ids := by
  cases hm : matchMul I with
  | none =>
    rw [visit_skip Folder Name S I Rest hT hm]
    exact ⟨rfl, rfl⟩
  | some q =>
    obtain ⟨id, T, P, O⟩ := q
    rw [visit_rewrite Folder Name S I Rest hT id T P O hm]
    simp [ids, List.map_map, Function.comp_def, id_replaceUsesOfWith]

theorem cursor_id_not_in_Head (S : PassState) (I : Instruction) (Rest : List Instruction)
    (hT : S.Tail = I :: Rest) (h : S.flat.IdsOk) : ∀ J ∈ S.Head, J.id ≠ I.id := by
  intro J hJ hid
  have hnd := h.1
  simp only [Flat.idList, PassState.flat, hT, List.map_append, List.map_map, List.map_cons,
    Function.comp_def, List.append_assoc] at hnd
  rw [List.nodup_append] at hnd
  obtain ⟨_, hnd, _⟩ := hnd
  rw [List.nodup_append] at hnd
  obtain ⟨_, _, hdis⟩ := hnd
  exact hdis (List.mem_map.2 ⟨J, hJ, rfl⟩) (by simp [hid])

/-- The scan of one block: it examines the instructions that stood ahead of the cursor,
each once and in their order, and it is the sequence of rewrites through their handles. -/
theorem scanInstructions_snapshot (Folder : Constant → Constant → Option Constant)
    (Name : String) :
    ∀ (n : Nat) (S : PassState), S.Tail.length ≤ n → S.flat.IdsOk →
      (ids S.Tail).foldl (rewriteHandle Folder Name S.Prev.length) S.snapshot =
        (scanInstructions Folder Name n S).snapshot ∧
      scanInstructionsTrace Folder Name n S = ids S.Tail ∧
      (scanInstructions Folder Name n S).Next.map ids = S.Next.map ids ∧
      (scanInstructions Folder Name n S).flat.IdsOk := by
  intro n
  induction n with
  | zero =>
    intro S hlen hok
    have hT : S.Tail = [] := List.length_eq_zero.mp (by omega)
    simp [scanInstructions, scanInstructionsTrace, hT, ids, hok]
  | succ n ih =>
    intro S hlen hok
    cases hT : S.Tail with
    | nil => simp [scanInstructions, scanInstructionsTrace, hT, ids, hok]
    | cons I Rest =>
      have hne : S.Tail ≠ [] := by simp [hT]
      have h1 := visit_Tail_length Folder Name S
      have h2 := visit_flat Folder Name S hne
      have h3 := visit_Tail_ids Folder Name S I Rest hT
      have h4 := visit_Prev_length Folder Name S
      have h5 := rewriteHandle_visit Folder Name S I Rest hT
        (cursor_id_not_in_Head S I Rest hT hok)
      obtain ⟨a, b, c, d⟩ := ih (visit Folder Name S) (by rw [h1]; omega)
        (by rw [h2]; exact IdsOk_step Folder _ hok)
      simp only [scanInstructions, scanInstructionsTrace, hT]
      refine ⟨?_, ?_, ?_, d⟩
      · rw [← a, h3.1, h4]
        show ((I.id :: ids Rest).foldl _ _) = _
        rw [List.foldl_cons, h5]
      · rw [b, h3.1]
        rfl
      · rw [c, h3.2]

/-- The scan of the blocks: it examines the instructions of the blocks ahead, each once
and in order, and it is the scan over a snapshot of each block taken before the scan. -/
theorem scanBlocks_snapshot (Folder : Constant → Constant → Option Constant) (Name : String) :
    ∀ (n : Nat) (S : PassState) (OB : List BasicBlock), S.Next.length ≤ n →
      OB.map ids = S.Next.map ids →
      Flat.IdsOk { visited := tagFrom 0 S.Prev, pending := tagFrom S.Prev.length S.Next,
                   Changed := S.Changed, fresh := S.fresh, Replaced := S.Replaced } →
      (OB.enumFrom S.Prev.length).foldl
          (fun T p => (ids p.2).foldl (rewriteHandle Folder Name p.1) T) S.between =
        (scanBlocks Folder Name n S).between ∧
      scanBlocksTrace Folder Name n S = (S.Next.map ids).flatten ∧
      (scanBlocks Folder Name n S).Next = [] := by
  intro n
  induction n with
  | zero =>
    intro S OB hlen hOB hok
    have hN : S.Next = [] := List.length_eq_zero.mp (by omega)
    rw [hN] at hOB
    have hO : OB = [] := by simpa using hOB
    simp [scanBlocks, scanBlocksTrace, hN, hO]
  | succ n ih =>
    intro S OB hlen hOB hok
    cases hN : S.Next with
    | nil =>
      rw [hN] at hOB
      have hO : OB = [] := by simpa using hOB
      simp [scanBlocks, scanBlocksTrace, hN, hO]
    | cons BB Rest =>
      rw [hN] at hOB
      cases OB with
      | nil => simp at hOB
      | cons X Xs =>
        simp only [List.map_cons, List.cons.injEq] at hOB
        obtain ⟨hX, hXs⟩ := hOB
        rw [hN, ← flat_open] at hok
        obtain ⟨a, b, c, d⟩ := scanInstructions_snapshot Folder Name BB.length
          { S with Head := [], Tail := BB, Next := Rest } (le_refl _) hok
        obtain ⟨e2, e3, e4⟩ := scanInstructions_lengths Folder Name BB.length
          { S with Head := [], Tail := BB, Next := Rest } (le_refl _)
        simp only [scanBlocks, scanBlocksTrace, hN]
        simp only at a b c e3 e4
        generalize scanInstructions Folder Name BB.length
          { S with Head := [], Tail := BB, Next := Rest } = S1 at a b c d e2 e3 e4 ⊢
        simp only [hN, List.length_cons] at hlen
        obtain ⟨f, g, h⟩ := ih
          { S1 with Prev := S1.Prev ++ [S1.Head ++ S1.Tail], Head := [], Tail := [] } Xs
          (by simp only [e4]; omega) (by rw [hXs, c])
          (by
            simp only [PassState.flat, e2, List.map_nil, List.nil_append] at d
            simp only [List.length_append, List.length_singleton, e2, List.append_nil,
              tagFrom_append, tagFrom, zero_add]
            exact d)
        refine ⟨?_, ?_, h⟩
        · rw [← f]
          simp only [List.enumFrom_cons, List.foldl_cons, List.length_append,
            List.length_singleton, e3]
          congr 1
          rw [hX]
          have e : S.between = ({ S with Head := [], Tail := BB, Next := Rest } : PassState).snapshot := by
            simp [PassState.between, PassState.snapshot, hN]
          rw [e, a]
          simp [PassState.between, PassState.snapshot]
        · rw [b, g, c]
          simp

/-- C16: for every function whose instructions have pairwise distinct identities, the
scan, which mutates a block while it iterates over it, examines exactly the instructions
the function had on entry, each one once, block by block and in forward order; all of
them are older than any shift the pass inserts, so no inserted shift is examined; the
number of eligibility checks is the number of instructions on entry, after which no
block is left to scan; and the function, the returned flag, the diagnostics and the
redirections are those of the algorithm that takes a snapshot of each block's original
instruction sequence and applies the per-instruction rewrite to each handle. -/
theorem C16_snapshot_scan (Folder : Constant → Constant → Option Constant) (F : Function)
    (hwf : F.WellFormed) :
    examined Folder F = ids F.instructions ∧
    (examined Folder F).Nodup ∧
    (∀ x ∈ examined Folder F, x < F.freshId) ∧
    (examined Folder F).length = F.instructions.length ∧
    (runState Folder F).Next = [] ∧
    snapshotRun Folder F = run Folder F ∧
    (snapshotState Folder F).errs = (runState Folder F).errs ∧
    (snapshotState Folder F).Replaced = (runState Folder F).Replaced := by
  obtain ⟨f, g, h⟩ := scanBlocks_snapshot Folder F.Name F.Blocks.length (PassState.entry F)
    F.Blocks (le_refl _) rfl (IdsOk_entry F hwf)
  have hex : examined Folder F = ids F.instructions := by
    unfold examined
    rw [g]
    show (List.map ids F.Blocks).flatten = List.map Instruction.id F.Blocks.flatten
    rw [List.map_flatten]
    rfl
  have hst : snapshotState Folder F = (runState Folder F).between := by
    unfold snapshotState runState
    rw [← f]
    simp [PassState.entry, PassState.between, List.enum]
  refine ⟨hex, ?_, ?_, ?_, h, ?_, ?_, ?_⟩
  · rw [hex]
    exact hwf
  · intro x hx
    rw [hex] at hx
    obtain ⟨I, hI, rfl⟩ := List.mem_map.1 hx
    exact lt_freshId F I hI
  · rw [hex]
    simp [ids]
  · unfold snapshotRun run
    have hN : (runState Folder F).Next = [] := h
    simp [hst, PassState.between, hN]
  · rw [hst]
    rfl
  · rw [hst]
    rfl

/-- C16 on a multiply whose result is used three times later in the block: the four
instructions of the block are examined once each, and the scan over a snapshot gives
the same function. -/
theorem C16_snapshot_scan_witness :
    useChain.WellFormed ∧
    examined NoFold useChain = [0, 1, 2, 3] ∧
    snapshotRun NoFold useChain = run NoFold useChain :=
  ⟨by decide, (C16_snapshot_scan NoFold useChain (by decide)).1.trans (by decide),
    (C16_snapshot_scan NoFold useChain (by decide)).2.2.2.2.2.1⟩

/-! ## Multiplies of two integer constants: the shift is folded -/

/-- What the builder returns for a selected constant and an integer constant as the
other operand: a constant, and no instruction. -/
theorem NewInst_of_ConstantInt (Folder : Constant → Constant → Option Constant) (fresh : Nat)
    (T : Ty) (P O : APInt) :
    NewInst Folder fresh T P (.Const (.ConstantInt O)) =
      (.Const (if (ConstantInt.get T (ShiftAmount P)).VAL < O.BitWidth
          then .ConstantInt (O.shl (ConstantInt.get T (ShiftAmount P)).VAL) else .Poison),
        Option.none) := by
  unfold NewInst CreateShl FoldShl
  by_cases h : (ConstantInt.get T (ShiftAmount P)).VAL < O.BitWidth <;> simp [h]

/-- A multiply of two integer constants that passes the tests: the other operand is
one of the two integer constants. -/
theorem matchMul_of_ConstantInts (id : Nat) (T : Ty) (a b : APInt)
    (he : eligible (.BinaryOperator id .Mul T (.Const (.ConstantInt a))
      (.Const (.ConstantInt b))) = true) :
    ∃ P O, matchMul (.BinaryOperator id .Mul T (.Const (.ConstantInt a))
        (.Const (.ConstantInt b))) = some (id, T, P, .Const (.ConstantInt O)) ∧
      isPowerOfTwo P = true ∧ ((P = a ∧ O = b) ∨ (P = b ∧ O = a)) := by
  rw [← matchMul_isSome] at he
  obtain ⟨q, hq⟩ := Option.isSome_iff_exists.1 he
  obtain ⟨id2, T2, P, O⟩ := q
  obtain ⟨L, R, bb, hJ, _, hsel⟩ := matchMul_some hq
  simp only [Instruction.BinaryOperator.injEq, true_and] at hJ
  obtain ⟨rfl, rfl, rfl, rfl⟩ := hJ
  obtain ⟨hp, h | h⟩ := selectPowerOfTwo_some hsel
  · obtain ⟨_, h1, h2⟩ := h
    simp only [Value.Const.injEq, Constant.ConstantInt.injEq] at h1
    subst h1
    subst h2
    exact ⟨a, b, hq, hp, Or.inl ⟨rfl, rfl⟩⟩
  · obtain ⟨_, h1, h2, _⟩ := h
    simp only [Value.Const.injEq, Constant.ConstantInt.injEq] at h1
    subst h1
    subst h2
    exact ⟨b, a, hq, hp, Or.inr ⟨rfl, rfl⟩⟩

/-- A matched multiply that no redirection changes and whose shift is folded to `C` is
ahead of the cursor until its uses are redirected to `C`. -/
theorem folded_step (Folder : Constant → Constant → Option Constant) (J : Instruction)
    (id : Nat) (T : Ty) (P : APInt) (O : Value) (C : Constant)
    (hm : matchMul J = some (id, T, P, O))
    (hfix : ∀ m V, J.replaceUsesOfWith m V = J)
    (hN : ∀ fresh, (NewInst Folder fresh T P O).1 = .Const C) (s : Flat)
    (h : (id, Value.Const C) ∈ s.Replaced ∨ ∃ k, (k, J) ∈ s.pending) :
    (id, Value.Const C) ∈ (Flat.visit Folder s).Replaced ∨
      ∃ k, (k, J) ∈ (Flat.visit Folder s).pending := by
  cases hp : s.pending with
  | nil =>
    rw [flatVisit_nil Folder s hp]
    exact h
  | cons q rest =>
    obtain ⟨k0, I0⟩ := q
    cases hm0 : matchMul I0 with
    | none =>
      rw [flatVisit_skip Folder s k0 I0 rest hp hm0]
      rcases h with h | ⟨k, hk⟩
      · exact Or.inl h
      · right
        rw [hp] at hk
        rcases List.mem_cons.1 hk with heq | hin
        · simp only [Prod.mk.injEq] at heq
          rw [← heq.2, hm] at hm0
          simp at hm0
        · exact ⟨k, hin⟩
    | some x =>
      obtain ⟨id0, T0, P0, O0⟩ := x
      rw [flatVisit_rewrite Folder s k0 I0 rest hp id0 T0 P0 O0 hm0]
      rcases h with h | ⟨k, hk⟩
      · left
        exact List.mem_append.2 (Or.inl h)
      · rw [hp] at hk
        rcases List.mem_cons.1 hk with heq | hin
        · left
          simp only [Prod.mk.injEq] at heq
          rw [← heq.2, hm] at hm0
          simp only [Option.some.injEq, Prod.mk.injEq] at hm0
          obtain ⟨rfl, rfl, rfl, rfl⟩ := hm0
          simp [hN]
        · right
          refine ⟨k, ?_⟩
          have := List.mem_map_of_mem
            (fun p : Nat × Instruction =>
              (p.1, p.2.replaceUsesOfWith id0 (NewInst Folder s.fresh T0 P0 O0).1)) hin
          simpa [hfix] using this

/-- With distinct identities, the uses of such a multiply are redirected once, to `C`. -/
theorem folded_unique_step (Folder : Constant → Constant → Option Constant) (J : Instruction)
    (id : Nat) (T : Ty) (P : APInt) (O : Value) (C : Constant)
    (hm : matchMul J = some (id, T, P, O))
    (hN : ∀ fresh, (NewInst Folder fresh T P O).1 = .Const C) (s : Flat)
    (hok : s.IdsOk)
    (h : (id, Value.Const C) ∈ s.Replaced ∨ ∃ k, (k, J) ∈ s.pending)
    (hu : ∀ q ∈ s.Replaced, q.1 = id → q.2 = .Const C) :
    ∀ q ∈ (Flat.visit Folder s).Replaced, q.1 = id → q.2 = .Const C := by
  cases hp : s.pending with
  | nil =>
    rw [flatVisit_nil Folder s hp]
    exact hu
  | cons q rest =>
    obtain ⟨k0, I0⟩ := q
    cases hm0 : matchMul I0 with
    | none =>
      rw [flatVisit_skip Folder s k0 I0 rest hp hm0]
      exact hu
    | some x =>
      obtain ⟨id0, T0, P0, O0⟩ := x
      rw [flatVisit_rewrite Folder s k0 I0 rest hp id0 T0 P0 O0 hm0]
      intro q hq hid
      rcases List.mem_append.1 hq with hq | hq
      · exact hu q hq hid
      · simp only [List.mem_singleton] at hq
        subst hq
        simp only at hid
        subst hid
        have hI0 : I0.id = id0 := matchMul_id hm0
        have hin0 : id0 ∈ s.idList := by
          simp [Flat.idList, hp, hI0]
        rcases h with h | ⟨k, hk⟩
        · exact absurd hin0 (hok.2.2 _ h).2
        · rw [hp] at hk
          rcases List.mem_cons.1 hk with heq | hin
          · simp only [Prod.mk.injEq] at heq
            rw [← heq.2, hm] at hm0
            simp only [Option.some.injEq, Prod.mk.injEq] at hm0
            obtain ⟨_, rfl, rfl, rfl⟩ := hm0
            exact hN _
          · exfalso
            have hJ : J.id = id0 := matchMul_id hm
            have hnd := hok.1
            simp only [Flat.idList, hp, List.map_append, List.map_cons] at hnd
            rw [List.nodup_append] at hnd
            have := (List.nodup_cons.1 hnd.2.1).1
            apply this
            rw [hI0, ← hJ]
            exact List.mem_map.2 ⟨(k, J), hin, rfl⟩

/-- The number of instructions in the function goes down by one with each redirection
to a constant, and only then. -/
theorem count_step (Folder : Constant → Constant → Option Constant) (n : Nat) (s : Flat)
    (h : s.visited.length + s.pending.length +
      (s.Replaced.filter (fun q => q.2.isConstant)).length = n) :
    (Flat.visit Folder s).visited.length + (Flat.visit Folder s).pending.length +
      ((Flat.visit Folder s).Replaced.filter (fun q => q.2.isConstant)).length = n := by
  cases hp : s.pending with
  | nil =>
    rw [flatVisit_nil Folder s hp]
    exact h
  | cons q rest =>
    obtain ⟨k0, I0⟩ := q
    rw [hp] at h
    cases hm0 : matchMul I0 with
    | none =>
      rw [flatVisit_skip Folder s k0 I0 rest hp hm0]
      simp only [List.length_append, List.length_singleton, List.length_cons,
        List.length_nil] at h ⊢
      omega
    | some x =>
      obtain ⟨id0, T0, P0, O0⟩ := x
      rw [flatVisit_rewrite Folder s k0 I0 rest hp id0 T0 P0 O0 hm0]
      simp only [List.length_cons] at h
      rcases NewInst_cases Folder s.fresh T0 P0 O0 with ⟨C, OC, _, hN⟩ | hN
      · have hc : (Value.Const C).isConstant = true := rfl
        simp only [hN, Option.toList, List.map_nil, List.append_nil, List.length_map,
          List.filter_append, List.length_append, List.filter_cons, hc,
          if_true, List.filter_nil, List.length_singleton]
        omega
      · have hi : (Value.Inst s.fresh).isConstant = false := rfl
        simp only [hN, Option.toList, List.map_cons, List.map_nil, List.length_map,
          List.filter_append, List.length_append, List.filter_cons, hi,
          List.filter_nil, List.length_singleton, List.length_nil, Bool.false_eq_true,
          if_false]
        omega

/-- C12 (amended): in a function in which no eligible multiply has two constant
operands (so that no replacement shift is folded), for every eligible multiply at
position i of a block the block produced by the pass has at position i a new
left-shift instruction (its identity is above every identity of the entry function)
whose first operand is the multiply's other operand (redirected like every operand),
whose second operand is the shift-amount constant, and whose result type is the
multiply's integer type; every other instruction stands at its position with its
operands redirected, so every block keeps its instruction count and the order of its
instructions. An eligible multiply whose two operands are both integer constants
(`ConstantInt`), in any function, gets no shift instruction: the builder folds the
shift of the other operand to a constant and creates nothing (the integer
other_operand << shift_amount when the operands have the multiply's width), the uses of
the multiply are redirected to that constant, and, identities being distinct, to
nothing else, and the multiply is no longer in the function. In every function the
result has one instruction fewer than the entry function for each multiply whose uses
were redirected to a constant. -/
theorem C12_placement (Folder : Constant → Constant → Option Constant) (F : Function) :
    ((∀ B ∈ F.Blocks, ∀ I ∈ B, eligible I = true → bothConstant I = false) →
      ∀ (k : Nat) (B : BasicBlock), F.Blocks[k]? = some B →
        ∃ B2, (run Folder F).1.Blocks[k]? = some B2 ∧ B2.length = B.length ∧
          ∀ (i : Nat) (J : Instruction), B[i]? = some J →
            (eligible J = true →
              ∃ (id : Nat) (T : Ty) (P : APInt) (O : Value) (f : Nat),
                matchMul J = some (id, T, P, O) ∧ T = J.getType ∧ T.isIntegerTy = true ∧
                O ∈ J.operands ∧ (∀ I ∈ F.instructions, I.id < f) ∧
                B2[i]? = some (.BinaryOperator f .Shl T
                  (redirect (runState Folder F).Replaced O)
                  (.Const (.ConstantInt (ConstantInt.get T (ShiftAmount P)))))) ∧
            (eligible J = false →
              B2[i]? = some (J.redirect (runState Folder F).Replaced))) ∧
    (∀ (id : Nat) (T : Ty) (a b : APInt),
      Instruction.BinaryOperator id .Mul T (.Const (.ConstantInt a))
        (.Const (.ConstantInt b)) ∈ F.instructions →
      eligible (.BinaryOperator id .Mul T (.Const (.ConstantInt a))
        (.Const (.ConstantInt b))) = true →
      ∃ (P O : APInt) (C : Constant),
        matchMul (.BinaryOperator id .Mul T (.Const (.ConstantInt a))
          (.Const (.ConstantInt b))) = some (id, T, P, .Const (.ConstantInt O)) ∧
        ((P = a ∧ O = b) ∨ (P = b ∧ O = a)) ∧
        (∀ fresh, NewInst Folder fresh T P (.Const (.ConstantInt O)) =
          (.Const C, Option.none)) ∧
        (∀ N, IsBitWidth N → T = .IntegerTy N → P.BitWidth = N → O.BitWidth = N →
          P.WellFormed →
          P.VAL = 2 ^ ShiftAmount P ∧ C = .ConstantInt (O.shl (ShiftAmount P))) ∧
        (id, Value.Const C) ∈ (runState Folder F).Replaced ∧
        (F.WellFormed →
          (∀ q ∈ (runState Folder F).Replaced, q.1 = id → q.2 = .Const C) ∧
          ∀ X ∈ (run Folder F).1.instructions, X.id ≠ id)) ∧
    (run Folder F).1.instructions.length +
        ((runState Folder F).Replaced.filter (fun q => q.2.isConstant)).length =
      F.instructions.length := by
  refine ⟨?_, ?_, ?_⟩
  · intro h k B hB
    obtain ⟨B2, hB2, hrel⟩ := placed_blocks Folder F h k B hB
    refine ⟨B2, hB2, hrel.length_eq.symm, ?_⟩
    intro i J hJ
    obtain ⟨X, hX, hP⟩ := forall₂_getElem? hrel i J hJ
    constructor
    · intro he
      cases hm : matchMul J with
      | none =>
        rw [matchMul_eq_none.1 hm] at he
        exact absurd he (by simp)
      | some q =>
        obtain ⟨id, T, P, O⟩ := q
        simp only [PlacedAt, hm] at hP
        obtain ⟨f, hf, rfl⟩ := hP
        obtain ⟨L, R, b, rfl, hT, _⟩ := matchMul_some hm
        exact ⟨id, T, P, O, f, rfl, rfl, hT, (matchMul_operand hm).1,
          fun I hI => lt_of_lt_of_le (lt_freshId F I hI) hf, hX⟩
    · intro he
      simp only [PlacedAt, matchMul_eq_none.2 he] at hP
      rw [hX, hP]
  · intro id T a b hJ he
    obtain ⟨P, O, hm, hp, hPO⟩ := matchMul_of_ConstantInts id T a b he
    have hfix : ∀ m V, Instruction.replaceUsesOfWith m V
        (.BinaryOperator id .Mul T (.Const (.ConstantInt a)) (.Const (.ConstantInt b))) =
        .BinaryOperator id .Mul T (.Const (.ConstantInt a)) (.Const (.ConstantInt b)) := by
      intro m V
      simp [Instruction.replaceUsesOfWith, replaceUsesOfWith_const]
    have hN := fun fresh => NewInst_of_ConstantInt Folder fresh T P O
    have hN1 : ∀ fresh, (NewInst Folder fresh T P (.Const (.ConstantInt O))).1 =
        .Const (if (ConstantInt.get T (ShiftAmount P)).VAL < O.BitWidth
          then .ConstantInt (O.shl (ConstantInt.get T (ShiftAmount P)).VAL)
          else .Poison) := fun fresh => by rw [hN fresh]
    obtain ⟨j, hj⟩ := mem_instructions_iff.1 hJ
    refine ⟨P, O, _, hm, hPO, hN, ?_, ?_, ?_⟩
    · intro N hNw hT hPw hOw hPwf
      obtain ⟨k, hk, hv, _, _, hs⟩ := ShiftAmount_of_isPowerOfTwo P hPwf (hPw ▸ hNw.2) hp
      have hkN : k < N := hPw ▸ hk
      have hmod : k % 2 ^ N = k := Nat.mod_eq_of_lt (lt_trans hkN (Nat.lt_two_pow N))
      subst hT
      refine ⟨by rw [hs]; exact hv, ?_⟩
      simp [ConstantInt.get, hs, hmod, hOw, hkN]
    · have h := runState_flat Folder F
        (fun s => (id, Value.Const (if (ConstantInt.get T (ShiftAmount P)).VAL < O.BitWidth
            then .ConstantInt (O.shl (ConstantInt.get T (ShiftAmount P)).VAL)
            else .Poison)) ∈ s.Replaced ∨
          ∃ k, (k, Instruction.BinaryOperator id .Mul T (.Const (.ConstantInt a))
            (.Const (.ConstantInt b))) ∈ s.pending)
        (fun s hs => folded_step Folder _ id T P _ _ hm hfix hN1 s hs)
        (Or.inr ⟨j, hj⟩)
      rcases h with h | ⟨k, hk⟩
      · exact h
      · simp at hk
    · intro hwf
      have h := runState_flat Folder F
        (fun s => s.IdsOk ∧
          ((id, Value.Const (if (ConstantInt.get T (ShiftAmount P)).VAL < O.BitWidth
            then .ConstantInt (O.shl (ConstantInt.get T (ShiftAmount P)).VAL)
            else .Poison)) ∈ s.Replaced ∨
          ∃ k, (k, Instruction.BinaryOperator id .Mul T (.Const (.ConstantInt a))
            (.Const (.ConstantInt b))) ∈ s.pending) ∧
          ∀ q ∈ s.Replaced, q.1 = id →
            q.2 = .Const (if (ConstantInt.get T (ShiftAmount P)).VAL < O.BitWidth
              then .ConstantInt (O.shl (ConstantInt.get T (ShiftAmount P)).VAL)
              else .Poison))
        (fun s hs => ⟨IdsOk_step Folder s hs.1,
          folded_step Folder _ id T P _ _ hm hfix hN1 s hs.2.1,
          folded_unique_step Folder _ id T P _ _ hm hN1 s hs.1 hs.2.1 hs.2.2⟩)
        ⟨IdsOk_entry F hwf, Or.inr ⟨j, hj⟩, fun q hq => by simp at hq⟩
      obtain ⟨⟨_, _, hrep⟩, hin, hu⟩ := h
      refine ⟨hu, ?_⟩
      have hin2 : (id, Value.Const (if (ConstantInt.get T (ShiftAmount P)).VAL < O.BitWidth
            then .ConstantInt (O.shl (ConstantInt.get T (ShiftAmount P)).VAL)
            else .Poison)) ∈ (runState Folder F).Replaced := by
        rcases hin with h | ⟨k, hk⟩
        · exact h
        · simp at hk
      intro X hX hid
      apply (hrep _ hin2).2
      simp only [Flat.idList, List.append_nil]
      rw [tagFrom_idList (run Folder F).1, ← hid]
      exact List.mem_map_of_mem _ hX
  · have h := runState_flat Folder F
      (fun s => s.visited.length + s.pending.length +
        (s.Replaced.filter (fun q => q.2.isConstant)).length = F.instructions.length)
      (count_step Folder F.instructions.length)
      (by
        have := congrArg List.length (tagFrom_map_snd F.Blocks 0)
        simpa [Function.instructions] using this)
    have e := congrArg List.length (tagFrom_map_snd (run Folder F).1.Blocks 0)
    simp only [List.length_map] at e
    simp only [List.length_nil, Nat.add_zero] at h
    rw [e] at h
    exact h

/-- C12 on `x = a * 8; y = x + 1; z = x * 2; ret z`: shifts at positions 0 and 2, four
instructions as before; and on `x = 4 * 8; ret x`: the uses of the multiply are
redirected to the constant 32 and one instruction is left. -/
theorem C12_placement_witness :
    ((∀ B ∈ useChain.Blocks, ∀ I ∈ B, eligible I = true → bothConstant I = false) ∧
      useChain.Blocks[0]? = some (useChain.Blocks.getD 0 [])) ∧
    (∃ B2, (run NoFold useChain).1.Blocks[0]? = some B2 ∧
      B2.length = (useChain.Blocks.getD 0 []).length) ∧
    (run NoFold useChain).1.Blocks = [[
      .BinaryOperator 4 .Shl (.IntegerTy 32) (.Argument 0) (i32 3),
      .BinaryOperator 1 .Add (.IntegerTy 32) (.Inst 4) (i32 1),
      .BinaryOperator 5 .Shl (.IntegerTy 32) (.Inst 4) (i32 1),
      Ret 3 (.Inst 5)]] ∧
    (Instruction.BinaryOperator 0 .Mul (.IntegerTy 32) (i32 4) (i32 8) ∈
        fourTimesEight.instructions ∧
      eligible (.BinaryOperator 0 .Mul (.IntegerTy 32) (i32 4) (i32 8)) = true ∧
      fourTimesEight.WellFormed) ∧
    (∃ C, (0, Value.Const C) ∈ (runState NoFold fourTimesEight).Replaced) ∧
    (runState NoFold fourTimesEight).Replaced = [(0, i32 32)] ∧
    (run NoFold fourTimesEight).1.instructions.length +
        ((runState NoFold fourTimesEight).Replaced.filter (fun q => q.2.isConstant)).length =
      fourTimesEight.instructions.length :=
  ⟨⟨by decide, by decide⟩,
    ((C12_placement NoFold useChain).1 (by decide) 0 (useChain.Blocks.getD 0 [])
      (by decide)).imp (fun _ h => ⟨h.1, h.2.1⟩),
    by decide,
    ⟨by decide, by decide, by decide⟩,
    (let ⟨_, _, C, h⟩ := (C12_placement NoFold fourTimesEight).2.1 0 (.IntegerTy 32)
      ⟨32, 4⟩ ⟨32, 8⟩ (by decide) (by decide)
     ⟨C, h.2.2.2.2.1⟩),
    by decide,
    (C12_placement NoFold fourTimesEight).2.2⟩

/-- C12 as stated fails on `x = 4 * 8; ret x`: the eligible multiply at position 0 has
two constant operands, its shift is folded to the constant 32, and the block of the
result has one instruction, the return, and no shift. -/
theorem C12_placement_counterexample :
    eligible (.BinaryOperator 0 .Mul (.IntegerTy 32) (i32 4) (i32 8)) = true ∧
    fourTimesEight.Blocks = [[
      .BinaryOperator 0 .Mul (.IntegerTy 32) (i32 4) (i32 8), Ret 1 (.Inst 0)]] ∧
    (run NoFold fourTimesEight).1.Blocks = [[Ret 1 (i32 32)]] ∧
    ¬ ∃ X ∈ (run NoFold fourTimesEight).1.instructions, isShl X = true := by
  decide

end ShiftMul
